import Mathlib

/-! # Trace selection and translation lookup of the Dalvik JIT (`vm/interp/Jit.c`)

A shallow embedding of the target independent part of the JIT: the profile
table reset, the JIT entry table with its probe chains, the per-thread trace
selection state machine (`dvmCheckJit`) and the request gate
(`dvmJitCheckTraceRequest`), followed by theorems about them.

Conventions of the embedding:
* pointers are natural numbers, `0` is `NULL`; a `const u2*` is counted in
  16-bit code units, so pointer arithmetic on it is plain addition;
* C arrays are lists; an access outside the list, or through a `NULL` table
  pointer, is the fault `outOfBounds`;
* loops carry an iteration budget; running out of it is the fault `fuel`;
* `dvmAbort()` is the fault `abort`.
-/

deriving instance DecidableEq for Except

namespace Jit

/-- Ways in which a call fails to return to its caller. -/
inductive Fault where
  | abort
  | assertFail
  | outOfBounds
  | fuel
  deriving DecidableEq, Repr

/-- One slot of the JIT table (`struct JitEntry`). -/
structure JitEntry where
  dPC : Nat
  codeAddress : Nat
  chain : Nat
  deriving DecidableEq, Repr

/-- The values of `interpState->jitState`. -/
inductive JitState where
  | kJitOff
  | kJitNormal
  | kJitTSelectRequest
  | kJitTSelect
  | kJitTSelectAbort
  | kJitTSelectEnd
  | kJitSingleStep
  | kJitSingleStepEnd
  deriving DecidableEq, Repr

/-- Constants, macros and lookup tables that `Jit.c` takes from headers:
the hash macro `dvmJitHash`, the profile table size, the instruction flag
bits, the opcode of `throw` and three enumeration values. -/
structure Consts where
  dvmJitHash : Nat → Nat
  JIT_PROF_SIZE : Nat
  kInstrCanBranch : Nat
  kInstrCanSwitch : Nat
  kInstrCanReturn : Nat
  kInstrInvoke : Nat
  kInstrUnconditional : Nat
  kInstrNoJit : Nat
  OP_THROW : Nat
  kJitHintNone : Nat
  kWorkOrderTrace : Nat
  kInterpEntryResume : Nat

/-- The `frag` member of a `JitTraceRun`. -/
structure JitTraceRun where
  startOffset : Int
  numInsts : Nat
  runEnd : Bool
  hint : Nat
  deriving DecidableEq, Repr

/-- The part of `Method` that the JIT reads: the start of its code. -/
structure Method where
  insns : Nat
  deriving DecidableEq, Repr

/-- A `JitTraceDescription`: the method and the copied runs. -/
structure JitTraceDescription where
  method : Method
  trace : List JitTraceRun
  deriving DecidableEq, Repr

/-- One call of `dvmCompilerWorkEnqueue(pc, kind, info)`. -/
structure CompilerWorkOrder where
  pc : Nat
  kind : Nat
  info : JitTraceDescription
  deriving DecidableEq, Repr

/-- The fields of `Thread` that the JIT reads. -/
structure Thread where
  suspendCount : Int
  deriving DecidableEq, Repr

/-- The fields of `gDvm` that the JIT reads. -/
structure DvmGlobals where
  debuggerActive : Bool
  activeProfilers : Int
  sumThreadSuspendCount : Int
  deriving DecidableEq, Repr

/-- The JIT fields of `InterpState`. -/
structure InterpState where
  jitState : JitState
  pc : Nat
  method : Method
  currTraceHead : Nat
  currRunHead : Nat
  currRunLen : Nat
  currTraceRun : Nat
  totalTraceLen : Nat
  trace : List JitTraceRun
  entryPoint : Nat
  deriving DecidableEq, Repr

/-- The global `gDvmJit`, the file static `lastProfileResetTimeUsec`, and the
orders handed to the compiler so far (oldest first).

The profile array is allocated once; `profTable` is its content, and
`pProfTable`, `pProfTableCopy` tell whether the two pointers hold its address
(`true`) or `NULL` (`false`). `pJitEntryTable = none` is the `NULL` table. -/
structure DvmJitGlobals where
  pJitEntryTable : Option (List JitEntry)
  profTable : List Nat
  pProfTable : Bool
  pProfTableCopy : Bool
  maxTableEntries : Nat
  threshold : Nat
  blockingMode : Bool
  compilerQueueLength : Int
  compilerHighWater : Int
  lastProfileResetTimeUsec : Nat
  workOrders : List CompilerWorkOrder
  deriving DecidableEq, Repr

/-- What `dexDecodeInstruction`, `dexGetInstrFlags` and
`dexGetInstrOrTableWidthAbs` report for the instruction at `pc`. -/
structure InsnInfo where
  opCode : Nat
  flags : Nat
  width : Nat
  deriving DecidableEq, Repr

def MAX_TRACE_LEN : Nat := 100

def PROFILE_STALENESS_THRESHOLD : Nat := 250000

/-- Subtraction of two `u8` values. -/
def u8sub (a b : Nat) : Nat := (a % 2 ^ 64 + 2 ^ 64 - b % 2 ^ 64) % 2 ^ 64

/-- The store loop of `resetProfileCounts`: `pJitProfTable[i] = v` for
`i < n`; the elements are `unsigned char`. -/
def fillProfTable (v : Nat) (n : Nat) (tbl : List Nat) : List Nat :=
  (List.range n).foldl (fun t i => t.set i (v % 256)) tbl

/-- Source: `resetProfileCounts`; `now` is what `dvmGetRelativeTimeUsec()`
returns to it. -/
def resetProfileCounts (c : Consts) (g : DvmJitGlobals) (now : Nat) : DvmJitGlobals :=
  let g1 := { g with lastProfileResetTimeUsec := now }
  if g1.pProfTable then
    { g1 with profTable := fillProfTable g1.threshold c.JIT_PROF_SIZE g1.profTable }
  else g1

/-- The table that `dvmJitStartup` builds: zeroed slots whose `chain` is the
end marker `maxTableEntries`. -/
def startupTable (n : Nat) : List JitEntry :=
  List.replicate n { dPC := 0, codeAddress := 0, chain := n }

/-- Source: `dvmJitStartup`, in JIT execution mode with both allocations
succeeding; `g` supplies the configuration. `resetProfileCounts` runs before
the pointers to the new tables are stored, so it works through the old
`pProfTable` (`NULL` in a fresh process) and the new profile array keeps the
zeros of `memset`. -/
def dvmJitStartup (c : Consts) (g : DvmJitGlobals) (now : Nat) : DvmJitGlobals :=
  let g1 := resetProfileCounts c g now
  { g1 with
    pJitEntryTable := some (startupTable g.maxTableEntries),
    profTable := List.replicate c.JIT_PROF_SIZE 0,
    pProfTable := true,
    pProfTableCopy := true }

/-- Source: `dvmJitStopTranslationRequests`. -/
def dvmJitStopTranslationRequests (g : DvmJitGlobals) : DvmJitGlobals :=
  { g with pProfTable := false, pProfTableCopy := false }

/-- Modelled from the spec: the work-queue contract `enqueue(pc, kind,
descriptor)` of the compiler (`dvmCompilerWorkEnqueue`), which is not part of
`Jit.c`; the order is recorded at the end of `workOrders`. -/
def dvmCompilerWorkEnqueue (g : DvmJitGlobals) (pc kind : Nat)
    (info : JitTraceDescription) : DvmJitGlobals :=
  { g with workOrders := g.workOrders ++ [{ pc := pc, kind := kind, info := info }] }

/-- Modelled from the spec: `drainQueue()` of the compiler
(`dvmCompilerDrainQueue`) waits for the compiler and hands it no new order. -/
def dvmCompilerDrainQueue (g : DvmJitGlobals) : DvmJitGlobals := g

/-- The value of `debugOrProfile` in `dvmCheckJit`, which is also the last
three disjuncts of the gate in `dvmJitCheckTraceRequest`. -/
def debugOrProfile (gDvm : DvmGlobals) (self : Thread) : Bool :=
  gDvm.debuggerActive || decide (self.suspendCount ≠ 0) || decide (gDvm.activeProfilers ≠ 0)

/-- Source: `dvmCheckJit`, the body of `case kJitTSelectEnd`, which the
`kJitTSelect` case falls into for returns. `dop` is `debugOrProfile`;
`mallocOk` tells whether `malloc` of the descriptor succeeds. -/
def traceSelectEnd (c : Consts) (g : DvmJitGlobals) (st : InterpState)
    (dop mallocOk : Bool) : Except Fault (Bool × DvmJitGlobals × InterpState) :=
  if st.totalTraceLen = 0 then
    .ok (!dop, g, st)
  else if mallocOk = false then
    .ok (!dop, dvmJitStopTranslationRequests g, { st with jitState := .kJitTSelectAbort })
  else
    match st.trace[st.currTraceRun]? with
    | none => .error .outOfBounds
    | some r =>
      let st1 := { st with
        trace := st.trace.set st.currTraceRun { r with runEnd := true },
        jitState := .kJitNormal }
      let desc : JitTraceDescription :=
        { method := st1.method, trace := st1.trace.take (st1.currTraceRun + 1) }
      let g1 := dvmCompilerWorkEnqueue g st1.currTraceHead c.kWorkOrderTrace desc
      let g2 := if g1.blockingMode then dvmCompilerDrainQueue g1 else g1
      .ok (!dop, g2, st1)

/-- Source: `dvmCheckJit`, `case kJitTSelect`, the block that opens a new
trace run when `pc` does not continue the current one. -/
def startNewRun (c : Consts) (pc : Nat) (st : InterpState) : Except Fault InterpState :=
  if pc ≠ st.currRunHead + st.currRunLen then
    let currTraceRun := st.currTraceRun + 1
    if currTraceRun < st.trace.length then
      .ok { st with
        currTraceRun := currTraceRun,
        currRunLen := 0,
        currRunHead := pc,
        trace := st.trace.set currTraceRun
          { startOffset := (pc : Int) - (st.method.insns : Int), numInsts := 0,
            runEnd := false, hint := c.kJitHintNone } }
    else .error .outOfBounds
  else .ok st

/-- Source: `dvmCheckJit`, `case kJitTSelect`, from `numInsts++` to the three
tests that end the trace. -/
def addInsn (c : Consts) (st : InterpState) (insn : InsnInfo) : Except Fault InterpState :=
  match st.trace[st.currTraceRun]? with
  | none => .error .outOfBounds
  | some r =>
    let st1 := { st with
      trace := st.trace.set st.currTraceRun { r with numInsts := r.numInsts + 1 },
      totalTraceLen := st.totalTraceLen + 1,
      currRunLen := st.currRunLen + insn.width }
    let st2 :=
      if insn.flags &&& c.kInstrUnconditional = 0 ∧
          insn.flags &&& (c.kInstrCanBranch ||| c.kInstrCanSwitch |||
            c.kInstrCanReturn ||| c.kInstrInvoke) ≠ 0 then
        { st1 with jitState := .kJitTSelectEnd }
      else st1
    let st3 := if insn.opCode = c.OP_THROW then { st2 with jitState := .kJitTSelectEnd } else st2
    let st4 :=
      if st3.totalTraceLen ≥ MAX_TRACE_LEN then { st3 with jitState := .kJitTSelectEnd } else st3
    .ok st4

/-- Source: `dvmCheckJit`. The result is `switchInterp` with the new globals
and interpreter state. -/
def dvmCheckJit (c : Consts) (gDvm : DvmGlobals) (g : DvmJitGlobals) (pc : Nat)
    (self : Thread) (st : InterpState) (insn : InsnInfo) (mallocOk : Bool) :
    Except Fault (Bool × DvmJitGlobals × InterpState) :=
  let dop := debugOrProfile gDvm self
  match st.jitState with
  | .kJitTSelect =>
    if insn.flags &&& c.kInstrNoJit = c.kInstrNoJit then
      .ok (false, g, { st with jitState := .kJitTSelectEnd })
    else
      match startNewRun c pc st with
      | .error e => .error e
      | .ok st1 =>
        match addInsn c st1 insn with
        | .error e => .error e
        | .ok st2 =>
          if dop then
            .ok (!dop, g, { st2 with jitState := .kJitTSelectAbort })
          else if insn.flags &&& c.kInstrCanReturn ≠ c.kInstrCanReturn then
            .ok (false, g, st2)
          else traceSelectEnd c g st2 dop mallocOk
  | .kJitTSelectEnd => traceSelectEnd c g st dop mallocOk
  | .kJitSingleStep => .ok (false, g, { st with jitState := .kJitSingleStepEnd })
  | .kJitSingleStepEnd => .ok (!dop, g, { st with entryPoint := c.kInterpEntryResume })
  | .kJitTSelectAbort => .ok (!dop, g, { st with jitState := .kJitNormal })
  | .kJitNormal => .ok (false, g, st)
  | .kJitOff => .error .abort
  | .kJitTSelectRequest => .error .abort

/-- Source: `findJitEntry`, the `while` loop; the result is the index of the
entry found, or `none` for `NULL`. -/
def findJitEntryLoop (tbl : List JitEntry) (chainEndMarker pc : Nat) :
    Nat → Nat → Except Fault (Option Nat)
  | 0, _ => .error .fuel
  | fuel + 1, idx =>
    match tbl[idx]? with
    | none => .error .outOfBounds
    | some e =>
      if e.chain ≠ chainEndMarker then
        match tbl[e.chain]? with
        | none => .error .outOfBounds
        | some e1 =>
          if e1.dPC = pc then .ok (some e.chain)
          else findJitEntryLoop tbl chainEndMarker pc fuel e.chain
      else .ok none

/-- Source: `findJitEntry`. -/
def findJitEntry (c : Consts) (g : DvmJitGlobals) (pc : Nat) : Except Fault (Option Nat) :=
  match g.pJitEntryTable with
  | none => .error .outOfBounds
  | some tbl =>
    let idx := c.dvmJitHash pc
    match tbl[idx]? with
    | none => .error .outOfBounds
    | some e =>
      if e.dPC = pc then .ok (some idx)
      else findJitEntryLoop tbl g.maxTableEntries pc g.maxTableEntries idx

/-- Source: `dvmJitGetCodeAddr`, the `while` loop. -/
def getCodeAddrLoop (tbl : List JitEntry) (chainEndMarker dPC : Nat) :
    Nat → Nat → Except Fault Nat
  | 0, _ => .error .fuel
  | fuel + 1, idx =>
    match tbl[idx]? with
    | none => .error .outOfBounds
    | some e =>
      if e.chain ≠ chainEndMarker then
        match tbl[e.chain]? with
        | none => .error .outOfBounds
        | some e1 =>
          if e1.dPC = dPC then .ok e1.codeAddress
          else getCodeAddrLoop tbl chainEndMarker dPC fuel e.chain
      else .ok 0

/-- Source: `dvmJitGetCodeAddr`; the result `0` is `NULL`. -/
def dvmJitGetCodeAddr (c : Consts) (gDvm : DvmGlobals) (g : DvmJitGlobals) (dPC : Nat) :
    Except Fault Nat :=
  let idx := c.dvmJitHash dPC
  if gDvm.sumThreadSuspendCount > 0 then .ok 0
  else
    match g.pJitEntryTable with
    | none => .error .outOfBounds
    | some tbl =>
      match tbl[idx]? with
      | none => .error .outOfBounds
      | some e =>
        if e.dPC = dPC then .ok e.codeAddress
        else getCodeAddrLoop tbl g.maxTableEntries dPC g.maxTableEntries idx

/-- Source: `dvmJitSetCodeAddr`; `assert(jitEntry)` guards the store through
the pointer. -/
def dvmJitSetCodeAddr (c : Consts) (g : DvmJitGlobals) (dPC nPC : Nat) :
    Except Fault DvmJitGlobals :=
  match findJitEntry c g dPC with
  | .error e => .error e
  | .ok none => .error .assertFail
  | .ok (some i) =>
    match g.pJitEntryTable with
    | none => .error .outOfBounds
    | some tbl =>
      match tbl[i]? with
      | none => .error .outOfBounds
      | some e => .ok { g with pJitEntryTable := some (tbl.set i { e with codeAddress := nPC ||| 1 }) }

/-- Source: `dvmJitCheckTraceRequest`, the unlocked walk of the bucket chain
`while (chain != chainEndMarker && dPC != pc) idx = chain`. -/
def walkChain (tbl : List JitEntry) (chainEndMarker pc : Nat) : Nat → Nat → Except Fault Nat
  | 0, _ => .error .fuel
  | fuel + 1, idx =>
    match tbl[idx]? with
    | none => .error .outOfBounds
    | some e =>
      if e.chain ≠ chainEndMarker ∧ e.dPC ≠ pc then walkChain tbl chainEndMarker pc fuel e.chain
      else .ok idx

/-- Source: `dvmJitCheckTraceRequest`, the walk to the last slot of the chain
under the lock, `while (chain != chainEndMarker) idx = chain`. -/
def walkToEnd (tbl : List JitEntry) (chainEndMarker : Nat) : Nat → Nat → Except Fault Nat
  | 0, _ => .error .fuel
  | fuel + 1, idx =>
    match tbl[idx]? with
    | none => .error .outOfBounds
    | some e =>
      if e.chain ≠ chainEndMarker then walkToEnd tbl chainEndMarker fuel e.chain
      else .ok idx

/-- Source: `dvmJitCheckTraceRequest`, the linear walk `while (true)` that
looks for a free cell after `prev`, with wraparound. -/
def probeFree (tbl : List JitEntry) (chainEndMarker prev : Nat) : Nat → Nat → Except Fault Nat
  | 0, _ => .error .fuel
  | fuel + 1, idx =>
    let idx1 := idx + 1
    let idx2 := if idx1 = chainEndMarker then 0 else idx1
    match tbl[idx2]? with
    | none => .error .outOfBounds
    | some e =>
      if e.dPC = 0 ∨ idx2 = prev then .ok idx2
      else probeFree tbl chainEndMarker prev fuel idx2

/-- Source: `dvmJitCheckTraceRequest`, the block `if (dPC != NULL)` under the
lock: find the end of the chain, probe for a free cell and chain it. The
result is the table and the final `idx`. -/
def chainFreeSlot (tbl : List JitEntry) (chainEndMarker idx : Nat) :
    Except Fault (List JitEntry × Nat) :=
  match walkToEnd tbl chainEndMarker chainEndMarker idx with
  | .error e => .error e
  | .ok last =>
    match tbl[last]? with
    | none => .error .outOfBounds
    | some eLast =>
      if eLast.dPC = 0 then .error .assertFail
      else
        let prev := last
        match probeFree tbl chainEndMarker prev chainEndMarker last with
        | .error e => .error e
        | .ok idx1 =>
          if idx1 ≠ prev then .ok (tbl.set prev { eLast with chain := idx1 }, idx1)
          else .ok (tbl, idx1)

/-- Source: `dvmJitCheckTraceRequest`, the branch
`else if (interpState->jitState == kJitTSelectRequest)`: look the pc up and,
when it has no slot, allocate one under the table lock. -/
def acquireSlot (c : Consts) (g : DvmJitGlobals) (tbl : List JitEntry) (st : InterpState) :
    Except Fault (DvmJitGlobals × InterpState) :=
  let chainEndMarker := g.maxTableEntries
  match walkChain tbl chainEndMarker st.pc chainEndMarker (c.dvmJitHash st.pc) with
  | .error e => .error e
  | .ok idx =>
    match tbl[idx]? with
    | none => .error .outOfBounds
    | some e =>
      if e.dPC = st.pc then
        .ok (g, { st with jitState := .kJitTSelectAbort })
      else
        let r : Except Fault (List JitEntry × Nat) :=
          if e.dPC ≠ 0 then chainFreeSlot tbl chainEndMarker idx else .ok (tbl, idx)
        match r with
        | .error err => .error err
        | .ok (tbl1, idx1) =>
          match tbl1[idx1]? with
          | none => .error .outOfBounds
          | some e1 =>
            if e1.dPC = 0 then
              .ok ({ g with pJitEntryTable := some (tbl1.set idx1 { e1 with dPC := st.pc }) }, st)
            else
              .ok (dvmJitStopTranslationRequests g, { st with jitState := .kJitTSelectAbort })

/-- Source: `dvmJitCheckTraceRequest`, the final `switch` on the state: a
pending request is promoted to trace selection; `kJitTSelectEnd` has no case
and reaches `dvmAbort()`. -/
def promoteRequest (c : Consts) (res : Bool) (st : InterpState) : Except Fault (Bool × InterpState) :=
  match st.jitState with
  | .kJitTSelectRequest =>
    match st.trace with
    | [] => .error .outOfBounds
    | _ :: rest =>
      .ok (res, { st with
        jitState := .kJitTSelect,
        currTraceHead := st.pc,
        currTraceRun := 0,
        totalTraceLen := 0,
        currRunHead := st.pc,
        currRunLen := 0,
        trace := { startOffset := (st.pc : Int) - (st.method.insns : Int), numInsts := 0,
                   runEnd := false, hint := c.kJitHintNone } :: rest })
  | .kJitTSelect => .ok (true, st)
  | .kJitTSelectAbort => .ok (true, st)
  | .kJitSingleStep => .ok (res, st)
  | .kJitSingleStepEnd => .ok (res, st)
  | .kJitOff => .ok (res, st)
  | .kJitNormal => .ok (res, st)
  | .kJitTSelectEnd => .error .abort

/-- The condition of the first `if` of `dvmJitCheckTraceRequest`: the
compiler is backlogged, or a debugger or profiler is active, or the thread is
being suspended. -/
def abortGate (gDvm : DvmGlobals) (g : DvmJitGlobals) (self : Thread) : Bool :=
  decide (g.compilerQueueLength ≥ g.compilerHighWater) || debugOrProfile gDvm self

/-- Source: `dvmJitCheckTraceRequest`. `now` is the clock value read for
`delta`, `resetNow` the one read by `resetProfileCounts` when it is called.
The result is `res` with the new globals and interpreter state. -/
def dvmJitCheckTraceRequest (c : Consts) (gDvm : DvmGlobals) (g : DvmJitGlobals)
    (self : Thread) (st : InterpState) (now resetNow : Nat) :
    Except Fault (Bool × DvmJitGlobals × InterpState) :=
  match g.pJitEntryTable with
  | none => .ok (false, g, st)
  | some tbl =>
    let delta := u8sub now g.lastProfileResetTimeUsec
    let r : Except Fault (Bool × DvmJitGlobals × InterpState) :=
      if abortGate gDvm g self then
        .ok (false, g, if st.jitState ≠ .kJitOff then { st with jitState := .kJitNormal } else st)
      else if delta > PROFILE_STALENESS_THRESHOLD then
        .ok (true, resetProfileCounts c g resetNow, st)
      else if st.jitState = .kJitTSelectRequest then
        match acquireSlot c g tbl st with
        | .error e => .error e
        | .ok (g1, st1) => .ok (false, g1, st1)
      else .ok (false, g, st)
    match r with
    | .error e => .error e
    | .ok (res, g1, st1) =>
      match promoteRequest c res st1 with
      | .error e => .error e
      | .ok (res1, st2) => .ok (res1, g1, st2)

/-! ## Reachable tables and the chain structure -/

/-- The tables that the module can produce: the startup table of capacity `n`,
and what a completed `dvmJitCheckTraceRequest` or `dvmJitSetCodeAddr` call
makes of a reachable table. The calls run one at a time; everything but the
table (thread state, pc, queue length, clock, suspend counts) is arbitrary at
each call. -/
inductive Reachable (c : Consts) (n : Nat) : List JitEntry → Prop where
  | startup : Reachable c n (startupTable n)
  | request {tbl tbl1 : List JitEntry} (gDvm : DvmGlobals) (g g1 : DvmJitGlobals)
      (self : Thread) (st st1 : InterpState) (now resetNow : Nat) (res : Bool) :
      Reachable c n tbl → g.pJitEntryTable = some tbl → g.maxTableEntries = n →
      dvmJitCheckTraceRequest c gDvm g self st now resetNow = .ok (res, g1, st1) →
      g1.pJitEntryTable = some tbl1 → Reachable c n tbl1
  | setCodeAddr {tbl tbl1 : List JitEntry} (g g1 : DvmJitGlobals) (dPC nPC : Nat) :
      Reachable c n tbl → g.pJitEntryTable = some tbl → g.maxTableEntries = n →
      dvmJitSetCodeAddr c g dPC nPC = .ok g1 →
      g1.pJitEntryTable = some tbl1 → Reachable c n tbl1

/-- The `dPC` field of slot `i`, for `i` inside the table. -/
def dpcAt (tbl : List JitEntry) (i : Nat) : Option Nat := tbl[i]?.map JitEntry.dPC

/-- The `chain` field of slot `i`, for `i` inside the table. -/
def chainAt (tbl : List JitEntry) (i : Nat) : Option Nat := tbl[i]?.map JitEntry.chain

/-- One step along a chain: the `chain` field of slot `i`; the end marker `n`
(and anything outside the table) leads to the end marker. -/
def nextIdx (tbl : List JitEntry) (n : Nat) (i : Nat) : Nat := (chainAt tbl i).getD n

/-- Shape of the chains: the table has `n` slots, chain fields are at most the
end marker `n`, empty slots are chain ends, and links go up along a rank. -/
structure ChainInv (n : Nat) (tbl : List JitEntry) : Prop where
  len : tbl.length = n
  chain_le : ∀ i m, chainAt tbl i = some m → m ≤ n
  empty_end : ∀ i, dpcAt tbl i = some 0 → chainAt tbl i = some n
  rank : ∃ (r : Nat → Nat) (b : Nat), (∀ i, r i < b) ∧
    ∀ i m, chainAt tbl i = some m → m ≠ n → r i < r m

/-- Chain shape together with: every occupied slot is on the chain of its
pc's bucket, and no pc occupies two slots. -/
structure TableInv (c : Consts) (n : Nat) (tbl : List JitEntry) extends
    ChainInv n tbl : Prop where
  reach : ∀ i p, dpcAt tbl i = some p → p ≠ 0 →
    ∃ k, (nextIdx tbl n)^[k] (c.dvmJitHash p) = i
  uniq : ∀ i j p, dpcAt tbl i = some p → dpcAt tbl j = some p → p ≠ 0 → i = j

/-- The `codeAddress` field of slot `i` (`0` outside the table). -/
def codeAt (tbl : List JitEntry) (i : Nat) : Nat := (tbl[i]?.map JitEntry.codeAddress).getD 0

/-- The value that the lookup returns for the result of `findJitEntry`. -/
def codeOf (tbl : List JitEntry) : Option Nat → Nat
  | some i => codeAt tbl i
  | none => 0

/-! ## A small configuration for the examples -/

/-- Four-slot configuration: the hash is `pc mod 4`, the flag bits are those of
`libdex/InstrUtils.h`. -/
def exConsts : Consts :=
  { dvmJitHash := fun p => p % 4, JIT_PROF_SIZE := 4, kInstrCanBranch := 1,
    kInstrCanSwitch := 4, kInstrCanReturn := 16, kInstrInvoke := 32,
    kInstrUnconditional := 64, kInstrNoJit := 128, OP_THROW := 39, kJitHintNone := 0,
    kWorkOrderTrace := 0, kInterpEntryResume := 3 }

/-- The globals of a fresh process: four slots configured, threshold 40, no
table allocated yet. -/
def exConfig : DvmJitGlobals :=
  { pJitEntryTable := none, profTable := [], pProfTable := false, pProfTableCopy := false,
    maxTableEntries := 4, threshold := 40, blockingMode := false, compilerQueueLength := 0,
    compilerHighWater := 10, lastProfileResetTimeUsec := 0, workOrders := [] }

/-- The globals right after startup at time 0. -/
def exGlobals : DvmJitGlobals := dvmJitStartup exConsts exConfig 0

/-- No debugger, no profiler, no suspended thread. -/
def exDvm : DvmGlobals := { debuggerActive := false, activeProfilers := 0, sumThreadSuspendCount := 0 }

/-- A debugger is attached. -/
def exDvmDebugger : DvmGlobals :=
  { debuggerActive := true, activeProfilers := 0, sumThreadSuspendCount := 0 }

def exThread : Thread := { suspendCount := 0 }

def exRun : JitTraceRun := { startOffset := 0, numInsts := 0, runEnd := false, hint := 0 }

/-- A thread that asks for a trace at `pc` in a method whose code starts at 4. -/
def exRequest (pc : Nat) : InterpState :=
  { jitState := .kJitTSelectRequest, pc := pc, method := { insns := 4 }, currTraceHead := 0,
    currRunHead := 0, currRunLen := 0, currTraceRun := 0, totalTraceLen := 0,
    trace := [exRun, exRun, exRun], entryPoint := 0 }

/-- The four-slot table after a request for pc 4. -/
def exTable1 : List JitEntry :=
  [{ dPC := 4, codeAddress := 0, chain := 4 }, { dPC := 0, codeAddress := 0, chain := 4 },
   { dPC := 0, codeAddress := 0, chain := 4 }, { dPC := 0, codeAddress := 0, chain := 4 }]

/-- The four-slot table after requests for pcs 4 and 8, which share bucket 0. -/
def exTable2 : List JitEntry :=
  [{ dPC := 4, codeAddress := 0, chain := 1 }, { dPC := 8, codeAddress := 0, chain := 4 },
   { dPC := 0, codeAddress := 0, chain := 4 }, { dPC := 0, codeAddress := 0, chain := 4 }]

/-- The four-slot table that holds pc 4 with code address `a`. -/
def exInstalled (a : Nat) : List JitEntry :=
  [{ dPC := 4, codeAddress := a, chain := 4 }, { dPC := 0, codeAddress := 0, chain := 4 },
   { dPC := 0, codeAddress := 0, chain := 4 }, { dPC := 0, codeAddress := 0, chain := 4 }]

/-- The state of `exRequest pc` once promoted to trace selection. -/
def exPromoted (pc : Nat) : InterpState :=
  { exRequest pc with
    jitState := .kJitTSelect, currTraceHead := pc, currRunHead := pc,
    trace := [{ startOffset := (pc : Int) - 4, numInsts := 0, runEnd := false, hint := 0 },
      exRun, exRun] }

/-! ## Sequences of calls -/

/-- One call of an operation of the module, with the inputs of that call. -/
inductive JitOp where
  | checkTraceRequest (gDvm : DvmGlobals) (self : Thread) (st : InterpState)
      (now resetNow : Nat)
  | checkJit (gDvm : DvmGlobals) (pc : Nat) (self : Thread) (st : InterpState)
      (insn : InsnInfo) (mallocOk : Bool)
  | setCodeAddr (dPC nPC : Nat)
  | stopTranslationRequests

/-- The globals after one call. -/
def applyOp (c : Consts) (g : DvmJitGlobals) : JitOp → Except Fault DvmJitGlobals
  | .checkTraceRequest gDvm self st now resetNow =>
    match dvmJitCheckTraceRequest c gDvm g self st now resetNow with
    | .error e => .error e
    | .ok (_, g1, _) => .ok g1
  | .checkJit gDvm pc self st insn mallocOk =>
    match dvmCheckJit c gDvm g pc self st insn mallocOk with
    | .error e => .error e
    | .ok (_, g1, _) => .ok g1
  | .setCodeAddr dPC nPC => dvmJitSetCodeAddr c g dPC nPC
  | .stopTranslationRequests => .ok (dvmJitStopTranslationRequests g)

/-- The globals after a sequence of calls, each completed before the next. -/
def runOps (c : Consts) : DvmJitGlobals → List JitOp → Except Fault DvmJitGlobals
  | g, [] => .ok g
  | g, op :: ops =>
    match applyOp c g op with
    | .error e => .error e
    | .ok g1 => runOps c g1 ops

/-- The inputs of one `dvmCheckJit` call of a thread. -/
structure CheckJitCall where
  gDvm : DvmGlobals
  pc : Nat
  self : Thread
  insn : InsnInfo
  mallocOk : Bool

/-- A thread drives its selection by a sequence of `dvmCheckJit` calls. -/
def runCheckJit (c : Consts) :
    DvmJitGlobals × InterpState → List CheckJitCall → Except Fault (DvmJitGlobals × InterpState)
  | s, [] => .ok s
  | (g, st), k :: ks =>
    match dvmCheckJit c k.gDvm g k.pc k.self st k.insn k.mallocOk with
    | .error e => .error e
    | .ok (_, g1, st1) => runCheckJit c (g1, st1) ks

/-- The runs `trace[0..currTraceRun]` of a selection in progress: they are
inside the array, their instruction counts add up to `totalTraceLen`, and none
is marked as the last run. -/
def RunsInv (st : InterpState) : Prop :=
  st.currTraceRun < st.trace.length ∧
  ((st.trace.take (st.currTraceRun + 1)).map JitTraceRun.numInsts).sum = st.totalTraceLen ∧
  ∀ r ∈ st.trace.take (st.currTraceRun + 1), r.runEnd = false

/-- Invariant of the trace selection: while a thread selects, its runs are
consistent and the trace is shorter than `MAX_TRACE_LEN`; when the selection
is about to end, the trace is at most `MAX_TRACE_LEN` long. -/
def TraceInv (st : InterpState) : Prop :=
  (st.jitState = .kJitTSelect → RunsInv st ∧ st.totalTraceLen < MAX_TRACE_LEN) ∧
  (st.jitState = .kJitTSelectEnd → RunsInv st ∧ st.totalTraceLen ≤ MAX_TRACE_LEN)

/-- A call of `dvmCheckJit` for an ordinary one-unit instruction at `pc`. -/
def exPlainCall (pc : Nat) : CheckJitCall :=
  { gDvm := exDvm, pc := pc, self := exThread,
    insn := { opCode := 1, flags := 2, width := 1 }, mallocOk := true }

/-- A call of `dvmCheckJit` for a return instruction at `pc`. -/
def exReturnCall (pc : Nat) : CheckJitCall :=
  { gDvm := exDvm, pc := pc, self := exThread,
    insn := { opCode := 14, flags := 16, width := 1 }, mallocOk := true }

/-- The globals once pc 4 has its slot. -/
def exGlobals1 : DvmJitGlobals := { exGlobals with pJitEntryTable := some exTable1 }

/-- The selection at pc 4 after one ordinary instruction. -/
def exSelecting : InterpState :=
  { exPromoted 4 with
    currRunLen := 1, totalTraceLen := 1,
    trace := [{ startOffset := 0, numInsts := 1, runEnd := false, hint := 0 }, exRun, exRun] }

/-- The work order for the trace of two instructions at pc 4. -/
def exOrder : CompilerWorkOrder :=
  { pc := 4, kind := 0,
    info := { method := { insns := 4 },
              trace := [{ startOffset := 0, numInsts := 2, runEnd := true, hint := 0 }] } }

/-- The thread after its trace of two instructions was enqueued. -/
def exFinished : InterpState :=
  { exPromoted 4 with
    jitState := .kJitNormal, currRunLen := 2, totalTraceLen := 2,
    trace := [{ startOffset := 0, numInsts := 2, runEnd := true, hint := 0 }, exRun, exRun] }

/-! ## The locked section, store by store -/

/-- Source: `dvmJitCheckTraceRequest`, the section between `dvmLockMutex` and
`dvmUnlockMutex`, entered with the `idx` that the walk before the lock left. -/
def lockedSection (g : DvmJitGlobals) (tbl : List JitEntry) (idx : Nat)
    (st : InterpState) : Except Fault (DvmJitGlobals × InterpState) :=
  let chainEndMarker := g.maxTableEntries
  match tbl[idx]? with
  | none => .error .outOfBounds
  | some e =>
    let r : Except Fault (List JitEntry × Nat) :=
      if e.dPC ≠ 0 then chainFreeSlot tbl chainEndMarker idx else .ok (tbl, idx)
    match r with
    | .error err => .error err
    | .ok (tbl1, idx1) =>
      match tbl1[idx1]? with
      | none => .error .outOfBounds
      | some e1 =>
        if e1.dPC = 0 then
          .ok ({ g with pJitEntryTable := some (tbl1.set idx1 { e1 with dPC := st.pc }) }, st)
        else
          .ok (dvmJitStopTranslationRequests g, { st with jitState := .kJitTSelectAbort })

/-- One store into a field of a slot of the JIT table. -/
inductive TableStore where
  | chain (idx val : Nat)
  | dPC (idx val : Nat)
deriving DecidableEq, Repr

/-- The table after one store. -/
def applyStore (tbl : List JitEntry) : TableStore → List JitEntry
  | .chain idx val =>
    match tbl[idx]? with
    | none => tbl
    | some e => tbl.set idx { e with chain := val }
  | .dPC idx val =>
    match tbl[idx]? with
    | none => tbl
    | some e => tbl.set idx { e with dPC := val }

/-- The table after a sequence of stores, in order. -/
def applyStores (tbl : List JitEntry) (stores : List TableStore) : List JitEntry :=
  stores.foldl applyStore tbl

/-- Source: `dvmJitCheckTraceRequest`, the section between `dvmLockMutex` and
`dvmUnlockMutex` as the stores into the table that it issues, in program
order: `pJitEntryTable[prev].chain = idx` of the chaining block first, then
`pJitEntryTable[idx].dPC = interpState->pc` of the allocation. -/
def lockedStores (tbl : List JitEntry) (chainEndMarker idx pc : Nat) :
    Except Fault (List TableStore) :=
  match tbl[idx]? with
  | none => .error .outOfBounds
  | some e =>
    let r : Except Fault (List TableStore × Nat) :=
      if e.dPC ≠ 0 then
        match walkToEnd tbl chainEndMarker chainEndMarker idx with
        | .error err => .error err
        | .ok last =>
          match tbl[last]? with
          | none => .error .outOfBounds
          | some eLast =>
            if eLast.dPC = 0 then .error .assertFail
            else
              let prev := last
              match probeFree tbl chainEndMarker prev chainEndMarker last with
              | .error err => .error err
              | .ok idx1 =>
                if idx1 ≠ prev then .ok ([TableStore.chain prev idx1], idx1)
                else .ok ([], idx1)
      else .ok ([], idx)
    match r with
    | .error err => .error err
    | .ok (stores, idx1) =>
      match (applyStores tbl stores)[idx1]? with
      | none => .error .outOfBounds
      | some e1 =>
        if e1.dPC = 0 then .ok (stores ++ [TableStore.dPC idx1 pc])
        else .ok stores

/-- Two threads run the request branch of `dvmJitCheckTraceRequest` for their
pcs on the same table: each completes the walk before the lock and the match
test on the table as it is at the start; a thread that found its pc goes to
`kJitTSelectAbort`, and the locked sections of the others run one after the
other, first that of thread `a`, then that of thread `b`, each entered with
the `idx` its own walk left. The final `switch`, which does not touch the
table, is left out. -/
def racingRequests (c : Consts) (g : DvmJitGlobals) (stA stB : InterpState) :
    Except Fault (DvmJitGlobals × InterpState × InterpState) :=
  match g.pJitEntryTable with
  | none => .ok (g, stA, stB)
  | some tbl =>
    let chainEndMarker := g.maxTableEntries
    match walkChain tbl chainEndMarker stA.pc chainEndMarker (c.dvmJitHash stA.pc),
        walkChain tbl chainEndMarker stB.pc chainEndMarker (c.dvmJitHash stB.pc) with
    | .error e, _ => .error e
    | _, .error e => .error e
    | .ok idxA, .ok idxB =>
      match tbl[idxA]?, tbl[idxB]? with
      | some eA, some eB =>
        let rA : Except Fault (DvmJitGlobals × InterpState) :=
          if eA.dPC = stA.pc then .ok (g, { stA with jitState := .kJitTSelectAbort })
          else lockedSection g tbl idxA stA
        match rA with
        | .error e => .error e
        | .ok (gA, stA1) =>
          let rB : Except Fault (DvmJitGlobals × InterpState) :=
            if eB.dPC = stB.pc then .ok (gA, { stB with jitState := .kJitTSelectAbort })
            else lockedSection gA (gA.pJitEntryTable.getD tbl) idxB stB
          match rB with
          | .error e => .error e
          | .ok (gB, stB1) => .ok (gB, stA1, stB1)
      | _, _ => .error .outOfBounds

/-- The four-slot table in which pc 4 holds slot 0 and, chained behind it,
slot 1. -/
def exTableRace : List JitEntry :=
  [{ dPC := 4, codeAddress := 0, chain := 1 }, { dPC := 4, codeAddress := 0, chain := 4 },
   { dPC := 0, codeAddress := 0, chain := 4 }, { dPC := 0, codeAddress := 0, chain := 4 }]

/-! ## Sequences of trace requests -/

/-- The number of slots of the table that hold a pc. -/
def occupied (tbl : List JitEntry) : Nat := tbl.countP (fun e => decide (e.dPC ≠ 0))

/-- The inputs of one `dvmJitCheckTraceRequest` call. -/
structure RequestCall where
  gDvm : DvmGlobals
  self : Thread
  st : InterpState
  now : Nat
  resetNow : Nat

/-- A sequence of `dvmJitCheckTraceRequest` calls, each completed before the
next: the final globals, and the result and thread state of every call. -/
def runRequests (c : Consts) :
    DvmJitGlobals → List RequestCall → Except Fault (DvmJitGlobals × List (Bool × InterpState))
  | g, [] => .ok (g, [])
  | g, k :: ks =>
    match dvmJitCheckTraceRequest c k.gDvm g k.self k.st k.now k.resetNow with
    | .error e => .error e
    | .ok (res, g1, st1) =>
      match runRequests c g1 ks with
      | .error e => .error e
      | .ok (g2, outs) => .ok (g2, (res, st1) :: outs)

/-- A request for `pc` at time 0 with no debugger, profiler or suspension. -/
def exCall (pc : Nat) : RequestCall :=
  { gDvm := exDvm, self := exThread, st := exRequest pc, now := 0, resetNow := 0 }

/-- The four-slot table after requests for pcs 4, 8, 12 and 16, which share
bucket 0: every slot is taken. -/
def exTableFull : List JitEntry :=
  [{ dPC := 4, codeAddress := 0, chain := 1 }, { dPC := 8, codeAddress := 0, chain := 2 },
   { dPC := 12, codeAddress := 0, chain := 3 }, { dPC := 16, codeAddress := 0, chain := 4 }]

/-! ## Run splitting -/

/-- Spec ("the recorded runs are exactly the maximal contiguous segments"):
the segment that starts with an instruction at `p` of width `w`, put in front
of the segments `segs` of the instructions that follow, the first of which is
at `p1`. The instruction joins the first segment when `p1 = p + w`, and is a
segment of its own otherwise. -/
def specMergeHead (p w p1 : Nat) : List (Nat × Nat) → List (Nat × Nat)
  | [] => [(p, 1)]
  | (s, n) :: segs => if p1 = p + w then (p, n + 1) :: segs else (p, 1) :: (s, n) :: segs

/-- Spec ("the recorded runs are exactly the maximal contiguous segments of
the pc sequence"): the maximal contiguous segments of a sequence of
instructions given as pairs (pc, width). A segment is returned as the pc of its
first instruction and the number of its instructions; an instruction continues
the segment of its predecessor iff its pc is the predecessor's pc plus the
predecessor's width. -/
def specSegments : List (Nat × Nat) → List (Nat × Nat)
  | [] => []
  | [(p, _)] => [(p, 1)]
  | (p, w) :: (p1, w1) :: rest => specMergeHead p w p1 (specSegments ((p1, w1) :: rest))

/-- The runs that a selection has recorded, `trace[0..currTraceRun]`, each as
its `startOffset` and `numInsts`. -/
def recordedRuns (st : InterpState) : List (Int × Nat) :=
  (st.trace.take (st.currTraceRun + 1)).map (fun r => (r.startOffset, r.numInsts))

/-- Source: `dvmCheckJit`, `case kJitTSelect`: none of the tests on the
instruction that end the selection holds. The instruction is not a conditional
branch, switch, return or invoke, it is not a throw, and it cannot return. -/
def continuesTrace (c : Consts) (insn : InsnInfo) : Bool :=
  !(decide (insn.flags &&& c.kInstrUnconditional = 0 ∧
      insn.flags &&& (c.kInstrCanBranch ||| c.kInstrCanSwitch |||
        c.kInstrCanReturn ||| c.kInstrInvoke) ≠ 0)) &&
  decide (insn.opCode ≠ c.OP_THROW) &&
  decide (insn.flags &&& c.kInstrCanReturn ≠ c.kInstrCanReturn)

/-- A thread that asks for a trace at pc 4 with room for ten runs. -/
def exRequestTen : InterpState := { exRequest 4 with trace := List.replicate 10 exRun }

/-- The state of `exRequestTen` once promoted to trace selection. -/
def exPromotedTen : InterpState :=
  { exRequestTen with
    jitState := .kJitTSelect, currTraceHead := 4, currRunHead := 4,
    trace := { startOffset := 0, numInsts := 0, runEnd := false, hint := 0 } ::
      List.replicate 9 exRun }

/-- Ten ordinary one-unit instructions at the pcs 4 to 13. -/
def exContiguous : List CheckJitCall :=
  [exPlainCall 4, exPlainCall 5, exPlainCall 6, exPlainCall 7, exPlainCall 8, exPlainCall 9,
   exPlainCall 10, exPlainCall 11, exPlainCall 12, exPlainCall 13]

/-! ## Tables reached by requests for non-null pcs -/

/-- The tables that the module produces when every trace request is made for a
non-null pc: as `Reachable`, with `st.pc ≠ 0` at each
`dvmJitCheckTraceRequest` call. -/
inductive ReachableNonNull (c : Consts) (n : Nat) : List JitEntry → Prop where
  | startup : ReachableNonNull c n (startupTable n)
  | request {tbl tbl1 : List JitEntry} (gDvm : DvmGlobals) (g g1 : DvmJitGlobals)
      (self : Thread) (st st1 : InterpState) (now resetNow : Nat) (res : Bool) :
      ReachableNonNull c n tbl → g.pJitEntryTable = some tbl → g.maxTableEntries = n →
      st.pc ≠ 0 →
      dvmJitCheckTraceRequest c gDvm g self st now resetNow = .ok (res, g1, st1) →
      g1.pJitEntryTable = some tbl1 → ReachableNonNull c n tbl1
  | setCodeAddr {tbl tbl1 : List JitEntry} (g g1 : DvmJitGlobals) (dPC nPC : Nat) :
      ReachableNonNull c n tbl → g.pJitEntryTable = some tbl → g.maxTableEntries = n →
      dvmJitSetCodeAddr c g dPC nPC = .ok g1 →
      g1.pJitEntryTable = some tbl1 → ReachableNonNull c n tbl1

/-- Every chain link leads to an occupied slot. -/
def LinkInv (n : Nat) (tbl : List JitEntry) : Prop :=
  ∀ i m, chainAt tbl i = some m → m ≠ n → ∃ p, dpcAt tbl m = some p ∧ p ≠ 0

/-! ## The run index -/

/-- Invariant of the run index of a selection whose first instruction was at
the trace head: the trace array has at least `MAX_TRACE_LEN` runs; while the
thread selects, the run index is below the number of instructions recorded,
which is below `MAX_TRACE_LEN`; once the selection has ended, the run index is
below `MAX_TRACE_LEN`. -/
def IndexInv (st : InterpState) : Prop :=
  MAX_TRACE_LEN ≤ st.trace.length ∧
  ((st.jitState = .kJitTSelect ∧ st.currTraceRun < st.totalTraceLen ∧
      st.totalTraceLen < MAX_TRACE_LEN) ∨
   ((st.jitState = .kJitTSelectEnd ∨ st.jitState = .kJitTSelectAbort ∨
      st.jitState = .kJitNormal) ∧ st.currTraceRun < MAX_TRACE_LEN))

/-- A thread that asks for a trace at pc 4 with a trace array of exactly
`MAX_TRACE_LEN` runs. -/
def exRequestFull : InterpState := { exRequest 4 with trace := List.replicate 100 exRun }

/-- The state of `exRequestFull` once promoted to trace selection. -/
def exPromotedFull : InterpState :=
  { exRequestFull with
    jitState := .kJitTSelect, currTraceHead := 4, currRunHead := 4,
    trace := { startOffset := 0, numInsts := 0, runEnd := false, hint := 0 } ::
      List.replicate 99 exRun }

/-- The same selection with room for one run more than `MAX_TRACE_LEN`. -/
def exPromotedWide : InterpState :=
  { exPromotedFull with
    trace := { startOffset := 0, numInsts := 0, runEnd := false, hint := 0 } ::
      List.replicate 100 exRun }

/-- A hundred ordinary one-unit instructions at the pcs 6, 8, 10, ...: none is
at the trace head 4 and none continues its predecessor. -/
def exScattered : List CheckJitCall := (List.range 100).map (fun i => exPlainCall (6 + 2 * i))

/-- The four-slot table after a request for pc 4 and a request for the null pc:
slot 0 links to slot 1, which is empty. -/
def exTableNull : List JitEntry :=
  [{ dPC := 4, codeAddress := 0, chain := 1 }, { dPC := 0, codeAddress := 0, chain := 4 },
   { dPC := 0, codeAddress := 0, chain := 4 }, { dPC := 0, codeAddress := 0, chain := 4 }]

/-! # Properties -/

/-! ## Chains end -/

theorem chainAt_isSome {tbl : List JitEntry} {i : Nat} (h : i < tbl.length) :
    ∃ m, chainAt tbl i = some m := by
  simp [chainAt, List.getElem?_eq_getElem h]

theorem chainAt_none {tbl : List JitEntry} {i : Nat} (h : tbl.length ≤ i) :
    chainAt tbl i = none := by
  simp [chainAt, List.getElem?_eq_none h]

theorem nextIdx_end {n : Nat} {tbl : List JitEntry} (h : tbl.length = n) :
    nextIdx tbl n n = n := by
  simp [nextIdx, chainAt_none (le_of_eq h)]

theorem nextIdx_le {n : Nat} {tbl : List JitEntry} (h : ChainInv n tbl) (i : Nat) :
    nextIdx tbl n i ≤ n := by
  unfold nextIdx
  cases hc : chainAt tbl i with
  | none => simp
  | some m => simpa using h.chain_le i m hc

theorem iterate_end {n : Nat} {tbl : List JitEntry} (h : tbl.length = n) (k : Nat) :
    (nextIdx tbl n)^[k] n = n :=
  Function.iterate_fixed (nextIdx_end h) k

theorem iterate_le {n : Nat} {tbl : List JitEntry} (h : ChainInv n tbl) (k i : Nat)
    (hi : i ≤ n) : (nextIdx tbl n)^[k] i ≤ n := by
  cases k with
  | zero => simpa using hi
  | succ k =>
    rw [Function.iterate_succ_apply']
    exact nextIdx_le h _

/-- Following the links for `n` steps from any index ends at the end marker:
ranks go up along links, so `n + 1` indices below `n` cannot all differ. -/
theorem iterate_reaches_end {n : Nat} {tbl : List JitEntry} (h : ChainInv n tbl) (i : Nat)
    (hi : i ≤ n) : (nextIdx tbl n)^[n] i = n := by
  by_contra hne
  have hlt : ∀ k, k ≤ n → (nextIdx tbl n)^[k] i < n := by
    intro k hk
    by_contra hge
    have heq : (nextIdx tbl n)^[k] i = n := le_antisymm (iterate_le h k i hi) (not_lt.mp hge)
    apply hne
    have hsplit : (nextIdx tbl n)^[n] i = (nextIdx tbl n)^[n - k] ((nextIdx tbl n)^[k] i) := by
      rw [← Function.iterate_add_apply]
      congr 1
      omega
    rw [hsplit, heq]
    exact iterate_end h.len _
  obtain ⟨r, b, _, hr⟩ := h.rank
  have hstep : ∀ k, k < n → r ((nextIdx tbl n)^[k] i) < r ((nextIdx tbl n)^[k + 1] i) := by
    intro k hk
    have hx := hlt k (le_of_lt hk)
    have hy := hlt (k + 1) hk
    rw [Function.iterate_succ_apply'] at hy ⊢
    obtain ⟨m, hm⟩ := @chainAt_isSome tbl ((nextIdx tbl n)^[k] i) (by rw [h.len]; exact hx)
    have hnx : nextIdx tbl n ((nextIdx tbl n)^[k] i) = m := by simp [nextIdx, hm]
    rw [hnx] at hy ⊢
    exact hr _ m hm (Nat.ne_of_lt hy)
  have hmono : ∀ b a, a < b → b ≤ n →
      r ((nextIdx tbl n)^[a] i) < r ((nextIdx tbl n)^[b] i) := by
    intro b
    induction b with
    | zero => intro a ha; omega
    | succ b ih =>
      intro a ha hb
      rcases Nat.lt_succ_iff_lt_or_eq.mp ha with hlt1 | heq1
      · exact lt_trans (ih a hlt1 (by omega)) (hstep b (by omega))
      · subst heq1; exact hstep a (by omega)
  have hcard : (Finset.range n).card < (Finset.range (n + 1)).card := by simp
  obtain ⟨x, hx, y, hy, hxy, hfxy⟩ :=
    Finset.exists_ne_map_eq_of_card_lt_of_maps_to hcard
      (f := fun k => (nextIdx tbl n)^[k] i)
      (fun k hk => Finset.mem_range.mpr (hlt k (by simpa [Nat.lt_succ_iff] using hk)))
  simp only [Finset.mem_range, Nat.lt_succ_iff] at hx hy
  rcases Nat.lt_or_gt_of_ne hxy with hlt1 | hgt1
  · have := hmono y x hlt1 hy
    rw [hfxy] at this
    exact lt_irrefl _ this
  · have := hmono x y hgt1 hx
    rw [hfxy] at this
    exact lt_irrefl _ this

/-! ## Reading and updating slots -/

theorem dpcAt_of_get {tbl : List JitEntry} {i : Nat} {e : JitEntry} (h : tbl[i]? = some e) :
    dpcAt tbl i = some e.dPC := by
  simp [dpcAt, h]

theorem chainAt_of_get {tbl : List JitEntry} {i : Nat} {e : JitEntry} (h : tbl[i]? = some e) :
    chainAt tbl i = some e.chain := by
  simp [chainAt, h]

theorem nextIdx_of_get {tbl : List JitEntry} {n i : Nat} {e : JitEntry}
    (h : tbl[i]? = some e) : nextIdx tbl n i = e.chain := by
  simp [nextIdx, chainAt, h]

theorem dpcAt_none {tbl : List JitEntry} {i : Nat} (h : tbl.length ≤ i) :
    dpcAt tbl i = none := by
  simp [dpcAt, List.getElem?_eq_none h]

theorem lt_length_of_get {tbl : List JitEntry} {i : Nat} {e : JitEntry}
    (h : tbl[i]? = some e) : i < tbl.length := by
  obtain ⟨hlt, _⟩ := List.getElem?_eq_some.mp h
  exact hlt

theorem get_of_dpcAt {tbl : List JitEntry} {i p : Nat} (h : dpcAt tbl i = some p) :
    ∃ e, tbl[i]? = some e ∧ e.dPC = p := by
  unfold dpcAt at h
  cases he : tbl[i]? with
  | none => simp [he] at h
  | some e => exact ⟨e, rfl, by simpa [he] using h⟩

theorem dpcAt_set_ne {tbl : List JitEntry} {i j : Nat} (e : JitEntry) (h : i ≠ j) :
    dpcAt (tbl.set i e) j = dpcAt tbl j := by
  simp [dpcAt, List.getElem?_set_ne h]

theorem chainAt_set_ne {tbl : List JitEntry} {i j : Nat} (e : JitEntry) (h : i ≠ j) :
    chainAt (tbl.set i e) j = chainAt tbl j := by
  simp [chainAt, List.getElem?_set_ne h]

theorem dpcAt_set_self {tbl : List JitEntry} {i : Nat} (e : JitEntry) (h : i < tbl.length) :
    dpcAt (tbl.set i e) i = some e.dPC := by
  simp [dpcAt, List.getElem?_set, h]

theorem chainAt_set_self {tbl : List JitEntry} {i : Nat} (e : JitEntry) (h : i < tbl.length) :
    chainAt (tbl.set i e) i = some e.chain := by
  simp [chainAt, List.getElem?_set, h]

/-- A store that keeps the `dPC` of the slot keeps all `dPC` fields. -/
theorem dpcAt_set_same {tbl : List JitEntry} {i : Nat} {e0 e : JitEntry}
    (h0 : tbl[i]? = some e0) (hd : e.dPC = e0.dPC) : dpcAt (tbl.set i e) = dpcAt tbl := by
  funext j
  by_cases hij : i = j
  · subst hij
    rw [dpcAt_set_self e (lt_length_of_get h0), dpcAt_of_get h0, hd]
  · exact dpcAt_set_ne e hij

/-- A store that keeps the `chain` of the slot keeps all `chain` fields. -/
theorem chainAt_set_same {tbl : List JitEntry} {i : Nat} {e0 e : JitEntry}
    (h0 : tbl[i]? = some e0) (hd : e.chain = e0.chain) :
    chainAt (tbl.set i e) = chainAt tbl := by
  funext j
  by_cases hij : i = j
  · subst hij
    rw [chainAt_set_self e (lt_length_of_get h0), chainAt_of_get h0, hd]
  · exact chainAt_set_ne e hij

theorem nextIdx_congr {tbl tbl1 : List JitEntry} (n : Nat) (h : chainAt tbl1 = chainAt tbl) :
    nextIdx tbl1 n = nextIdx tbl n := by
  funext i
  simp [nextIdx, h]

/-- The invariants only look at the length and the `dPC` and `chain` fields. -/
theorem TableInv.congr {c : Consts} {n : Nat} {tbl tbl1 : List JitEntry}
    (h : TableInv c n tbl) (hl : tbl1.length = tbl.length) (hd : dpcAt tbl1 = dpcAt tbl)
    (hc : chainAt tbl1 = chainAt tbl) : TableInv c n tbl1 where
  len := hl.trans h.len
  chain_le := by rw [hc]; exact h.chain_le
  empty_end := by rw [hc, hd]; exact h.empty_end
  rank := by rw [hc]; exact h.rank
  reach := by rw [nextIdx_congr n hc, hd]; exact h.reach
  uniq := by rw [hd]; exact h.uniq

/-! ## What the chain walks compute -/

theorem walkChain_post {tbl : List JitEntry} {n pc : Nat} :
    ∀ (fuel i idx : Nat), walkChain tbl n pc fuel i = .ok idx →
      ∃ k, (nextIdx tbl n)^[k] i = idx ∧
        (∃ e, tbl[idx]? = some e ∧ (e.chain = n ∨ e.dPC = pc)) ∧
        ∀ j, j < k → dpcAt tbl ((nextIdx tbl n)^[j] i) ≠ some pc := by
  intro fuel
  induction fuel with
  | zero => intro i idx h; simp [walkChain] at h
  | succ fuel ih =>
    intro i idx h
    unfold walkChain at h
    cases he : tbl[i]? with
    | none => simp [he] at h
    | some e =>
      simp only [he] at h
      by_cases hc : e.chain ≠ n ∧ e.dPC ≠ pc
      · rw [if_pos hc] at h
        obtain ⟨k, hk, hend, hpre⟩ := ih e.chain idx h
        refine ⟨k + 1, ?_, hend, ?_⟩
        · rw [Function.iterate_succ_apply, nextIdx_of_get he]; exact hk
        · intro j hj
          cases j with
          | zero =>
            simp only [Function.iterate_zero, id_eq, dpcAt_of_get he]
            intro hcontra
            exact hc.2 (Option.some.inj hcontra)
          | succ j =>
            rw [Function.iterate_succ_apply, nextIdx_of_get he]
            exact hpre j (by omega)
      · rw [if_neg hc] at h
        have hidx : i = idx := by simpa using h
        subst hidx
        refine ⟨0, rfl, ⟨e, he, ?_⟩, fun j hj => absurd hj (Nat.not_lt_zero j)⟩
        by_cases h1 : e.chain = n
        · exact Or.inl h1
        · right
          by_contra h2
          exact hc ⟨h1, h2⟩

/-- When the walk from the bucket of `pc` stops at a slot that does not hold
`pc`, no slot on the chain of that bucket holds `pc`. -/
theorem walkChain_not_found {tbl : List JitEntry} {n pc fuel h idx : Nat} {e : JitEntry}
    (hlen : tbl.length = n) (hw : walkChain tbl n pc fuel h = .ok idx)
    (he : tbl[idx]? = some e) (hne : e.dPC ≠ pc) :
    ∀ k, dpcAt tbl ((nextIdx tbl n)^[k] h) ≠ some pc := by
  obtain ⟨k0, hk0, ⟨e1, he1, hor⟩, hpre⟩ := walkChain_post fuel h idx hw
  have hee : e1 = e := by rw [he] at he1; exact (Option.some.inj he1).symm
  subst hee
  have hchain : e1.chain = n := by
    rcases hor with h1 | h1
    · exact h1
    · exact absurd h1 hne
  intro k
  rcases Nat.lt_trichotomy k k0 with hlt | heq | hgt
  · exact hpre k hlt
  · subst heq
    rw [hk0, dpcAt_of_get he]
    intro hcontra
    exact hne (Option.some.inj hcontra)
  · have hsplit : (nextIdx tbl n)^[k] h = (nextIdx tbl n)^[k - k0 - 1] n := by
      have hk : k = (k - k0 - 1) + (1 + k0) := by omega
      conv_lhs => rw [hk]
      rw [Function.iterate_add_apply, Function.iterate_add_apply, hk0]
      simp only [Function.iterate_one]
      rw [nextIdx_of_get he, hchain]
    rw [hsplit, iterate_end hlen, dpcAt_none (le_of_eq hlen)]
    simp

theorem walkToEnd_at_end {tbl : List JitEntry} {n fuel idx last : Nat} {e : JitEntry}
    (he : tbl[idx]? = some e) (hc : e.chain = n)
    (hw : walkToEnd tbl n fuel idx = .ok last) : last = idx := by
  cases fuel with
  | zero => simp [walkToEnd] at hw
  | succ fuel =>
    unfold walkToEnd at hw
    simp only [he, hc, ne_eq, not_true_eq_false, if_false] at hw
    simpa using hw.symm

theorem probeFree_post {tbl : List JitEntry} {n prev : Nat} :
    ∀ (fuel idx idx1 : Nat), probeFree tbl n prev fuel idx = .ok idx1 →
      ∃ e1, tbl[idx1]? = some e1 ∧ (e1.dPC = 0 ∨ idx1 = prev) := by
  intro fuel
  induction fuel with
  | zero => intro idx idx1 h; simp [probeFree] at h
  | succ fuel ih =>
    intro idx idx1 h
    unfold probeFree at h
    simp only at h
    cases he : tbl[if idx + 1 = n then 0 else idx + 1]? with
    | none => simp [he] at h
    | some e =>
      simp only [he] at h
      by_cases hc : e.dPC = 0 ∨ (if idx + 1 = n then 0 else idx + 1) = prev
      · rw [if_pos hc] at h
        have hidx : (if idx + 1 = n then 0 else idx + 1) = idx1 := by simpa using h
        rw [← hidx]
        exact ⟨e, he, hc⟩
      · rw [if_neg hc] at h
        exact ih _ idx1 h

/-- The four ways in which the slot acquisition of `dvmJitCheckTraceRequest`
can return: the pc has a slot already; the walk ended on an empty slot, which
is claimed; a free slot was probed, chained to the chain end and claimed; the
table is full. -/
theorem acquireSlot_cases {c : Consts} {g g1 : DvmJitGlobals} {tbl : List JitEntry}
    {st st1 : InterpState} (h : acquireSlot c g tbl st = .ok (g1, st1)) :
    ((∃ i, dpcAt tbl i = some st.pc) ∧ g1 = g ∧
        st1 = { st with jitState := .kJitTSelectAbort }) ∨
    ((tbl.length = g.maxTableEntries → ∀ k,
        dpcAt tbl ((nextIdx tbl g.maxTableEntries)^[k] (c.dvmJitHash st.pc)) ≠ some st.pc) ∧
      ((∃ idx e, tbl[idx]? = some e ∧ e.dPC = 0 ∧ e.chain = g.maxTableEntries ∧
          (∃ k, (nextIdx tbl g.maxTableEntries)^[k] (c.dvmJitHash st.pc) = idx) ∧
          g1 = { g with pJitEntryTable := some (tbl.set idx { e with dPC := st.pc }) } ∧
          st1 = st) ∨
       (∃ prev idx1 ePrev e1, tbl[prev]? = some ePrev ∧ ePrev.dPC ≠ 0 ∧
          ePrev.chain = g.maxTableEntries ∧
          (∃ k, (nextIdx tbl g.maxTableEntries)^[k] (c.dvmJitHash st.pc) = prev) ∧
          tbl[idx1]? = some e1 ∧ e1.dPC = 0 ∧ idx1 ≠ prev ∧
          g1 = { g with
            pJitEntryTable := some ((tbl.set prev { ePrev with chain := idx1 }).set idx1
              { e1 with dPC := st.pc }) } ∧
          st1 = st) ∨
       (g1 = dvmJitStopTranslationRequests g ∧
          st1 = { st with jitState := .kJitTSelectAbort }))) := by
  unfold acquireSlot at h
  simp only at h
  cases hw : walkChain tbl g.maxTableEntries st.pc g.maxTableEntries (c.dvmJitHash st.pc) with
  | error err => simp [hw] at h
  | ok idx =>
    simp only [hw] at h
    obtain ⟨k0, hk0, ⟨e, he, hor⟩, _⟩ := walkChain_post _ _ _ hw
    simp only [he] at h
    by_cases hpc : e.dPC = st.pc
    · left
      rw [if_pos hpc] at h
      simp only [Except.ok.injEq, Prod.mk.injEq] at h
      exact ⟨⟨idx, by rw [dpcAt_of_get he, hpc]⟩, h.1.symm, h.2.symm⟩
    · right
      rw [if_neg hpc] at h
      have hchain : e.chain = g.maxTableEntries := by
        rcases hor with h1 | h1
        · exact h1
        · exact absurd h1 hpc
      refine ⟨fun hlen => walkChain_not_found hlen hw he hpc, ?_⟩
      by_cases hz : e.dPC = 0
      · left
        simp only [hz, ne_eq, not_true_eq_false, if_false, he, if_true] at h
        simp only [Except.ok.injEq, Prod.mk.injEq] at h
        exact ⟨idx, e, he, hz, hchain, ⟨k0, hk0⟩, h.1.symm, h.2.symm⟩
      · right
        simp only [ne_eq, hz, not_false_eq_true, if_true] at h
        unfold chainFreeSlot at h
        cases hwe : walkToEnd tbl g.maxTableEntries g.maxTableEntries idx with
        | error err => simp [hwe] at h
        | ok last =>
          have hlast : last = idx := walkToEnd_at_end he hchain hwe
          subst hlast
          simp only [hwe, he, hz, if_false] at h
          cases hp : probeFree tbl g.maxTableEntries last g.maxTableEntries last with
          | error err => simp [hp] at h
          | ok idx1 =>
            simp only [hp] at h
            obtain ⟨e1, he1, hor1⟩ := probeFree_post _ _ _ hp
            by_cases hne : idx1 = last
            · right
              subst hne
              simp only [ne_eq, not_true_eq_false, if_false, he, hz] at h
              simp only [Except.ok.injEq, Prod.mk.injEq] at h
              exact ⟨h.1.symm, h.2.symm⟩
            · left
              have hz1 : e1.dPC = 0 := by
                rcases hor1 with h1 | h1
                · exact h1
                · exact absurd h1 hne
              have hget : (tbl.set last { e with chain := idx1 })[idx1]? = some e1 := by
                rw [List.getElem?_set_ne (Ne.symm hne)]; exact he1
              simp only [ne_eq, hne, not_false_eq_true, if_true, hget, hz1] at h
              simp only [Except.ok.injEq, Prod.mk.injEq] at h
              exact ⟨last, idx1, e, e1, he, hz, hchain, ⟨k0, hk0⟩, he1, hz1, hne,
                h.1.symm, h.2.symm⟩

/-! ## The invariants hold in every reachable table -/

theorem TableInv.startup (c : Consts) (n : Nat) : TableInv c n (startupTable n) where
  len := by simp [startupTable]
  chain_le := by
    intro i m h
    simp only [chainAt, startupTable, List.getElem?_replicate] at h
    split at h <;> simp at h
    omega
  empty_end := by
    intro i h
    simp only [dpcAt, startupTable, List.getElem?_replicate] at h
    simp only [chainAt, startupTable, List.getElem?_replicate]
    split at h <;> simp_all
  rank := by
    refine ⟨fun _ => 0, 1, fun _ => Nat.zero_lt_one, ?_⟩
    intro i m h hne
    simp only [chainAt, startupTable, List.getElem?_replicate] at h
    split at h <;> simp at h
    exact absurd h.symm hne
  reach := by
    intro i p h hp
    simp only [dpcAt, startupTable, List.getElem?_replicate] at h
    split at h <;> simp at h
    exact absurd h.symm hp
  uniq := by
    intro i j p h _ hp
    simp only [dpcAt, startupTable, List.getElem?_replicate] at h
    split at h <;> simp at h
    exact absurd h.symm hp

/-- A path that ends inside the table survives a new link out of a chain end. -/
theorem iterate_link {f fA : Nat → Nat} {n prev : Nat} (hA : ∀ x, x ≠ prev → fA x = f x)
    (hprev : f prev = n) (hn : ∀ k, f^[k] n = n) :
    ∀ (k x i : Nat), f^[k] x = i → i < n → fA^[k] x = i := by
  intro k
  induction k with
  | zero => intro x i h _; simpa using h
  | succ k ih =>
    intro x i h hi
    rw [Function.iterate_succ_apply] at h ⊢
    by_cases hx : x = prev
    · subst hx
      rw [hprev, hn] at h
      omega
    · rw [hA x hx]
      exact ih _ _ h hi

/-- Linking a free slot behind the last slot of a chain keeps the invariants. -/
theorem TableInv.link {c : Consts} {n : Nat} {tbl : List JitEntry} (h : TableInv c n tbl)
    {prev idx1 : Nat} {ePrev e1 : JitEntry} (hp : tbl[prev]? = some ePrev)
    (hpd : ePrev.dPC ≠ 0) (hpc : ePrev.chain = n) (h1 : tbl[idx1]? = some e1)
    (h1d : e1.dPC = 0) (hne : idx1 ≠ prev) :
    TableInv c n (tbl.set prev { ePrev with chain := idx1 }) := by
  have hd : dpcAt (tbl.set prev { ePrev with chain := idx1 }) = dpcAt tbl :=
    dpcAt_set_same hp rfl
  have hlt1 : idx1 < n := by rw [← h.len]; exact lt_length_of_get h1
  have hcs : chainAt (tbl.set prev { ePrev with chain := idx1 }) prev = some idx1 :=
    chainAt_set_self _ (lt_length_of_get hp)
  have hcn : ∀ i, i ≠ prev →
      chainAt (tbl.set prev { ePrev with chain := idx1 }) i = chainAt tbl i :=
    fun i hi => chainAt_set_ne _ (Ne.symm hi)
  have hfA : ∀ x, x ≠ prev →
      nextIdx (tbl.set prev { ePrev with chain := idx1 }) n x = nextIdx tbl n x := by
    intro x hx
    simp [nextIdx, hcn x hx]
  have hfp : nextIdx tbl n prev = n := by rw [nextIdx_of_get hp, hpc]
  refine
    { len := by rw [List.length_set]; exact h.len
      chain_le := ?_
      empty_end := ?_
      rank := ?_
      reach := ?_
      uniq := by rw [hd]; exact h.uniq }
  · intro i m hm
    by_cases hi : i = prev
    · subst hi
      rw [hcs] at hm
      have : idx1 = m := Option.some.inj hm
      omega
    · rw [hcn i hi] at hm
      exact h.chain_le i m hm
  · intro i hi
    rw [hd] at hi
    have hip : i ≠ prev := by
      intro hcontra
      subst hcontra
      rw [dpcAt_of_get hp] at hi
      exact hpd (Option.some.inj hi)
    rw [hcn i hip]
    exact h.empty_end i hi
  · obtain ⟨r, b, hb, hr⟩ := h.rank
    refine ⟨fun i => if i = idx1 then b else r i, b + 1, ?_, ?_⟩
    · intro i
      by_cases hi : i = idx1
      · simp [hi]
      · simp only [hi, if_false]
        exact Nat.lt_succ_of_lt (hb i)
    · intro i m hm hmn
      by_cases hi : i = prev
      · subst hi
        rw [hcs] at hm
        have hm1 : idx1 = m := Option.some.inj hm
        subst hm1
        simp only [if_true, if_neg (Ne.symm hne)]
        exact hb i
      · rw [hcn i hi] at hm
        have hi1 : i ≠ idx1 := by
          intro hcontra
          subst hcontra
          have := h.empty_end i (by rw [dpcAt_of_get h1, h1d])
          rw [this] at hm
          exact hmn (Option.some.inj hm).symm
        simp only [if_neg hi1]
        by_cases hm1 : m = idx1
        · simp only [hm1, if_true]
          exact hb i
        · simp only [if_neg hm1]
          exact hr i m hm hmn
  · intro i p hi hp0
    rw [hd] at hi
    obtain ⟨k, hk⟩ := h.reach i p hi hp0
    obtain ⟨e, he, _⟩ := get_of_dpcAt hi
    have hin : i < n := by rw [← h.len]; exact lt_length_of_get he
    exact ⟨k, iterate_link hfA hfp (iterate_end h.len) k _ i hk hin⟩

/-- Writing `pc` into an empty slot on the chain of its bucket keeps the
invariants, when `pc` has no slot yet. -/
theorem TableInv.claim {c : Consts} {n : Nat} {tbl : List JitEntry} (h : TableInv c n tbl)
    {idx pc : Nat} {e : JitEntry} (he : tbl[idx]? = some e) (hz : e.dPC = 0)
    (hpath : ∃ k, (nextIdx tbl n)^[k] (c.dvmJitHash pc) = idx)
    (hfree : pc ≠ 0 → ∀ j, dpcAt tbl j ≠ some pc) :
    TableInv c n (tbl.set idx { e with dPC := pc }) := by
  have hc : chainAt (tbl.set idx { e with dPC := pc }) = chainAt tbl :=
    chainAt_set_same he rfl
  have hds : dpcAt (tbl.set idx { e with dPC := pc }) idx = some pc :=
    dpcAt_set_self _ (lt_length_of_get he)
  have hdn : ∀ i, i ≠ idx → dpcAt (tbl.set idx { e with dPC := pc }) i = dpcAt tbl i :=
    fun i hi => dpcAt_set_ne _ (Ne.symm hi)
  refine
    { len := by rw [List.length_set]; exact h.len
      chain_le := by rw [hc]; exact h.chain_le
      empty_end := ?_
      rank := by rw [hc]; exact h.rank
      reach := ?_
      uniq := ?_ }
  · intro i hi
    rw [hc]
    by_cases hii : i = idx
    · subst hii
      exact h.empty_end i (by rw [dpcAt_of_get he, hz])
    · rw [hdn i hii] at hi
      exact h.empty_end i hi
  · intro i p hi hp0
    rw [nextIdx_congr n hc]
    by_cases hii : i = idx
    · subst hii
      rw [hds] at hi
      have : pc = p := Option.some.inj hi
      subst this
      exact hpath
    · rw [hdn i hii] at hi
      exact h.reach i p hi hp0
  · intro i j p hi hj hp0
    by_cases hii : i = idx
    · by_cases hjj : j = idx
      · rw [hii, hjj]
      · subst hii
        rw [hds] at hi
        have : pc = p := Option.some.inj hi
        subst this
        rw [hdn j hjj] at hj
        exact absurd hj (hfree hp0 j)
    · by_cases hjj : j = idx
      · subst hjj
        rw [hds] at hj
        have : pc = p := Option.some.inj hj
        subst this
        rw [hdn i hii] at hi
        exact absurd hi (hfree hp0 i)
      · rw [hdn i hii] at hi
        rw [hdn j hjj] at hj
        exact h.uniq i j p hi hj hp0

/-- A pc that is not found on the chain of its bucket has no slot at all. -/
theorem TableInv.free_of_not_on_chain {c : Consts} {n : Nat} {tbl : List JitEntry}
    (h : TableInv c n tbl) {pc : Nat}
    (hnf : ∀ k, dpcAt tbl ((nextIdx tbl n)^[k] (c.dvmJitHash pc)) ≠ some pc) :
    pc ≠ 0 → ∀ j, dpcAt tbl j ≠ some pc := by
  intro hp0 j hj
  obtain ⟨k, hk⟩ := h.reach j pc hj hp0
  exact hnf k (by rw [hk]; exact hj)

/-- The slot acquisition keeps the invariants. -/
theorem acquireSlot_inv {c : Consts} {g g1 : DvmJitGlobals} {tbl tbl1 : List JitEntry}
    {st st1 : InterpState} (hg : g.pJitEntryTable = some tbl)
    (hinv : TableInv c g.maxTableEntries tbl)
    (h : acquireSlot c g tbl st = .ok (g1, st1)) (h1 : g1.pJitEntryTable = some tbl1) :
    TableInv c g.maxTableEntries tbl1 := by
  rcases acquireSlot_cases h with ⟨_, hg1, _⟩ | ⟨hnf, hrest⟩
  · subst hg1
    rw [hg] at h1
    exact (Option.some.inj h1) ▸ hinv
  · have hfree := hinv.free_of_not_on_chain (hnf hinv.len)
    rcases hrest with ⟨idx, e, he, hz, _, hpath, hg1, _⟩ |
      ⟨prev, idx1, ePrev, e1, hp, hpd, hpc, ⟨k, hk⟩, he1, hz1, hne, hg1, _⟩ | ⟨hg1, _⟩
    · subst hg1
      simp only [Option.some.injEq] at h1
      subst h1
      exact hinv.claim he hz hpath hfree
    · subst hg1
      simp only [Option.some.injEq] at h1
      subst h1
      have hA := hinv.link hp hpd hpc he1 hz1 hne
      have hget : (tbl.set prev { ePrev with chain := idx1 })[idx1]? = some e1 := by
        rw [List.getElem?_set_ne (Ne.symm hne)]; exact he1
      have hd : dpcAt (tbl.set prev { ePrev with chain := idx1 }) = dpcAt tbl :=
        dpcAt_set_same hp rfl
      refine hA.claim hget hz1 ?_ (by rw [hd]; exact hfree)
      have hprevlt : prev < g.maxTableEntries := by
        rw [← hinv.len]; exact lt_length_of_get hp
      have hfA : ∀ x, x ≠ prev →
          nextIdx (tbl.set prev { ePrev with chain := idx1 }) g.maxTableEntries x =
            nextIdx tbl g.maxTableEntries x := by
        intro x hx
        simp [nextIdx, @chainAt_set_ne tbl prev x { ePrev with chain := idx1 } (Ne.symm hx)]
      have hfp : nextIdx tbl g.maxTableEntries prev = g.maxTableEntries := by
        rw [nextIdx_of_get hp, hpc]
      have hk1 := iterate_link hfA hfp (iterate_end hinv.len) k _ prev hk hprevlt
      refine ⟨k + 1, ?_⟩
      rw [Function.iterate_succ_apply', hk1]
      simp [nextIdx, @chainAt_set_self tbl prev { ePrev with chain := idx1 }
        (lt_length_of_get hp)]
    · subst hg1
      simp only [dvmJitStopTranslationRequests] at h1
      rw [hg] at h1
      exact (Option.some.inj h1) ▸ hinv

/-- The branches of `dvmJitCheckTraceRequest` on a non-null table: the abort
gate, the stale profile, the slot acquisition of a pending request, or none of
them; each followed by the final `switch`. -/
theorem checkTraceRequest_cases {c : Consts} {gDvm : DvmGlobals} {g g1 : DvmJitGlobals}
    {self : Thread} {st st1 : InterpState} {now resetNow : Nat} {res : Bool}
    {tbl : List JitEntry} (hg : g.pJitEntryTable = some tbl)
    (h : dvmJitCheckTraceRequest c gDvm g self st now resetNow = .ok (res, g1, st1)) :
    (abortGate gDvm g self = true ∧ g1 = g ∧
      promoteRequest c false
        (if st.jitState ≠ .kJitOff then { st with jitState := .kJitNormal } else st) =
        .ok (res, st1)) ∨
    (abortGate gDvm g self = false ∧
      u8sub now g.lastProfileResetTimeUsec > PROFILE_STALENESS_THRESHOLD ∧
      g1 = resetProfileCounts c g resetNow ∧ promoteRequest c true st = .ok (res, st1)) ∨
    (abortGate gDvm g self = false ∧
      ¬ u8sub now g.lastProfileResetTimeUsec > PROFILE_STALENESS_THRESHOLD ∧
      st.jitState = .kJitTSelectRequest ∧
      ∃ st2, acquireSlot c g tbl st = .ok (g1, st2) ∧
        promoteRequest c false st2 = .ok (res, st1)) ∨
    (abortGate gDvm g self = false ∧
      ¬ u8sub now g.lastProfileResetTimeUsec > PROFILE_STALENESS_THRESHOLD ∧
      st.jitState ≠ .kJitTSelectRequest ∧ g1 = g ∧
      promoteRequest c false st = .ok (res, st1)) := by
  unfold dvmJitCheckTraceRequest at h
  simp only [hg] at h
  by_cases hgate : abortGate gDvm g self = true
  · left
    simp only [hgate, if_true] at h
    split at h
    · simp at h
    · rename_i r2 st2 hp
      simp only [Except.ok.injEq, Prod.mk.injEq] at h
      obtain ⟨h1, h2, h3⟩ := h
      subst h1 h2 h3
      exact ⟨hgate, rfl, hp⟩
  · right
    have hgf : abortGate gDvm g self = false := by simpa using hgate
    simp only [hgf, Bool.false_eq_true, if_false] at h
    by_cases hstale : u8sub now g.lastProfileResetTimeUsec > PROFILE_STALENESS_THRESHOLD
    · left
      simp only [hstale, if_true] at h
      split at h
      · simp at h
      · rename_i r2 st2 hp
        simp only [Except.ok.injEq, Prod.mk.injEq] at h
        obtain ⟨h1, h2, h3⟩ := h
        subst h1 h2 h3
        exact ⟨hgf, hstale, rfl, hp⟩
    · right
      simp only [hstale, if_false] at h
      by_cases hreq : st.jitState = .kJitTSelectRequest
      · left
        simp only [hreq, if_true] at h
        cases ha : acquireSlot c g tbl st with
        | error err => simp [ha] at h
        | ok r =>
          obtain ⟨g2, st2⟩ := r
          simp only [ha] at h
          split at h
          · simp at h
          · rename_i r2 st3 hp
            simp only [Except.ok.injEq, Prod.mk.injEq] at h
            obtain ⟨h1, h2, h3⟩ := h
            subst h1 h2 h3
            exact ⟨hgf, hstale, hreq, st2, rfl, hp⟩
      · right
        simp only [hreq, if_false] at h
        split at h
        · simp at h
        · rename_i r2 st2 hp
          simp only [Except.ok.injEq, Prod.mk.injEq] at h
          obtain ⟨h1, h2, h3⟩ := h
          subst h1 h2 h3
          exact ⟨hgf, hstale, hreq, rfl, hp⟩

theorem resetProfileCounts_table (c : Consts) (g : DvmJitGlobals) (now : Nat) :
    (resetProfileCounts c g now).pJitEntryTable = g.pJitEntryTable := by
  unfold resetProfileCounts
  simp only
  split <;> rfl

/-- A completed `dvmJitCheckTraceRequest` keeps the invariants of the table. -/
theorem checkTraceRequest_inv {c : Consts} {gDvm : DvmGlobals} {g g1 : DvmJitGlobals}
    {self : Thread} {st st1 : InterpState} {now resetNow : Nat} {res : Bool}
    {tbl tbl1 : List JitEntry} (hg : g.pJitEntryTable = some tbl)
    (hinv : TableInv c g.maxTableEntries tbl)
    (h : dvmJitCheckTraceRequest c gDvm g self st now resetNow = .ok (res, g1, st1))
    (h1 : g1.pJitEntryTable = some tbl1) : TableInv c g.maxTableEntries tbl1 := by
  rcases checkTraceRequest_cases hg h with ⟨_, hg1, _⟩ | ⟨_, _, hg1, _⟩ |
    ⟨_, _, _, st2, ha, _⟩ | ⟨_, _, _, hg1, _⟩
  · subst hg1
    rw [hg] at h1
    exact (Option.some.inj h1) ▸ hinv
  · subst hg1
    rw [resetProfileCounts_table, hg] at h1
    exact (Option.some.inj h1) ▸ hinv
  · exact acquireSlot_inv hg hinv ha h1
  · subst hg1
    rw [hg] at h1
    exact (Option.some.inj h1) ▸ hinv

/-- What a completed `dvmJitSetCodeAddr` does: it stores `nPC | 1` into the
`codeAddress` of the entry that `findJitEntry` returns. -/
theorem setCodeAddr_cases {c : Consts} {g g1 : DvmJitGlobals} {dPC nPC : Nat}
    (h : dvmJitSetCodeAddr c g dPC nPC = .ok g1) :
    ∃ tbl i e, g.pJitEntryTable = some tbl ∧ findJitEntry c g dPC = .ok (some i) ∧
      tbl[i]? = some e ∧
      g1 = { g with pJitEntryTable := some (tbl.set i { e with codeAddress := nPC ||| 1 }) } := by
  unfold dvmJitSetCodeAddr at h
  cases hf : findJitEntry c g dPC with
  | error err => simp [hf] at h
  | ok r =>
    cases r with
    | none => simp [hf] at h
    | some i =>
      simp only [hf] at h
      cases hg : g.pJitEntryTable with
      | none => simp [hg] at h
      | some tbl =>
        simp only [hg] at h
        cases he : tbl[i]? with
        | none => simp [he] at h
        | some e =>
          simp only [he, Except.ok.injEq] at h
          exact ⟨tbl, i, e, rfl, rfl, he, h.symm⟩

/-- Every reachable table satisfies the invariants. -/
theorem Reachable.inv {c : Consts} {n : Nat} {tbl : List JitEntry} (h : Reachable c n tbl) :
    TableInv c n tbl := by
  induction h with
  | startup => exact TableInv.startup c n
  | request gDvm g g1 self st st1 now resetNow res _ hg hn hcall hg1 ih =>
    subst hn
    exact checkTraceRequest_inv hg ih hcall hg1
  | setCodeAddr g g1 dPC nPC _ hg hn hcall hg1 ih =>
    obtain ⟨tbl0, i, e, hg0, _, he, hgg⟩ := setCodeAddr_cases hcall
    rw [hg] at hg0
    have ht : tbl0 = _ := (Option.some.inj hg0).symm
    subst ht
    subst hgg
    simp only [Option.some.injEq] at hg1
    subst hg1
    exact ih.congr (by rw [List.length_set]) (dpcAt_set_same he rfl) (chainAt_set_same he rfl)

/-! ## Lookup -/

theorem codeAt_of_get {tbl : List JitEntry} {i : Nat} {e : JitEntry} (h : tbl[i]? = some e) :
    codeAt tbl i = e.codeAddress := by
  simp [codeAt, h]

/-- The loop of `dvmJitGetCodeAddr` is the loop of `findJitEntry` followed by a
read of `codeAddress`. -/
theorem getCodeAddrLoop_eq_find (tbl : List JitEntry) (n pc : Nat) :
    ∀ (fuel idx : Nat), getCodeAddrLoop tbl n pc fuel idx =
      (findJitEntryLoop tbl n pc fuel idx).map (codeOf tbl) := by
  intro fuel
  induction fuel with
  | zero => intro idx; rfl
  | succ fuel ih =>
    intro idx
    unfold getCodeAddrLoop findJitEntryLoop
    cases he : tbl[idx]? with
    | none => rfl
    | some e =>
      simp only
      by_cases hc : e.chain ≠ n
      · rw [if_pos hc, if_pos hc]
        cases he1 : tbl[e.chain]? with
        | none => rfl
        | some e1 =>
          simp only
          by_cases hp : e1.dPC = pc
          · simp only [hp, if_true, Except.map, codeOf, codeAt_of_get he1]
          · simp only [hp, if_false]
            exact ih e.chain
      · rw [if_neg hc, if_neg hc]
        rfl

/-- The lookup is `findJitEntry` followed by a read of `codeAddress`, unless a
thread is suspended. -/
theorem getCodeAddr_eq_find {c : Consts} {gDvm : DvmGlobals} {g : DvmJitGlobals}
    {tbl : List JitEntry} (hg : g.pJitEntryTable = some tbl) (pc : Nat)
    (hs : ¬ gDvm.sumThreadSuspendCount > 0) :
    dvmJitGetCodeAddr c gDvm g pc = (findJitEntry c g pc).map (codeOf tbl) := by
  unfold dvmJitGetCodeAddr findJitEntry
  simp only [hs, if_false, hg]
  cases he : tbl[c.dvmJitHash pc]? with
  | none => rfl
  | some e =>
    simp only
    by_cases hp : e.dPC = pc
    · simp only [hp, if_true, Except.map, codeOf, codeAt_of_get he]
    · simp only [hp, if_false]
      exact getCodeAddrLoop_eq_find tbl _ pc _ _

theorem get_shape {tbl tbl1 : List JitEntry} (hd : dpcAt tbl1 = dpcAt tbl)
    (hc : chainAt tbl1 = chainAt tbl) (i : Nat) :
    (tbl[i]? = none ∧ tbl1[i]? = none) ∨
    (∃ e e1, tbl[i]? = some e ∧ tbl1[i]? = some e1 ∧ e1.dPC = e.dPC ∧ e1.chain = e.chain) := by
  have hdi := congrFun hd i
  have hci := congrFun hc i
  unfold dpcAt at hdi
  unfold chainAt at hci
  cases he : tbl[i]? with
  | none =>
    cases he1 : tbl1[i]? with
    | none => exact Or.inl ⟨rfl, rfl⟩
    | some e1 => simp [he, he1] at hdi
  | some e =>
    cases he1 : tbl1[i]? with
    | none => simp [he, he1] at hdi
    | some e1 =>
      right
      simp only [he, he1, Option.map_some', Option.some.injEq] at hdi hci
      exact ⟨e, e1, rfl, rfl, hdi, hci⟩

/-- The walk of `findJitEntry` only reads `dPC` and `chain`. -/
theorem findJitEntryLoop_congr {tbl tbl1 : List JitEntry} (hd : dpcAt tbl1 = dpcAt tbl)
    (hc : chainAt tbl1 = chainAt tbl) (n pc : Nat) :
    ∀ (fuel idx : Nat), findJitEntryLoop tbl1 n pc fuel idx =
      findJitEntryLoop tbl n pc fuel idx := by
  intro fuel
  induction fuel with
  | zero => intro idx; rfl
  | succ fuel ih =>
    intro idx
    unfold findJitEntryLoop
    rcases get_shape hd hc idx with ⟨h0, h1⟩ | ⟨e, e1, h0, h1, _, hch⟩
    · simp only [h0, h1]
    · simp only [h0, h1, hch]
      by_cases hcn : e.chain ≠ n
      · rw [if_pos hcn, if_pos hcn]
        rcases get_shape hd hc e.chain with ⟨h2, h3⟩ | ⟨e2, e3, h2, h3, hdp, _⟩
        · simp only [h2, h3]
        · simp only [h2, h3, hdp]
          by_cases hp : e2.dPC = pc
          · simp only [hp, if_true]
          · simp only [hp, if_false]
            exact ih e.chain
      · rw [if_neg hcn, if_neg hcn]

theorem findJitEntry_congr {c : Consts} {g g1 : DvmJitGlobals} {tbl tbl1 : List JitEntry}
    (hg : g.pJitEntryTable = some tbl) (hg1 : g1.pJitEntryTable = some tbl1)
    (hn : g1.maxTableEntries = g.maxTableEntries) (hd : dpcAt tbl1 = dpcAt tbl)
    (hc : chainAt tbl1 = chainAt tbl) (pc : Nat) :
    findJitEntry c g1 pc = findJitEntry c g pc := by
  unfold findJitEntry
  simp only [hg, hg1, hn]
  rcases get_shape hd hc (c.dvmJitHash pc) with ⟨h0, h1⟩ | ⟨e, e1, h0, h1, hdp, _⟩
  · simp only [h0, h1]
  · simp only [h0, h1, hdp]
    by_cases hp : e.dPC = pc
    · simp only [hp, if_true]
    · simp only [hp, if_false]
      exact findJitEntryLoop_congr hd hc _ pc _ _

theorem findJitEntryLoop_some {tbl : List JitEntry} {n pc : Nat} :
    ∀ (fuel idx i : Nat), findJitEntryLoop tbl n pc fuel idx = .ok (some i) →
      dpcAt tbl i = some pc := by
  intro fuel
  induction fuel with
  | zero => intro idx i h; simp [findJitEntryLoop] at h
  | succ fuel ih =>
    intro idx i h
    unfold findJitEntryLoop at h
    cases he : tbl[idx]? with
    | none => simp [he] at h
    | some e =>
      simp only [he] at h
      by_cases hc : e.chain ≠ n
      · rw [if_pos hc] at h
        cases he1 : tbl[e.chain]? with
        | none => simp [he1] at h
        | some e1 =>
          simp only [he1] at h
          by_cases hp : e1.dPC = pc
          · simp only [hp, if_true, Except.ok.injEq, Option.some.injEq] at h
            subst h
            rw [dpcAt_of_get he1, hp]
          · simp only [hp, if_false] at h
            exact ih _ _ h
      · simp [hc] at h

theorem findJitEntryLoop_none {tbl : List JitEntry} {n pc : Nat} (hlen : tbl.length = n) :
    ∀ (fuel idx : Nat), findJitEntryLoop tbl n pc fuel idx = .ok none →
      ∀ k, dpcAt tbl ((nextIdx tbl n)^[k + 1] idx) ≠ some pc := by
  intro fuel
  induction fuel with
  | zero => intro idx h; simp [findJitEntryLoop] at h
  | succ fuel ih =>
    intro idx h
    unfold findJitEntryLoop at h
    cases he : tbl[idx]? with
    | none => simp [he] at h
    | some e =>
      simp only [he] at h
      intro k
      rw [Function.iterate_succ_apply, nextIdx_of_get he]
      by_cases hc : e.chain ≠ n
      · rw [if_pos hc] at h
        cases he1 : tbl[e.chain]? with
        | none => simp [he1] at h
        | some e1 =>
          simp only [he1] at h
          by_cases hp : e1.dPC = pc
          · simp [hp] at h
          · simp only [hp, if_false] at h
            cases k with
            | zero =>
              simp only [Function.iterate_zero, id_eq, dpcAt_of_get he1]
              intro hcontra
              exact hp (Option.some.inj hcontra)
            | succ k => exact ih _ h k
      · have hcn : e.chain = n := by
          by_contra hne
          exact hc hne
        rw [hcn, iterate_end hlen, dpcAt_none (le_of_eq hlen)]
        simp

theorem findJitEntry_some {c : Consts} {g : DvmJitGlobals} {tbl : List JitEntry} {pc i : Nat}
    (hg : g.pJitEntryTable = some tbl) (h : findJitEntry c g pc = .ok (some i)) :
    dpcAt tbl i = some pc := by
  unfold findJitEntry at h
  simp only [hg] at h
  cases he : tbl[c.dvmJitHash pc]? with
  | none => simp [he] at h
  | some e =>
    simp only [he] at h
    by_cases hp : e.dPC = pc
    · simp only [hp, if_true, Except.ok.injEq, Option.some.injEq] at h
      subst h
      rw [dpcAt_of_get he, hp]
    · simp only [hp, if_false] at h
      exact findJitEntryLoop_some _ _ _ h

theorem findJitEntry_none {c : Consts} {g : DvmJitGlobals} {tbl : List JitEntry} {pc : Nat}
    (hg : g.pJitEntryTable = some tbl) (hlen : tbl.length = g.maxTableEntries)
    (h : findJitEntry c g pc = .ok none) :
    ∀ k, dpcAt tbl ((nextIdx tbl g.maxTableEntries)^[k] (c.dvmJitHash pc)) ≠ some pc := by
  unfold findJitEntry at h
  simp only [hg] at h
  cases he : tbl[c.dvmJitHash pc]? with
  | none => simp [he] at h
  | some e =>
    simp only [he] at h
    by_cases hp : e.dPC = pc
    · simp [hp] at h
    · simp only [hp, if_false] at h
      intro k
      cases k with
      | zero =>
        simp only [Function.iterate_zero, id_eq, dpcAt_of_get he]
        intro hcontra
        exact hp (Option.some.inj hcontra)
      | succ k => exact findJitEntryLoop_none hlen _ _ h k

/-! ## Termination of the chain walks -/

theorem get_of_lt {n : Nat} {tbl : List JitEntry} (hlen : tbl.length = n) {i : Nat}
    (hi : i < n) : ∃ e, tbl[i]? = some e :=
  ⟨tbl[i], List.getElem?_eq_getElem (by rw [hlen]; exact hi)⟩

theorem chain_lt_of_ne {n : Nat} {tbl : List JitEntry} (h : ChainInv n tbl) {i : Nat}
    {e : JitEntry} (he : tbl[i]? = some e) (hc : e.chain ≠ n) : e.chain < n :=
  lt_of_le_of_ne (h.chain_le i e.chain (chainAt_of_get he)) hc

theorem walkChain_ok {n : Nat} {tbl : List JitEntry} (h : ChainInv n tbl) (pc : Nat) :
    ∀ (fuel idx : Nat), idx < n → (nextIdx tbl n)^[fuel] idx = n →
      ∃ r, walkChain tbl n pc fuel idx = .ok r := by
  intro fuel
  induction fuel with
  | zero => intro idx hi hit; simp at hit; omega
  | succ fuel ih =>
    intro idx hi hit
    obtain ⟨e, he⟩ := get_of_lt h.len hi
    unfold walkChain
    simp only [he]
    by_cases hc : e.chain ≠ n ∧ e.dPC ≠ pc
    · rw [if_pos hc]
      rw [Function.iterate_succ_apply, nextIdx_of_get he] at hit
      exact ih _ (chain_lt_of_ne h he hc.1) hit
    · rw [if_neg hc]
      exact ⟨idx, rfl⟩

theorem walkToEnd_ok {n : Nat} {tbl : List JitEntry} (h : ChainInv n tbl) :
    ∀ (fuel idx : Nat), idx < n → (nextIdx tbl n)^[fuel] idx = n →
      ∃ r, walkToEnd tbl n fuel idx = .ok r := by
  intro fuel
  induction fuel with
  | zero => intro idx hi hit; simp at hit; omega
  | succ fuel ih =>
    intro idx hi hit
    obtain ⟨e, he⟩ := get_of_lt h.len hi
    unfold walkToEnd
    simp only [he]
    by_cases hc : e.chain ≠ n
    · rw [if_pos hc]
      rw [Function.iterate_succ_apply, nextIdx_of_get he] at hit
      exact ih _ (chain_lt_of_ne h he hc) hit
    · rw [if_neg hc]
      exact ⟨idx, rfl⟩

theorem findJitEntryLoop_ok {n : Nat} {tbl : List JitEntry} (h : ChainInv n tbl) (pc : Nat) :
    ∀ (fuel idx : Nat), idx < n → (nextIdx tbl n)^[fuel] idx = n →
      ∃ r, findJitEntryLoop tbl n pc fuel idx = .ok r := by
  intro fuel
  induction fuel with
  | zero => intro idx hi hit; simp at hit; omega
  | succ fuel ih =>
    intro idx hi hit
    obtain ⟨e, he⟩ := get_of_lt h.len hi
    unfold findJitEntryLoop
    simp only [he]
    by_cases hc : e.chain ≠ n
    · rw [if_pos hc]
      have hlt := chain_lt_of_ne h he hc
      obtain ⟨e1, he1⟩ := get_of_lt h.len hlt
      simp only [he1]
      by_cases hp : e1.dPC = pc
      · rw [if_pos hp]
        exact ⟨_, rfl⟩
      · rw [if_neg hp]
        rw [Function.iterate_succ_apply, nextIdx_of_get he] at hit
        exact ih _ hlt hit
    · rw [if_neg hc]
      exact ⟨none, rfl⟩

/-- The linear probe comes back to `prev` after at most `n` steps. -/
theorem probeFree_ok {n : Nat} {tbl : List JitEntry} (hlen : tbl.length = n) {prev : Nat}
    (hprev : prev < n) :
    ∀ (fuel idx : Nat), idx < n →
      (if idx < prev then prev - idx else prev + n - idx) ≤ fuel →
      ∃ r, probeFree tbl n prev fuel idx = .ok r := by
  intro fuel
  induction fuel with
  | zero =>
    intro idx hi hd
    split at hd <;> omega
  | succ fuel ih =>
    intro idx hi hd
    unfold probeFree
    simp only
    have hlt2 : (if idx + 1 = n then 0 else idx + 1) < n := by
      split <;> omega
    obtain ⟨e, he⟩ := get_of_lt hlen hlt2
    simp only [he]
    by_cases hc : e.dPC = 0 ∨ (if idx + 1 = n then 0 else idx + 1) = prev
    · rw [if_pos hc]
      exact ⟨_, rfl⟩
    · rw [if_neg hc]
      have hne : (if idx + 1 = n then 0 else idx + 1) ≠ prev := fun hcontra => hc (Or.inr hcontra)
      refine ih _ hlt2 ?_
      by_cases h1 : idx + 1 = n
      · simp only [h1, if_true] at hne ⊢
        split at hd <;> split <;> omega
      · simp only [h1, if_false] at hne ⊢
        split at hd <;> split <;> omega

theorem findJitEntry_ok {c : Consts} {g : DvmJitGlobals} {tbl : List JitEntry}
    (hg : g.pJitEntryTable = some tbl) (h : ChainInv g.maxTableEntries tbl) {pc : Nat}
    (hh : c.dvmJitHash pc < g.maxTableEntries) : ∃ r, findJitEntry c g pc = .ok r := by
  unfold findJitEntry
  simp only [hg]
  obtain ⟨e, he⟩ := get_of_lt h.len hh
  simp only [he]
  by_cases hp : e.dPC = pc
  · rw [if_pos hp]
    exact ⟨_, rfl⟩
  · rw [if_neg hp]
    exact findJitEntryLoop_ok h pc _ _ hh (iterate_reaches_end h _ (le_of_lt hh))

/-- In a table with the invariants, `findJitEntry` returns the slot of a
non-null `pc` when there is one, and `NULL` when there is none. -/
theorem findJitEntry_spec {c : Consts} {g : DvmJitGlobals} {tbl : List JitEntry}
    (hg : g.pJitEntryTable = some tbl) (h : TableInv c g.maxTableEntries tbl) {pc : Nat}
    (hpc : pc ≠ 0) (hh : c.dvmJitHash pc < g.maxTableEntries) :
    (∀ i, dpcAt tbl i = some pc → findJitEntry c g pc = .ok (some i)) ∧
    ((∀ i, dpcAt tbl i ≠ some pc) → findJitEntry c g pc = .ok none) := by
  obtain ⟨r, hr⟩ := findJitEntry_ok hg h.toChainInv hh
  constructor
  · intro i hi
    cases r with
    | none =>
      exact absurd hi (h.free_of_not_on_chain (findJitEntry_none hg h.len hr) hpc i)
    | some j =>
      have hj := findJitEntry_some hg hr
      rw [hr, h.uniq i j pc hi hj hpc]
  · intro hno
    cases r with
    | none => exact hr
    | some j => exact absurd (findJitEntry_some hg hr) (hno j)

/-! ## Example tables are reachable -/

theorem exTable1_reachable : Reachable exConsts 4 exTable1 :=
  Reachable.request exDvm exGlobals { exGlobals with pJitEntryTable := some exTable1 }
    exThread (exRequest 4) (exPromoted 4) 0 0 false Reachable.startup rfl rfl (by decide) rfl

theorem exTable2_reachable : Reachable exConsts 4 exTable2 :=
  Reachable.request exDvm { exGlobals with pJitEntryTable := some exTable1 }
    { exGlobals with pJitEntryTable := some exTable2 }
    exThread (exRequest 8) (exPromoted 8) 0 0 false exTable1_reachable rfl rfl (by decide) rfl

/-! ## Lookup in reachable tables -/

/-- The bucket of a pc that holds a slot lies inside the table. -/
theorem TableInv.hash_lt {c : Consts} {n : Nat} {tbl : List JitEntry} (h : TableInv c n tbl)
    {i pc : Nat} (hi : dpcAt tbl i = some pc) (hpc : pc ≠ 0) : c.dvmJitHash pc < n := by
  obtain ⟨k, hk⟩ := h.reach i pc hi hpc
  obtain ⟨e, he, _⟩ := get_of_dpcAt hi
  have hin : i < n := by rw [← h.len]; exact lt_length_of_get he
  by_contra hge
  have hge1 : tbl.length ≤ c.dvmJitHash pc := by rw [h.len]; omega
  cases k with
  | zero =>
    simp only [Function.iterate_zero, id_eq] at hk
    omega
  | succ k =>
    rw [Function.iterate_succ_apply] at hk
    have hnx : nextIdx tbl n (c.dvmJitHash pc) = n := by simp [nextIdx, chainAt_none hge1]
    rw [hnx, iterate_end h.len] at hk
    omega

/-- C1 (reachability of translations): in a table reachable from the startup
table by `dvmJitCheckTraceRequest` and `dvmJitSetCodeAddr` calls, for a
non-null `pc` whose bucket is inside the table, `dvmJitGetCodeAddr(pc)` returns
`NULL` when `sumThreadSuspendCount > 0`; otherwise it returns the `codeAddress`
of the slot whose `dPC` is `pc` when there is such a slot, and `NULL` when
there is none. -/
theorem C1_getCodeAddr_reachable (c : Consts) (n : Nat) (tbl : List JitEntry)
    (gDvm : DvmGlobals) (g : DvmJitGlobals) (pc : Nat) (hr : Reachable c n tbl)
    (hg : g.pJitEntryTable = some tbl) (hn : g.maxTableEntries = n) (hpc : pc ≠ 0)
    (hh : c.dvmJitHash pc < n) :
    (gDvm.sumThreadSuspendCount > 0 → dvmJitGetCodeAddr c gDvm g pc = .ok 0) ∧
    (¬ gDvm.sumThreadSuspendCount > 0 →
      (∀ (i : Nat) (e : JitEntry), tbl[i]? = some e → e.dPC = pc →
        dvmJitGetCodeAddr c gDvm g pc = .ok e.codeAddress) ∧
      ((∀ (i : Nat) (e : JitEntry), tbl[i]? = some e → e.dPC ≠ pc) → dvmJitGetCodeAddr c gDvm g pc = .ok 0)) := by
  subst hn
  have hinv := hr.inv
  constructor
  · intro hs
    unfold dvmJitGetCodeAddr
    simp only [hs, if_true]
  · intro hs
    rw [getCodeAddr_eq_find hg pc hs]
    obtain ⟨h1, h2⟩ := findJitEntry_spec hg hinv hpc hh
    constructor
    · intro i e he hd
      rw [h1 i (by rw [dpcAt_of_get he, hd])]
      simp only [Except.map, codeOf, codeAt_of_get he]
    · intro hno
      rw [h2 (fun i hi => by
        obtain ⟨e, he, hd⟩ := get_of_dpcAt hi
        exact hno i e he hd)]
      rfl

/-- Example for C1: with pcs 4 and 8 chained in bucket 0 and nothing installed,
the lookup of pc 8 goes through the chain and returns the `NULL` code address
of its slot. -/
theorem C1_getCodeAddr_reachable_witness :
    dvmJitGetCodeAddr exConsts exDvm { exGlobals with pJitEntryTable := some exTable2 } 8 =
      .ok 0 :=
  ((C1_getCodeAddr_reachable exConsts 4 exTable2 exDvm
    { exGlobals with pJitEntryTable := some exTable2 } 8 exTable2_reachable rfl rfl
    (by decide) (by decide)).2 (by decide)).1 1 { dPC := 8, codeAddress := 0, chain := 4 }
    rfl rfl

/-- C2 (install/lookup round trip): in a reachable table in which the non-null
`pc` owns a slot, `dvmJitSetCodeAddr(pc, nPC)` completes; afterwards, with no
thread suspended, `dvmJitGetCodeAddr(pc)` returns `nPC | 1`, which is not
`NULL`, and the lookup of every other `q` returns what it returned before. -/
theorem C2_setCodeAddr_getCodeAddr (c : Consts) (n : Nat) (tbl : List JitEntry)
    (gDvm : DvmGlobals) (g : DvmJitGlobals) (pc nPC : Nat) (hr : Reachable c n tbl)
    (hg : g.pJitEntryTable = some tbl) (hn : g.maxTableEntries = n) (hpc : pc ≠ 0)
    (hown : ∃ (i : Nat) (e : JitEntry), tbl[i]? = some e ∧ e.dPC = pc) (hs : gDvm.sumThreadSuspendCount = 0) :
    ∃ g1, dvmJitSetCodeAddr c g pc nPC = .ok g1 ∧
      dvmJitGetCodeAddr c gDvm g1 pc = .ok (nPC ||| 1) ∧ nPC ||| 1 ≠ 0 ∧
      ∀ q, q ≠ pc → dvmJitGetCodeAddr c gDvm g1 q = dvmJitGetCodeAddr c gDvm g q := by
  subst hn
  have hinv := hr.inv
  obtain ⟨i, e, he, hd⟩ := hown
  have hdi : dpcAt tbl i = some pc := by rw [dpcAt_of_get he, hd]
  have hh := hinv.hash_lt hdi hpc
  have hfind := (findJitEntry_spec hg hinv hpc hh).1 i hdi
  have hs0 : ¬ gDvm.sumThreadSuspendCount > 0 := by omega
  have hg1 : ({ g with pJitEntryTable := some (tbl.set i { e with codeAddress := nPC ||| 1 }) } :
      DvmJitGlobals).pJitEntryTable = some (tbl.set i { e with codeAddress := nPC ||| 1 }) := rfl
  have hdp : dpcAt (tbl.set i { e with codeAddress := nPC ||| 1 }) = dpcAt tbl :=
    dpcAt_set_same he rfl
  have hch : chainAt (tbl.set i { e with codeAddress := nPC ||| 1 }) = chainAt tbl :=
    chainAt_set_same he rfl
  have hcongr := fun q => findJitEntry_congr (c := c) hg hg1 rfl hdp hch q
  refine ⟨{ g with pJitEntryTable := some (tbl.set i { e with codeAddress := nPC ||| 1 }) },
    ?_, ?_, ?_, ?_⟩
  · unfold dvmJitSetCodeAddr
    simp only [hfind, hg, he]
  · rw [getCodeAddr_eq_find hg1 pc hs0, hcongr pc, hfind]
    have hget : (tbl.set i { e with codeAddress := nPC ||| 1 })[i]? =
        some { e with codeAddress := nPC ||| 1 } := by
      simp [List.getElem?_set, lt_length_of_get he]
    simp only [Except.map, codeOf, codeAt_of_get hget]
  · intro h0
    have := congrArg (fun x => x.testBit 0) h0
    simp at this
  · intro q hq
    rw [getCodeAddr_eq_find hg1 q hs0, getCodeAddr_eq_find hg q hs0, hcongr q]
    cases hf : findJitEntry c g q with
    | error err => rfl
    | ok r =>
      cases r with
      | none => rfl
      | some j =>
        have hj := findJitEntry_some hg hf
        have hij : i ≠ j := by
          intro hcontra
          subst hcontra
          rw [hdi] at hj
          exact hq (Option.some.inj hj).symm
        simp only [Except.map, codeOf, codeAt, List.getElem?_set_ne hij]

/-- Example for C2: installing address 8 for pc 8, which sits behind pc 4 on the
chain of bucket 0, makes its lookup return 9. -/
theorem C2_setCodeAddr_getCodeAddr_witness :
    ∃ g1, dvmJitSetCodeAddr exConsts { exGlobals with pJitEntryTable := some exTable2 } 8 8 =
        .ok g1 ∧
      dvmJitGetCodeAddr exConsts exDvm g1 8 = .ok (8 ||| 1) ∧ 8 ||| 1 ≠ 0 ∧
      ∀ q, q ≠ 8 → dvmJitGetCodeAddr exConsts exDvm g1 q =
        dvmJitGetCodeAddr exConsts exDvm { exGlobals with pJitEntryTable := some exTable2 } q :=
  C2_setCodeAddr_getCodeAddr exConsts 4 exTable2 exDvm
    { exGlobals with pJitEntryTable := some exTable2 } 8 8 exTable2_reachable rfl rfl
    (by decide) ⟨1, { dPC := 8, codeAddress := 0, chain := 4 }, rfl, rfl⟩ rfl

/-! ## Uniqueness -/

/-- A request for a non-null pc that has a slot finds it and allocates
nothing. -/
theorem acquireSlot_found {c : Consts} {g : DvmJitGlobals} {tbl : List JitEntry}
    {st : InterpState} (hinv : TableInv c g.maxTableEntries tbl) {i : Nat}
    (hi : dpcAt tbl i = some st.pc) (hpc : st.pc ≠ 0) :
    acquireSlot c g tbl st = .ok (g, { st with jitState := .kJitTSelectAbort }) := by
  have hh := hinv.hash_lt hi hpc
  obtain ⟨idx, hw⟩ := walkChain_ok hinv.toChainInv st.pc _ _ hh
    (iterate_reaches_end hinv.toChainInv _ (le_of_lt hh))
  obtain ⟨_, _, ⟨e, he, _⟩, _⟩ := walkChain_post _ _ _ hw
  by_cases hp : e.dPC = st.pc
  · unfold acquireSlot
    simp only [hw, he, hp, if_true]
  · exact absurd hi (hinv.free_of_not_on_chain (walkChain_not_found hinv.len hw he hp) hpc i)

/-- C3, as stated, fails: a pending request for a pc that owns a slot does not
always end in `kJitTSelectAbort`. With a debugger attached the gate fires first
and the thread is sent back to `kJitNormal`. -/
theorem C3_counterexample :
    ¬ (∀ (c : Consts) (n : Nat) (tbl : List JitEntry) (gDvm : DvmGlobals)
        (g g1 : DvmJitGlobals) (self : Thread) (st st1 : InterpState) (now resetNow : Nat)
        (res : Bool),
        Reachable c n tbl → g.pJitEntryTable = some tbl → g.maxTableEntries = n →
        st.jitState = .kJitTSelectRequest → st.pc ≠ 0 →
        (∃ (i : Nat) (e : JitEntry), tbl[i]? = some e ∧ e.dPC = st.pc) →
        dvmJitCheckTraceRequest c gDvm g self st now resetNow = .ok (res, g1, st1) →
        g1.pJitEntryTable = some tbl ∧ st1.jitState = .kJitTSelectAbort) := by
  intro h
  have h1 := h exConsts 4 exTable1 exDvmDebugger
    { exGlobals with pJitEntryTable := some exTable1 }
    { exGlobals with pJitEntryTable := some exTable1 } exThread (exRequest 4)
    { exRequest 4 with jitState := .kJitNormal } 0 0 false exTable1_reachable rfl rfl rfl
    (by decide) ⟨0, { dPC := 4, codeAddress := 0, chain := 4 }, rfl, rfl⟩ (by decide)
  exact absurd h1.2 (by decide)

/-- C3, amended (uniqueness): in a reachable table no non-null pc has two
slots. A pending request (`kJitTSelectRequest`) for a non-null pc that owns a
slot never changes the table; when the abort gate does not fire and the
profile is not stale it returns true with the state `kJitTSelectAbort` and
everything else unchanged. -/
theorem C3_unique_slot (c : Consts) (n : Nat) (tbl : List JitEntry)
    (hr : Reachable c n tbl) :
    (∀ (pc i j : Nat) (e1 e2 : JitEntry), pc ≠ 0 → tbl[i]? = some e1 → tbl[j]? = some e2 →
      e1.dPC = pc → e2.dPC = pc → i = j) ∧
    (∀ (gDvm : DvmGlobals) (g : DvmJitGlobals) (self : Thread) (st : InterpState)
      (now resetNow : Nat),
      g.pJitEntryTable = some tbl → g.maxTableEntries = n →
      st.jitState = .kJitTSelectRequest → st.pc ≠ 0 →
      (∃ (i : Nat) (e : JitEntry), tbl[i]? = some e ∧ e.dPC = st.pc) →
      (∀ res g1 st1,
        dvmJitCheckTraceRequest c gDvm g self st now resetNow = .ok (res, g1, st1) →
        g1.pJitEntryTable = some tbl) ∧
      (abortGate gDvm g self = false →
        ¬ u8sub now g.lastProfileResetTimeUsec > PROFILE_STALENESS_THRESHOLD →
        dvmJitCheckTraceRequest c gDvm g self st now resetNow =
          .ok (true, g, { st with jitState := .kJitTSelectAbort }))) := by
  have hinv := hr.inv
  constructor
  · intro pc i j e1 e2 hpc h1 h2 hd1 hd2
    exact hinv.uniq i j pc (by rw [dpcAt_of_get h1, hd1]) (by rw [dpcAt_of_get h2, hd2]) hpc
  · intro gDvm g self st now resetNow hg hn hreq hpc hown
    subst hn
    obtain ⟨i, e, he, hd⟩ := hown
    have hfound := @acquireSlot_found c g tbl st hinv i
      (by rw [dpcAt_of_get he, hd]) hpc
    constructor
    · intro res g1 st1 hcall
      rcases checkTraceRequest_cases hg hcall with ⟨_, hg1, _⟩ | ⟨_, _, hg1, _⟩ |
        ⟨_, _, _, st2, ha, _⟩ | ⟨_, _, _, hg1, _⟩
      · rw [hg1]; exact hg
      · rw [hg1, resetProfileCounts_table]; exact hg
      · rw [hfound] at ha
        simp only [Except.ok.injEq, Prod.mk.injEq] at ha
        rw [← ha.1]; exact hg
      · rw [hg1]; exact hg
    · intro hgate hfresh
      unfold dvmJitCheckTraceRequest
      simp only [hg, hgate, Bool.false_eq_true, if_false, hfresh, hreq, if_true, hfound,
        promoteRequest]

/-- Example for C3: in the table that holds pc 4, a second request for pc 4
with a quiet system returns true with `kJitTSelectAbort`. -/
theorem C3_unique_slot_witness :
    dvmJitCheckTraceRequest exConsts exDvm { exGlobals with pJitEntryTable := some exTable1 }
      exThread (exRequest 4) 0 0 =
      .ok (true, { exGlobals with pJitEntryTable := some exTable1 },
        { exRequest 4 with jitState := .kJitTSelectAbort }) :=
  ((C3_unique_slot exConsts 4 exTable1 exTable1_reachable).2 exDvm
    { exGlobals with pJitEntryTable := some exTable1 } exThread (exRequest 4) 0 0 rfl rfl rfl
    (by decide) ⟨0, { dPC := 4, codeAddress := 0, chain := 4 }, rfl, rfl⟩).2 (by decide)
    (by decide)

/-! ## Chain acyclicity -/

/-- Before the end marker is reached, the indices on a chain are pairwise
different. -/
theorem iterate_ne_before_end {n : Nat} {tbl : List JitEntry} (h : ChainInv n tbl) {i : Nat}
    (hi : i ≤ n) :
    ∀ b, (nextIdx tbl n)^[b] i < n → ∀ a, a < b →
      (nextIdx tbl n)^[a] i ≠ (nextIdx tbl n)^[b] i := by
  obtain ⟨r, _, _, hr⟩ := h.rank
  have hmono : ∀ b, (nextIdx tbl n)^[b] i < n → ∀ a, a < b →
      r ((nextIdx tbl n)^[a] i) < r ((nextIdx tbl n)^[b] i) := by
    intro b
    induction b with
    | zero => intro _ a ha; omega
    | succ b ih =>
      intro hb a ha
      have hb0 : (nextIdx tbl n)^[b] i < n := by
        by_contra hge
        have heq : (nextIdx tbl n)^[b] i = n :=
          le_antisymm (iterate_le h b i hi) (not_lt.mp hge)
        rw [Function.iterate_succ_apply', heq, nextIdx_end h.len] at hb
        omega
      have hstep : r ((nextIdx tbl n)^[b] i) < r ((nextIdx tbl n)^[b + 1] i) := by
        obtain ⟨e, he⟩ := get_of_lt h.len hb0
        rw [Function.iterate_succ_apply', nextIdx_of_get he] at hb ⊢
        exact hr _ _ (chainAt_of_get he) (Nat.ne_of_lt hb)
      rcases Nat.lt_succ_iff_lt_or_eq.mp ha with hlt | heq
      · exact lt_trans (ih hb0 a hlt) hstep
      · subst heq; exact hstep
  intro b hb a ha heq
  have := hmono b hb a ha
  rw [heq] at this
  exact lt_irrefl _ this

/-- The slot acquisition never exhausts the iteration budget of its loops. -/
theorem acquireSlot_no_fuel {c : Consts} {g : DvmJitGlobals} {tbl : List JitEntry}
    (st : InterpState) (hinv : ChainInv g.maxTableEntries tbl)
    (hh : c.dvmJitHash st.pc < g.maxTableEntries) :
    acquireSlot c g tbl st ≠ .error .fuel := by
  have hfin : ∀ (tbl1 : List JitEntry) (idx1 : Nat),
      (match tbl1[idx1]? with
        | none => (.error .outOfBounds : Except Fault (DvmJitGlobals × InterpState))
        | some e1 =>
          if e1.dPC = 0 then
            .ok ({ g with pJitEntryTable := some (tbl1.set idx1 { e1 with dPC := st.pc }) }, st)
          else
            .ok (dvmJitStopTranslationRequests g, { st with jitState := .kJitTSelectAbort })) ≠
        .error .fuel := by
    intro tbl1 idx1
    cases tbl1[idx1]? with
    | none => simp
    | some e1 =>
      simp only
      split <;> simp
  obtain ⟨idx, hw⟩ := walkChain_ok hinv st.pc _ _ hh
    (iterate_reaches_end hinv _ (le_of_lt hh))
  obtain ⟨_, _, ⟨e, he, _⟩, _⟩ := walkChain_post _ _ _ hw
  have hidx : idx < g.maxTableEntries := by rw [← hinv.len]; exact lt_length_of_get he
  unfold acquireSlot
  simp only [hw, he]
  by_cases hp : e.dPC = st.pc
  · rw [if_pos hp]
    simp
  · rw [if_neg hp]
    by_cases hz : e.dPC = 0
    · have hnz : ¬ e.dPC ≠ 0 := fun hcontra => hcontra hz
      rw [if_neg hnz]
      exact hfin tbl idx
    · have hnz : e.dPC ≠ 0 := hz
      rw [if_pos hnz]
      unfold chainFreeSlot
      obtain ⟨last, hl⟩ := walkToEnd_ok hinv _ _ hidx
        (iterate_reaches_end hinv _ (le_of_lt hidx))
      simp only [hl]
      cases hel : tbl[last]? with
      | none => simp
      | some eLast =>
        have hlast : last < g.maxTableEntries := by
          rw [← hinv.len]; exact lt_length_of_get hel
        simp only
        by_cases hz2 : eLast.dPC = 0
        · rw [if_pos hz2]
          simp
        · rw [if_neg hz2]
          obtain ⟨idx1, hp1⟩ := probeFree_ok hinv.len hlast g.maxTableEntries last hlast (by simp)
          simp only [hp1]
          by_cases hne : idx1 ≠ last
          · rw [if_pos hne]
            exact hfin _ idx1
          · rw [if_neg hne]
            exact hfin _ idx1

theorem promoteRequest_no_fuel (c : Consts) (res : Bool) (st : InterpState) :
    promoteRequest c res st ≠ .error .fuel := by
  unfold promoteRequest
  cases st.jitState <;> simp
  cases st.trace <;> simp

/-- The final `switch` of the request gate does not add a `fuel` fault. -/
theorem bind_promote_no_fuel (c : Consts) (res : Bool) (g1 : DvmJitGlobals)
    (st1 : InterpState) :
    (match promoteRequest c res st1 with
      | .error e => (.error e : Except Fault (Bool × DvmJitGlobals × InterpState))
      | .ok (res1, st2) => .ok (res1, g1, st2)) ≠ .error .fuel := by
  cases hp : promoteRequest c res st1 with
  | error e =>
    simp only [ne_eq, Except.error.injEq]
    intro he
    subst he
    exact promoteRequest_no_fuel c res st1 hp
  | ok r => simp

/-- C5 (chain acyclicity): in a table of capacity `n` reachable from the
startup table, every chain field is the end marker `n` or an index below `n`;
following the links from any index below `n` reaches the end marker within `n`
steps and passes through no index twice; and therefore the chain walks of
`findJitEntry`, `dvmJitGetCodeAddr` and `dvmJitCheckTraceRequest` finish
within their budget of `n` iterations. -/
theorem C5_chains_acyclic (c : Consts) (n : Nat) (tbl : List JitEntry)
    (hr : Reachable c n tbl) :
    (∀ (i : Nat) (e : JitEntry), tbl[i]? = some e → e.chain = n ∨ e.chain < n) ∧
    (∀ i, i < n → ∃ k, k ≤ n ∧ (nextIdx tbl n)^[k] i = n ∧
      ∀ a b, a < b → b < k → (nextIdx tbl n)^[a] i ≠ (nextIdx tbl n)^[b] i) ∧
    (∀ (g : DvmJitGlobals) (gDvm : DvmGlobals) (pc : Nat),
      g.pJitEntryTable = some tbl → g.maxTableEntries = n → c.dvmJitHash pc < n →
      (∃ r, findJitEntry c g pc = .ok r) ∧ (∃ a, dvmJitGetCodeAddr c gDvm g pc = .ok a) ∧
      (∃ idx, walkChain tbl n pc n (c.dvmJitHash pc) = .ok idx)) ∧
    (∀ i, i < n → ∃ last, walkToEnd tbl n n i = .ok last) ∧
    (∀ (g : DvmJitGlobals) (gDvm : DvmGlobals) (self : Thread) (st : InterpState)
      (now resetNow : Nat), g.pJitEntryTable = some tbl → g.maxTableEntries = n →
      c.dvmJitHash st.pc < n →
      dvmJitCheckTraceRequest c gDvm g self st now resetNow ≠ .error .fuel) := by
  have hinv := hr.inv
  have hch := hinv.toChainInv
  refine ⟨?_, ?_, ?_, ?_, ?_⟩
  · intro i e he
    by_cases hc : e.chain = n
    · exact Or.inl hc
    · exact Or.inr (chain_lt_of_ne hch he hc)
  · intro i hi
    have hex : ∃ k, (nextIdx tbl n)^[k] i = n := ⟨n, iterate_reaches_end hch i (le_of_lt hi)⟩
    refine ⟨Nat.find hex, Nat.find_min' hex (iterate_reaches_end hch i (le_of_lt hi)),
      Nat.find_spec hex, ?_⟩
    intro a b hab hb
    have hbn : (nextIdx tbl n)^[b] i < n :=
      lt_of_le_of_ne (iterate_le hch b i (le_of_lt hi)) (Nat.find_min hex hb)
    exact iterate_ne_before_end hch (le_of_lt hi) b hbn a hab
  · intro g gDvm pc hg hn hh
    subst hn
    obtain ⟨r, hfind⟩ := findJitEntry_ok (c := c) hg hch hh
    refine ⟨⟨r, hfind⟩, ?_, walkChain_ok hch pc _ _ hh (iterate_reaches_end hch _ (le_of_lt hh))⟩
    by_cases hs : gDvm.sumThreadSuspendCount > 0
    · refine ⟨0, ?_⟩
      unfold dvmJitGetCodeAddr
      simp only [hs, if_true]
    · rw [getCodeAddr_eq_find hg pc hs, hfind]
      exact ⟨_, rfl⟩
  · intro i hi
    exact walkToEnd_ok hch _ _ hi (iterate_reaches_end hch _ (le_of_lt hi))
  · intro g gDvm self st now resetNow hg hn hh
    subst hn
    have hacq := acquireSlot_no_fuel (c := c) st hch hh
    unfold dvmJitCheckTraceRequest
    simp only [hg]
    by_cases hgate : abortGate gDvm g self = true
    · simp only [hgate, if_true]
      exact bind_promote_no_fuel c _ _ _
    · simp only [hgate, Bool.false_eq_true, if_false]
      by_cases hstale : u8sub now g.lastProfileResetTimeUsec > PROFILE_STALENESS_THRESHOLD
      · simp only [hstale, if_true]
        exact bind_promote_no_fuel c _ _ _
      · simp only [hstale, if_false]
        by_cases hreq : st.jitState = .kJitTSelectRequest
        · simp only [hreq, if_true]
          cases ha : acquireSlot c g tbl st with
          | error err =>
            simp only [ne_eq, Except.error.injEq]
            intro he
            subst he
            exact hacq ha
          | ok r =>
            obtain ⟨g2, st2⟩ := r
            simp only
            exact bind_promote_no_fuel c _ _ _
        · simp only [hreq, if_false]
          exact bind_promote_no_fuel c _ _ _

/-- Example for C5: in the table with pcs 4 and 8 chained in bucket 0, the
chain from slot 0 ends after two steps and the walks finish. -/
theorem C5_chains_acyclic_witness :
    ∃ last, walkToEnd exTable2 4 4 0 = .ok last :=
  (C5_chains_acyclic exConsts 4 exTable2 exTable2_reachable).2.2.2.1 0 (by decide)

/-! ## The branches of `dvmCheckJit` -/

/-- The three ways in which the `kJitTSelectEnd` case returns: an empty trace
is dropped; a failed allocation stops translation requests and aborts the
selection; otherwise the last run is closed and the descriptor enqueued. -/
theorem traceSelectEnd_cases {c : Consts} {g g1 : DvmJitGlobals} {st st1 : InterpState}
    {dop mallocOk sw : Bool} (h : traceSelectEnd c g st dop mallocOk = .ok (sw, g1, st1)) :
    sw = !dop ∧
    ((st.totalTraceLen = 0 ∧ g1 = g ∧ st1 = st) ∨
     (st.totalTraceLen ≠ 0 ∧ mallocOk = false ∧ g1 = dvmJitStopTranslationRequests g ∧
        st1 = { st with jitState := .kJitTSelectAbort }) ∨
     (st.totalTraceLen ≠ 0 ∧ mallocOk = true ∧ ∃ r, st.trace[st.currTraceRun]? = some r ∧
        st1 = { st with
          trace := st.trace.set st.currTraceRun { r with runEnd := true },
          jitState := .kJitNormal } ∧
        g1 = dvmCompilerWorkEnqueue g st.currTraceHead c.kWorkOrderTrace
          { method := st.method,
            trace := (st.trace.set st.currTraceRun { r with runEnd := true }).take
              (st.currTraceRun + 1) })) := by
  unfold traceSelectEnd at h
  by_cases h0 : st.totalTraceLen = 0
  · rw [if_pos h0] at h
    simp only [Except.ok.injEq, Prod.mk.injEq] at h
    exact ⟨h.1.symm, Or.inl ⟨h0, h.2.1.symm, h.2.2.symm⟩⟩
  · rw [if_neg h0] at h
    by_cases hm : mallocOk = false
    · rw [if_pos hm] at h
      simp only [Except.ok.injEq, Prod.mk.injEq] at h
      exact ⟨h.1.symm, Or.inr (Or.inl ⟨h0, hm, h.2.1.symm, h.2.2.symm⟩)⟩
    · rw [if_neg hm] at h
      have hmt : mallocOk = true := by simpa using hm
      cases hr : st.trace[st.currTraceRun]? with
      | none => simp [hr] at h
      | some r =>
        simp only [hr, dvmCompilerDrainQueue, ite_self, Except.ok.injEq, Prod.mk.injEq] at h
        exact ⟨h.1.symm, Or.inr (Or.inr ⟨h0, hmt, r, rfl, h.2.2.symm, h.2.1.symm⟩)⟩

/-- The ways in which `dvmCheckJit` returns, by the state on entry. -/
theorem dvmCheckJit_cases {c : Consts} {gDvm : DvmGlobals} {g g1 : DvmJitGlobals} {pc : Nat}
    {self : Thread} {st st1 : InterpState} {insn : InsnInfo} {mallocOk sw : Bool}
    (h : dvmCheckJit c gDvm g pc self st insn mallocOk = .ok (sw, g1, st1)) :
    (st.jitState = .kJitTSelect ∧ insn.flags &&& c.kInstrNoJit = c.kInstrNoJit ∧ g1 = g ∧
      st1 = { st with jitState := .kJitTSelectEnd } ∧ sw = false) ∨
    (st.jitState = .kJitTSelect ∧ ¬ insn.flags &&& c.kInstrNoJit = c.kInstrNoJit ∧
      ∃ sa sb, startNewRun c pc st = .ok sa ∧ addInsn c sa insn = .ok sb ∧
        ((debugOrProfile gDvm self = true ∧ g1 = g ∧
            st1 = { sb with jitState := .kJitTSelectAbort } ∧ sw = false) ∨
         (debugOrProfile gDvm self = false ∧
            insn.flags &&& c.kInstrCanReturn ≠ c.kInstrCanReturn ∧ g1 = g ∧ st1 = sb ∧
            sw = false) ∨
         (debugOrProfile gDvm self = false ∧
            insn.flags &&& c.kInstrCanReturn = c.kInstrCanReturn ∧
            traceSelectEnd c g sb (debugOrProfile gDvm self) mallocOk = .ok (sw, g1, st1)))) ∨
    (st.jitState = .kJitTSelectEnd ∧
      traceSelectEnd c g st (debugOrProfile gDvm self) mallocOk = .ok (sw, g1, st1)) ∨
    (st.jitState = .kJitSingleStep ∧ g1 = g ∧
      st1 = { st with jitState := .kJitSingleStepEnd } ∧ sw = false) ∨
    (st.jitState = .kJitSingleStepEnd ∧ g1 = g ∧
      st1 = { st with entryPoint := c.kInterpEntryResume } ∧
      sw = !debugOrProfile gDvm self) ∨
    (st.jitState = .kJitTSelectAbort ∧ g1 = g ∧ st1 = { st with jitState := .kJitNormal } ∧
      sw = !debugOrProfile gDvm self) ∨
    (st.jitState = .kJitNormal ∧ g1 = g ∧ st1 = st ∧ sw = false) := by
  unfold dvmCheckJit at h
  cases hjs : st.jitState <;> simp only [hjs] at h
  · simp at h
  · simp only [Except.ok.injEq, Prod.mk.injEq] at h
    exact Or.inr (Or.inr (Or.inr (Or.inr (Or.inr (Or.inr
      ⟨rfl, h.2.1.symm, h.2.2.symm, h.1.symm⟩)))))
  · simp at h
  · by_cases hnj : insn.flags &&& c.kInstrNoJit = c.kInstrNoJit
    · rw [if_pos hnj] at h
      simp only [Except.ok.injEq, Prod.mk.injEq] at h
      exact Or.inl ⟨rfl, hnj, h.2.1.symm, h.2.2.symm, h.1.symm⟩
    · rw [if_neg hnj] at h
      right; left
      refine ⟨rfl, hnj, ?_⟩
      cases hsa : startNewRun c pc st with
      | error e => simp [hsa] at h
      | ok sa =>
        simp only [hsa] at h
        cases hsb : addInsn c sa insn with
        | error e => simp [hsb] at h
        | ok sb =>
          simp only [hsb] at h
          refine ⟨sa, sb, rfl, hsb, ?_⟩
          by_cases hd : debugOrProfile gDvm self = true
          · rw [if_pos hd] at h
            simp only [Except.ok.injEq, Prod.mk.injEq] at h
            refine Or.inl ⟨hd, h.2.1.symm, h.2.2.symm, ?_⟩
            rw [← h.1, hd]; rfl
          · rw [if_neg hd] at h
            have hdf : debugOrProfile gDvm self = false := by simpa using hd
            by_cases hcr : insn.flags &&& c.kInstrCanReturn ≠ c.kInstrCanReturn
            · rw [if_pos hcr] at h
              simp only [Except.ok.injEq, Prod.mk.injEq] at h
              exact Or.inr (Or.inl ⟨hdf, hcr, h.2.1.symm, h.2.2.symm, h.1.symm⟩)
            · rw [if_neg hcr] at h
              exact Or.inr (Or.inr ⟨hdf, by simpa using hcr, h⟩)
  · simp only [Except.ok.injEq, Prod.mk.injEq] at h
    exact Or.inr (Or.inr (Or.inr (Or.inr (Or.inr (Or.inl
      ⟨rfl, h.2.1.symm, h.2.2.symm, h.1.symm⟩)))))
  · exact Or.inr (Or.inr (Or.inl ⟨rfl, h⟩))
  · simp only [Except.ok.injEq, Prod.mk.injEq] at h
    exact Or.inr (Or.inr (Or.inr (Or.inl ⟨rfl, h.2.1.symm, h.2.2.symm, h.1.symm⟩)))
  · simp only [Except.ok.injEq, Prod.mk.injEq] at h
    exact Or.inr (Or.inr (Or.inr (Or.inr (Or.inl
      ⟨rfl, h.2.1.symm, h.2.2.symm, h.1.symm⟩))))

/-! ## Published code addresses -/

theorem traceSelectEnd_table {c : Consts} {g g1 : DvmJitGlobals} {st st1 : InterpState}
    {dop mallocOk sw : Bool} (h : traceSelectEnd c g st dop mallocOk = .ok (sw, g1, st1)) :
    g1.pJitEntryTable = g.pJitEntryTable := by
  obtain ⟨_, hc⟩ := traceSelectEnd_cases h
  rcases hc with ⟨_, hg, _⟩ | ⟨_, _, hg, _⟩ | ⟨_, _, r, _, _, hg⟩ <;> rw [hg] <;> rfl

/-- `dvmCheckJit` does not touch the JIT table. -/
theorem dvmCheckJit_table {c : Consts} {gDvm : DvmGlobals} {g g1 : DvmJitGlobals} {pc : Nat}
    {self : Thread} {st st1 : InterpState} {insn : InsnInfo} {mallocOk sw : Bool}
    (h : dvmCheckJit c gDvm g pc self st insn mallocOk = .ok (sw, g1, st1)) :
    g1.pJitEntryTable = g.pJitEntryTable := by
  rcases dvmCheckJit_cases h with ⟨_, _, hg, _⟩ | ⟨_, _, sa, sb, _, _, hc⟩ | ⟨_, hc⟩ |
    ⟨_, hg, _⟩ | ⟨_, hg, _⟩ | ⟨_, hg, _⟩ | ⟨_, hg, _⟩
  · rw [hg]
  · rcases hc with ⟨_, hg, _⟩ | ⟨_, _, hg, _⟩ | ⟨_, _, hc⟩
    · rw [hg]
    · rw [hg]
    · exact traceSelectEnd_table hc
  · exact traceSelectEnd_table hc
  · rw [hg]
  · rw [hg]
  · rw [hg]
  · rw [hg]

/-- The slot acquisition keeps every `codeAddress`, and every `dPC` that is
not empty. -/
theorem acquireSlot_slot {c : Consts} {g g1 : DvmJitGlobals} {tbl : List JitEntry}
    {st st1 : InterpState} (hg : g.pJitEntryTable = some tbl)
    (h : acquireSlot c g tbl st = .ok (g1, st1)) {i : Nat} {e : JitEntry}
    (he : tbl[i]? = some e) :
    ∃ tbl1 e1, g1.pJitEntryTable = some tbl1 ∧ tbl1[i]? = some e1 ∧
      e1.codeAddress = e.codeAddress ∧ (e.dPC ≠ 0 → e1.dPC = e.dPC) := by
  rcases acquireSlot_cases h with ⟨_, hg1, _⟩ | ⟨_, hrest⟩
  · subst hg1
    exact ⟨tbl, e, hg, he, rfl, fun _ => rfl⟩
  · rcases hrest with ⟨idx, e0, he0, hz, _, _, hg1, _⟩ |
      ⟨prev, idx1, ePrev, e1, hp, _, _, _, he1, hz1, hne, hg1, _⟩ | ⟨hg1, _⟩
    · subst hg1
      by_cases hi : idx = i
      · subst hi
        have hee : e0 = e := by rw [he0] at he; exact Option.some.inj he
        subst hee
        refine ⟨_, { e0 with dPC := st.pc }, rfl, ?_, rfl, fun hcontra => absurd hz hcontra⟩
        simp [List.getElem?_set, lt_length_of_get he0]
      · exact ⟨_, e, rfl, by rw [List.getElem?_set_ne hi]; exact he, rfl, fun _ => rfl⟩
    · subst hg1
      by_cases hi : idx1 = i
      · subst hi
        have hee : e1 = e := by rw [he1] at he; exact Option.some.inj he
        subst hee
        refine ⟨_, { e1 with dPC := st.pc }, rfl, ?_, rfl, fun hcontra => absurd hz1 hcontra⟩
        simp [List.getElem?_set, lt_length_of_get he1]
      · by_cases hj : prev = i
        · subst hj
          have hee : ePrev = e := by rw [hp] at he; exact Option.some.inj he
          subst hee
          refine ⟨_, { ePrev with chain := idx1 }, rfl, ?_, rfl, fun _ => rfl⟩
          rw [List.getElem?_set_ne hi]
          simp [List.getElem?_set, lt_length_of_get hp]
        · refine ⟨_, e, rfl, ?_, rfl, fun _ => rfl⟩
          rw [List.getElem?_set_ne hi, List.getElem?_set_ne hj]
          exact he
    · subst hg1
      exact ⟨tbl, e, hg, he, rfl, fun _ => rfl⟩

/-- `dvmJitCheckTraceRequest` keeps every `codeAddress`, and every `dPC` that
is not empty. -/
theorem checkTraceRequest_slot {c : Consts} {gDvm : DvmGlobals} {g g1 : DvmJitGlobals}
    {self : Thread} {st st1 : InterpState} {now resetNow : Nat} {res : Bool}
    {tbl : List JitEntry} (hg : g.pJitEntryTable = some tbl)
    (h : dvmJitCheckTraceRequest c gDvm g self st now resetNow = .ok (res, g1, st1))
    {i : Nat} {e : JitEntry} (he : tbl[i]? = some e) :
    ∃ tbl1 e1, g1.pJitEntryTable = some tbl1 ∧ tbl1[i]? = some e1 ∧
      e1.codeAddress = e.codeAddress ∧ (e.dPC ≠ 0 → e1.dPC = e.dPC) := by
  rcases checkTraceRequest_cases hg h with ⟨_, hg1, _⟩ | ⟨_, _, hg1, _⟩ |
    ⟨_, _, _, st2, ha, _⟩ | ⟨_, _, _, hg1, _⟩
  · subst hg1
    exact ⟨tbl, e, hg, he, rfl, fun _ => rfl⟩
  · subst hg1
    exact ⟨tbl, e, by rw [resetProfileCounts_table]; exact hg, he, rfl, fun _ => rfl⟩
  · exact acquireSlot_slot hg ha he
  · subst hg1
    exact ⟨tbl, e, hg, he, rfl, fun _ => rfl⟩

/-- One call keeps the `dPC` of an occupied slot, keeps a non-null
`codeAddress` non-null, and keeps its value unless the call is
`dvmJitSetCodeAddr` for the pc of the slot. -/
theorem applyOp_slot {c : Consts} {g g1 : DvmJitGlobals} {op : JitOp} {tbl : List JitEntry}
    (hg : g.pJitEntryTable = some tbl) (h : applyOp c g op = .ok g1) {i : Nat}
    {e : JitEntry} (he : tbl[i]? = some e) :
    ∃ tbl1 e1, g1.pJitEntryTable = some tbl1 ∧ tbl1[i]? = some e1 ∧
      (e.dPC ≠ 0 → e1.dPC = e.dPC) ∧ (e.codeAddress ≠ 0 → e1.codeAddress ≠ 0) ∧
      ((∀ nPC, op ≠ .setCodeAddr e.dPC nPC) → e1.codeAddress = e.codeAddress) := by
  cases op with
  | checkTraceRequest gDvm self st now resetNow =>
    simp only [applyOp] at h
    cases hc : dvmJitCheckTraceRequest c gDvm g self st now resetNow with
    | error err => simp [hc] at h
    | ok r =>
      obtain ⟨res, g2, st2⟩ := r
      simp only [hc, Except.ok.injEq] at h
      subst h
      obtain ⟨tbl1, e1, h1, h2, h3, h4⟩ := checkTraceRequest_slot hg hc he
      exact ⟨tbl1, e1, h1, h2, h4, fun hne => by rw [h3]; exact hne, fun _ => h3⟩
  | checkJit gDvm pc self st insn mallocOk =>
    simp only [applyOp] at h
    cases hc : dvmCheckJit c gDvm g pc self st insn mallocOk with
    | error err => simp [hc] at h
    | ok r =>
      obtain ⟨res, g2, st2⟩ := r
      simp only [hc, Except.ok.injEq] at h
      subst h
      exact ⟨tbl, e, by rw [dvmCheckJit_table hc]; exact hg, he, fun _ => rfl, fun hne => hne,
        fun _ => rfl⟩
  | setCodeAddr dPC nPC =>
    simp only [applyOp] at h
    obtain ⟨tbl0, j, e0, hg0, hfind, he0, hg1⟩ := setCodeAddr_cases h
    rw [hg] at hg0
    have ht : tbl0 = tbl := (Option.some.inj hg0).symm
    subst ht
    subst hg1
    by_cases hj : j = i
    · subst hj
      have hee : e0 = e := by rw [he0] at he; exact Option.some.inj he
      subst hee
      refine ⟨_, { e0 with codeAddress := nPC ||| 1 }, rfl, ?_, fun _ => rfl, ?_, ?_⟩
      · simp [List.getElem?_set, lt_length_of_get he0]
      · intro _ h0
        have := congrArg (fun x => x.testBit 0) h0
        simp at this
      · intro hno
        have hd := findJitEntry_some hg hfind
        rw [dpcAt_of_get he0] at hd
        have hd1 : e0.dPC = dPC := Option.some.inj hd
        exact absurd (by rw [hd1]) (hno nPC)
    · exact ⟨_, e, rfl, by rw [List.getElem?_set_ne hj]; exact he, fun _ => rfl,
        fun hne => hne, fun _ => rfl⟩
  | stopTranslationRequests =>
    simp only [applyOp, Except.ok.injEq] at h
    subst h
    exact ⟨tbl, e, hg, he, fun _ => rfl, fun hne => hne, fun _ => rfl⟩

/-- Along a sequence of calls a non-null `codeAddress` stays non-null, the
`dPC` of an occupied slot stays, and the `codeAddress` keeps its value when
no call is `dvmJitSetCodeAddr` for the pc of the slot. -/
theorem runOps_slot {c : Consts} (ops : List JitOp) :
    ∀ {g g1 : DvmJitGlobals} {tbl : List JitEntry} {i : Nat} {e : JitEntry},
      runOps c g ops = .ok g1 → g.pJitEntryTable = some tbl → tbl[i]? = some e →
      e.codeAddress ≠ 0 →
      ∃ tbl1 e1, g1.pJitEntryTable = some tbl1 ∧ tbl1[i]? = some e1 ∧ e1.codeAddress ≠ 0 ∧
        (e.dPC ≠ 0 → e1.dPC = e.dPC ∧
          ((∀ nPC, JitOp.setCodeAddr e.dPC nPC ∉ ops) → e1.codeAddress = e.codeAddress)) := by
  induction ops with
  | nil =>
    intro g g1 tbl i e hrun hg he hne
    simp only [runOps, Except.ok.injEq] at hrun
    subst hrun
    exact ⟨tbl, e, hg, he, hne, fun _ => ⟨rfl, fun _ => rfl⟩⟩
  | cons op ops ih =>
    intro g g1 tbl i e hrun hg he hne
    simp only [runOps] at hrun
    cases ha : applyOp c g op with
    | error err => simp [ha] at hrun
    | ok g2 =>
      simp only [ha] at hrun
      obtain ⟨tbl2, e2, hg2, he2, hd2, hc2, hv2⟩ := applyOp_slot hg ha he
      obtain ⟨tbl1, e1, hg1, he1, hc1, hrest⟩ := ih hrun hg2 he2 (hc2 hne)
      refine ⟨tbl1, e1, hg1, he1, hc1, ?_⟩
      intro hdz
      have hd2e := hd2 hdz
      obtain ⟨hd1, hv1⟩ := hrest (by rw [hd2e]; exact hdz)
      refine ⟨by rw [hd1, hd2e], ?_⟩
      intro hno
      have h2 : e2.codeAddress = e.codeAddress :=
        hv2 (fun nPC hcontra => hno nPC (by rw [hcontra]; exact List.mem_cons_self _ _))
      rw [← h2]
      apply hv1
      intro nPC hmem
      rw [hd2e] at hmem
      exact hno nPC (List.mem_cons_of_mem _ hmem)

/-- C4, as stated, fails: after startup, a request for pc 4 and
`dvmJitSetCodeAddr(4, 2)` publish code address 3 in slot 0; a second
`dvmJitSetCodeAddr(4, 4)` replaces it by 5. -/
theorem C4_counterexample :
    ¬ (∀ (c : Consts) (cfg : DvmJitGlobals) (now : Nat) (ops1 ops2 : List JitOp)
        (g1 g2 : DvmJitGlobals) (tbl1 tbl2 : List JitEntry) (i : Nat) (e1 e2 : JitEntry),
        runOps c (dvmJitStartup c cfg now) ops1 = .ok g1 → runOps c g1 ops2 = .ok g2 →
        g1.pJitEntryTable = some tbl1 → g2.pJitEntryTable = some tbl2 →
        tbl1[i]? = some e1 → tbl2[i]? = some e2 → e1.codeAddress ≠ 0 →
        e2.codeAddress = e1.codeAddress) := by
  intro h
  have h1 := h exConsts exConfig 0
    [.checkTraceRequest exDvm exThread (exRequest 4) 0 0, .setCodeAddr 4 2]
    [.setCodeAddr 4 4]
    { exGlobals with pJitEntryTable := some (exInstalled 3) }
    { exGlobals with pJitEntryTable := some (exInstalled 5) }
    (exInstalled 3) (exInstalled 5) 0
    { dPC := 4, codeAddress := 3, chain := 4 } { dPC := 4, codeAddress := 5, chain := 4 }
    (by decide) (by decide) rfl rfl rfl rfl (by decide)
  exact absurd h1 (by decide)

/-- C4, amended (publication): along every sequence of `dvmJitCheckTraceRequest`,
`dvmCheckJit`, `dvmJitSetCodeAddr` and `dvmJitStopTranslationRequests` calls, a
slot whose `codeAddress` is non-null keeps a non-null `codeAddress`; an
occupied slot keeps its `dPC`, and its `codeAddress` keeps its value as long as
`dvmJitSetCodeAddr` is not called for that `dPC`. A `dvmJitSetCodeAddr(pc, n)`
that completes stores `n | 1` in a slot of `pc`, whatever the slot held. -/
theorem C4_codeAddress_stays_published (c : Consts) (g g1 : DvmJitGlobals)
    (ops : List JitOp) (tbl : List JitEntry) (i : Nat) (e : JitEntry)
    (hrun : runOps c g ops = .ok g1) (hg : g.pJitEntryTable = some tbl)
    (he : tbl[i]? = some e) (hne : e.codeAddress ≠ 0) :
    (∃ tbl1 e1, g1.pJitEntryTable = some tbl1 ∧ tbl1[i]? = some e1 ∧ e1.codeAddress ≠ 0 ∧
      (e.dPC ≠ 0 → e1.dPC = e.dPC ∧
        ((∀ nPC, JitOp.setCodeAddr e.dPC nPC ∉ ops) → e1.codeAddress = e.codeAddress))) ∧
    (∀ (pc nPC : Nat) (g2 : DvmJitGlobals), dvmJitSetCodeAddr c g1 pc nPC = .ok g2 →
      ∃ (tbl2 : List JitEntry) (j : Nat) (e2 : JitEntry), g2.pJitEntryTable = some tbl2 ∧
        tbl2[j]? = some e2 ∧ e2.dPC = pc ∧ e2.codeAddress = nPC ||| 1) := by
  refine ⟨runOps_slot ops hrun hg he hne, ?_⟩
  intro pc nPC g2 hset
  obtain ⟨tbl0, j, e0, hg0, hfind, he0, hg2⟩ := setCodeAddr_cases hset
  subst hg2
  have hd := findJitEntry_some hg0 hfind
  rw [dpcAt_of_get he0] at hd
  refine ⟨_, j, { e0 with codeAddress := nPC ||| 1 }, rfl, ?_, Option.some.inj hd, rfl⟩
  simp [List.getElem?_set, lt_length_of_get he0]

/-- Example for C4: with code address 3 published for pc 4, a request for
pc 8, an installation for pc 8 and the kill switch leave slot 0 at 3. -/
theorem C4_codeAddress_stays_published_witness :
    ∃ tbl1 e1,
      ({ exGlobals with
          pJitEntryTable := some
            [{ dPC := 4, codeAddress := 3, chain := 1 }, { dPC := 8, codeAddress := 7, chain := 4 },
             { dPC := 0, codeAddress := 0, chain := 4 }, { dPC := 0, codeAddress := 0, chain := 4 }],
          pProfTable := false, pProfTableCopy := false } : DvmJitGlobals).pJitEntryTable =
        some tbl1 ∧
      tbl1[0]? = some e1 ∧ e1.codeAddress ≠ 0 ∧
      ((4 : Nat) ≠ 0 → e1.dPC = 4 ∧
        ((∀ nPC, JitOp.setCodeAddr 4 nPC ∉
          [JitOp.checkTraceRequest exDvm exThread (exRequest 8) 0 0, JitOp.setCodeAddr 8 6,
            JitOp.stopTranslationRequests]) → e1.codeAddress = 3)) :=
  (C4_codeAddress_stays_published exConsts
    { exGlobals with pJitEntryTable := some (exInstalled 3) }
    { exGlobals with
        pJitEntryTable := some
          [{ dPC := 4, codeAddress := 3, chain := 1 }, { dPC := 8, codeAddress := 7, chain := 4 },
           { dPC := 0, codeAddress := 0, chain := 4 }, { dPC := 0, codeAddress := 0, chain := 4 }],
        pProfTable := false, pProfTableCopy := false }
    [JitOp.checkTraceRequest exDvm exThread (exRequest 8) 0 0, JitOp.setCodeAddr 8 6,
      JitOp.stopTranslationRequests]
    (exInstalled 3) 0 { dPC := 4, codeAddress := 3, chain := 4 } (by decide) rfl rfl
    (by decide)).1

/-! ## Runs of a trace under selection -/

theorem take_set_self {α : Type} (l : List α) (k : Nat) (x : α) :
    (l.set k x).take k = l.take k := by
  apply List.ext_getElem?
  intro i
  rw [List.getElem?_take, List.getElem?_take]
  split
  · rename_i hik
    rw [List.getElem?_set_ne (by omega)]
  · rfl

theorem take_succ_set {α : Type} (l : List α) (k : Nat) (x : α) (hk : k < l.length) :
    (l.set k x).take (k + 1) = l.take k ++ [x] := by
  rw [List.take_succ, take_set_self]
  simp [List.getElem?_set, hk]

theorem take_succ_get {α : Type} (l : List α) (k : Nat) (r : α) (hr : l[k]? = some r) :
    l.take (k + 1) = l.take k ++ [r] := by
  rw [List.take_succ, hr]
  rfl

theorem length_lt_of_getElem? {α : Type} {l : List α} {k : Nat} {r : α}
    (hr : l[k]? = some r) : k < l.length := by
  obtain ⟨hlt, _⟩ := List.getElem?_eq_some.mp hr
  exact hlt

/-- What `startNewRun` returns: the state itself when `pc` continues the
current run, and otherwise the state with a fresh run opened at `pc`. -/
theorem startNewRun_cases {c : Consts} {pc : Nat} {st sa : InterpState}
    (h : startNewRun c pc st = .ok sa) :
    (pc = st.currRunHead + st.currRunLen ∧ sa = st) ∨
    (pc ≠ st.currRunHead + st.currRunLen ∧ st.currTraceRun + 1 < st.trace.length ∧
      sa = { st with
        currTraceRun := st.currTraceRun + 1,
        currRunLen := 0,
        currRunHead := pc,
        trace := st.trace.set (st.currTraceRun + 1)
          { startOffset := (pc : Int) - (st.method.insns : Int), numInsts := 0,
            runEnd := false, hint := c.kJitHintNone } }) := by
  unfold startNewRun at h
  by_cases hpc : pc ≠ st.currRunHead + st.currRunLen
  · rw [if_pos hpc] at h
    simp only at h
    by_cases hlt : st.currTraceRun + 1 < st.trace.length
    · rw [if_pos hlt] at h
      exact Or.inr ⟨hpc, hlt, (Except.ok.inj h).symm⟩
    · rw [if_neg hlt] at h
      simp at h
  · rw [if_neg hpc] at h
    exact Or.inl ⟨by simpa using hpc, (Except.ok.inj h).symm⟩

/-- What `addInsn` changes: the instruction count of the current run, the
lengths, and possibly the state, which becomes `kJitTSelectEnd` at the latest
when the trace reaches `MAX_TRACE_LEN`. -/
theorem addInsn_cases {c : Consts} {st sb : InterpState} {insn : InsnInfo}
    (h : addInsn c st insn = .ok sb) :
    ∃ r, st.trace[st.currTraceRun]? = some r ∧
      sb.trace = st.trace.set st.currTraceRun { r with numInsts := r.numInsts + 1 } ∧
      sb.totalTraceLen = st.totalTraceLen + 1 ∧ sb.currTraceRun = st.currTraceRun ∧
      sb.method = st.method ∧ sb.currTraceHead = st.currTraceHead ∧
      sb.currRunHead = st.currRunHead ∧ sb.currRunLen = st.currRunLen + insn.width ∧
      sb.pc = st.pc ∧ sb.entryPoint = st.entryPoint ∧
      (sb.jitState = st.jitState ∨ sb.jitState = .kJitTSelectEnd) ∧
      (MAX_TRACE_LEN ≤ st.totalTraceLen + 1 → sb.jitState = .kJitTSelectEnd) := by
  unfold addInsn at h
  cases hr : st.trace[st.currTraceRun]? with
  | none => simp [hr] at h
  | some r =>
    simp only [hr, Except.ok.injEq] at h
    subst h
    refine ⟨r, rfl, ?_, ?_, ?_, ?_, ?_, ?_, ?_, ?_, ?_, ?_, ?_⟩
    · split_ifs <;> rfl
    · split_ifs <;> rfl
    · split_ifs <;> rfl
    · split_ifs <;> rfl
    · split_ifs <;> rfl
    · split_ifs <;> rfl
    · split_ifs <;> rfl
    · split_ifs <;> rfl
    · split_ifs <;> rfl
    · split_ifs <;> simp
    · intro hmax
      split_ifs <;> simp_all

theorem startNewRun_runs {c : Consts} {pc : Nat} {st sa : InterpState} (hinv : RunsInv st)
    (h : startNewRun c pc st = .ok sa) :
    RunsInv sa ∧ sa.totalTraceLen = st.totalTraceLen ∧ sa.jitState = st.jitState ∧
      sa.method = st.method ∧ sa.currTraceHead = st.currTraceHead := by
  rcases startNewRun_cases h with ⟨_, hsa⟩ | ⟨_, hlt, hsa⟩
  · subst hsa
    exact ⟨hinv, rfl, rfl, rfl, rfl⟩
  · subst hsa
    obtain ⟨_, hsum, hend⟩ := hinv
    refine ⟨⟨?_, ?_, ?_⟩, rfl, rfl, rfl, rfl⟩
    · simp only [List.length_set]
      exact hlt
    · simp only
      rw [take_succ_set _ _ _ hlt]
      simp only [List.map_append, List.sum_append, List.map_cons, List.map_nil, List.sum_cons,
        List.sum_nil, Nat.add_zero]
      exact hsum
    · simp only
      rw [take_succ_set _ _ _ hlt]
      intro r hr
      rcases List.mem_append.mp hr with h1 | h1
      · exact hend r h1
      · simp only [List.mem_singleton] at h1
        rw [h1]

theorem addInsn_runs {c : Consts} {st sb : InterpState} {insn : InsnInfo} (hinv : RunsInv st)
    (h : addInsn c st insn = .ok sb) : RunsInv sb := by
  obtain ⟨r, hr, htr, _, hctr, _⟩ := addInsn_cases h
  obtain ⟨hlt, hsum, hend⟩ := hinv
  have hold := take_succ_get _ _ _ hr
  rw [hold] at hsum hend
  refine ⟨?_, ?_, ?_⟩
  · rw [htr, hctr, List.length_set]
    exact hlt
  · rw [htr, hctr, take_succ_set _ _ _ hlt]
    obtain ⟨_, _, _, htot, _⟩ := addInsn_cases h
    rw [htot, ← hsum]
    simp only [List.map_append, List.sum_append, List.map_cons, List.map_nil, List.sum_cons,
      List.sum_nil]
    omega
  · rw [htr, hctr, take_succ_set _ _ _ hlt]
    intro r1 hr1
    rcases List.mem_append.mp hr1 with h1 | h1
    · exact hend r1 (List.mem_append_left _ h1)
    · simp only [List.mem_singleton] at h1
      rw [h1]
      exact hend r (List.mem_append_right _ (List.mem_singleton.mpr rfl))

/-- The descriptor that the `kJitTSelectEnd` case enqueues, when the runs are
consistent: it holds the runs `trace[0..currTraceRun]` of the state on return
and the method; the instruction counts add up to `totalTraceLen`; the last
run, and no other, is marked as the end. -/
theorem traceSelectEnd_enqueue {c : Consts} {g g1 : DvmJitGlobals} {st st1 : InterpState}
    {dop mallocOk sw : Bool} (hinv : RunsInv st)
    (h : traceSelectEnd c g st dop mallocOk = .ok (sw, g1, st1)) {w : CompilerWorkOrder}
    (hw : g1.workOrders = g.workOrders ++ [w]) :
    w.pc = st.currTraceHead ∧ w.kind = c.kWorkOrderTrace ∧ w.info.method = st.method ∧
    st1.method = st.method ∧ st1.totalTraceLen = st.totalTraceLen ∧
    st1.jitState = .kJitNormal ∧
    w.info.trace = st1.trace.take (st1.currTraceRun + 1) ∧
    w.info.trace.length = st1.currTraceRun + 1 ∧
    (w.info.trace.map JitTraceRun.numInsts).sum = st1.totalTraceLen ∧
    ∃ init last, w.info.trace = init ++ [last] ∧ last.runEnd = true ∧
      ∀ r ∈ init, r.runEnd = false := by
  obtain ⟨_, hc⟩ := traceSelectEnd_cases h
  rcases hc with ⟨_, hg, _⟩ | ⟨_, _, hg, _⟩ | ⟨_, _, r, hr, hst, hg⟩
  · subst hg
    have := congrArg List.length hw
    simp at this
  · subst hg
    have := congrArg List.length hw
    simp [dvmJitStopTranslationRequests] at this
  · subst hg hst
    simp only [dvmCompilerWorkEnqueue] at hw
    have hweq := List.append_cancel_left hw
    simp only [List.cons.injEq, and_true] at hweq
    subst hweq
    obtain ⟨hlt, hsum, hend⟩ := hinv
    have hold := take_succ_get _ _ _ hr
    rw [hold] at hsum hend
    simp only
    rw [take_succ_set _ _ _ hlt]
    refine ⟨trivial, trivial, trivial, trivial, trivial, trivial, trivial, ?_, ?_, ?_⟩
    · simp only [List.length_append, List.length_take, List.length_singleton]
      omega
    · rw [← hsum]
      simp only [List.map_append, List.sum_append, List.map_cons, List.map_nil, List.sum_cons,
        List.sum_nil]
    · exact ⟨_, _, rfl, rfl, fun r1 hr1 => hend r1 (List.mem_append_left _ hr1)⟩

theorem TraceInv.of_idle {st : InterpState} (h1 : st.jitState ≠ .kJitTSelect)
    (h2 : st.jitState ≠ .kJitTSelectEnd) : TraceInv st :=
  ⟨fun h => absurd h h1, fun h => absurd h h2⟩

/-- What the `kJitTSelectEnd` case leaves behind satisfies the invariant. -/
theorem traceSelectEnd_inv {c : Consts} {g g1 : DvmJitGlobals} {st st1 : InterpState}
    {dop mallocOk sw : Bool} (hinv : TraceInv st)
    (h : traceSelectEnd c g st dop mallocOk = .ok (sw, g1, st1)) : TraceInv st1 := by
  obtain ⟨_, hc⟩ := traceSelectEnd_cases h
  rcases hc with ⟨_, _, hst⟩ | ⟨_, _, _, hst⟩ | ⟨_, _, r, _, hst, _⟩
  · rw [hst]; exact hinv
  · rw [hst]; exact TraceInv.of_idle (by simp) (by simp)
  · rw [hst]; exact TraceInv.of_idle (by simp) (by simp)

/-- The state after adding an instruction to a selection in progress satisfies
the invariant. -/
theorem addInsn_inv {c : Consts} {pc : Nat} {st sa sb : InterpState} {insn : InsnInfo}
    (hsel : st.jitState = .kJitTSelect) (hinv : TraceInv st)
    (hsa : startNewRun c pc st = .ok sa) (hsb : addInsn c sa insn = .ok sb) :
    TraceInv sb ∧ RunsInv sb ∧ sb.totalTraceLen ≤ MAX_TRACE_LEN ∧ sb.method = st.method ∧
      sb.currTraceHead = st.currTraceHead := by
  obtain ⟨hruns, hlt⟩ := hinv.1 hsel
  obtain ⟨hrunsa, htota, hjsa, hma, hha⟩ := startNewRun_runs hruns hsa
  have hrunsb := addInsn_runs hrunsa hsb
  obtain ⟨_, _, _, htotb, _, hmb, hhb, _, _, _, _, _, hmax⟩ := addInsn_cases hsb
  have hle : sb.totalTraceLen ≤ MAX_TRACE_LEN := by rw [htotb, htota]; omega
  refine ⟨⟨fun hj => ⟨hrunsb, ?_⟩, fun _ => ⟨hrunsb, hle⟩⟩, hrunsb, hle, by rw [hmb, hma],
    by rw [hhb, hha]⟩
  by_contra hge
  have hend := hmax (by rw [htotb] at hge; omega)
  rw [hend] at hj
  exact absurd hj (by simp)

/-- `dvmCheckJit` keeps the invariant of the trace selection. -/
theorem dvmCheckJit_inv {c : Consts} {gDvm : DvmGlobals} {g g1 : DvmJitGlobals} {pc : Nat}
    {self : Thread} {st st1 : InterpState} {insn : InsnInfo} {mallocOk sw : Bool}
    (hinv : TraceInv st)
    (h : dvmCheckJit c gDvm g pc self st insn mallocOk = .ok (sw, g1, st1)) :
    TraceInv st1 := by
  rcases dvmCheckJit_cases h with ⟨hsel, _, _, hst, _⟩ | ⟨hsel, _, sa, sb, hsa, hsb, hc⟩ |
    ⟨_, hc⟩ | ⟨hj, _, hst, _⟩ | ⟨hj, _, hst, _⟩ | ⟨hj, _, hst, _⟩ | ⟨hj, _, hst, _⟩
  · obtain ⟨hruns, hlt⟩ := hinv.1 hsel
    rw [hst]
    exact ⟨fun hj => absurd hj (by simp), fun _ => ⟨hruns, le_of_lt hlt⟩⟩
  · obtain ⟨hb, _⟩ := addInsn_inv hsel hinv hsa hsb
    rcases hc with ⟨_, _, hst, _⟩ | ⟨_, _, _, hst, _⟩ | ⟨_, _, hc⟩
    · rw [hst]; exact TraceInv.of_idle (by simp) (by simp)
    · rw [hst]; exact hb
    · exact traceSelectEnd_inv hb hc
  · exact traceSelectEnd_inv hinv hc
  · rw [hst]; exact TraceInv.of_idle (by simp) (by simp)
  · rw [hst]; exact TraceInv.of_idle (by simp [hj]) (by simp [hj])
  · rw [hst]; exact TraceInv.of_idle (by simp) (by simp)
  · rw [hst]; exact TraceInv.of_idle (by simp [hj]) (by simp [hj])

theorem not_enqueued {g : DvmJitGlobals} {w : CompilerWorkOrder}
    (h : g.workOrders = g.workOrders ++ [w]) : False := by
  have := congrArg List.length h
  simp at this

/-- The descriptor that a `dvmCheckJit` call enqueues, when the call starts
from a state with the invariant. -/
theorem dvmCheckJit_enqueue {c : Consts} {gDvm : DvmGlobals} {g g1 : DvmJitGlobals} {pc : Nat}
    {self : Thread} {st st1 : InterpState} {insn : InsnInfo} {mallocOk sw : Bool}
    (hinv : TraceInv st)
    (h : dvmCheckJit c gDvm g pc self st insn mallocOk = .ok (sw, g1, st1))
    {w : CompilerWorkOrder} (hw : g1.workOrders = g.workOrders ++ [w]) :
    w.pc = st.currTraceHead ∧ w.kind = c.kWorkOrderTrace ∧ w.info.method = st.method ∧
    st1.jitState = .kJitNormal ∧ st1.totalTraceLen ≤ MAX_TRACE_LEN ∧
    w.info.trace = st1.trace.take (st1.currTraceRun + 1) ∧
    w.info.trace.length = st1.currTraceRun + 1 ∧
    (w.info.trace.map JitTraceRun.numInsts).sum = st1.totalTraceLen ∧
    ∃ init last, w.info.trace = init ++ [last] ∧ last.runEnd = true ∧
      ∀ r ∈ init, r.runEnd = false := by
  rcases dvmCheckJit_cases h with ⟨_, _, hg, _⟩ | ⟨hsel, _, sa, sb, hsa, hsb, hc⟩ |
    ⟨hj, hc⟩ | ⟨_, hg, _⟩ | ⟨_, hg, _⟩ | ⟨_, hg, _⟩ | ⟨_, hg, _⟩
  · subst hg; exact absurd hw (fun hcontra => not_enqueued hcontra)
  · obtain ⟨_, hruns, hle, hm, hh⟩ := addInsn_inv hsel hinv hsa hsb
    rcases hc with ⟨_, hg, _⟩ | ⟨_, _, hg, _⟩ | ⟨_, _, hc⟩
    · subst hg; exact absurd hw (fun hcontra => not_enqueued hcontra)
    · subst hg; exact absurd hw (fun hcontra => not_enqueued hcontra)
    · obtain ⟨h1, h2, h3, _, h5, h6, h7, h8, h9, h10⟩ := traceSelectEnd_enqueue hruns hc hw
      exact ⟨by rw [h1, hh], h2, by rw [h3, hm], h6, by rw [h5]; exact hle, h7, h8, h9, h10⟩
  · obtain ⟨hruns, hle⟩ := hinv.2 hj
    obtain ⟨h1, h2, h3, _, h5, h6, h7, h8, h9, h10⟩ := traceSelectEnd_enqueue hruns hc hw
    exact ⟨h1, h2, h3, h6, by rw [h5]; exact hle, h7, h8, h9, h10⟩
  · subst hg; exact absurd hw (fun hcontra => not_enqueued hcontra)
  · subst hg; exact absurd hw (fun hcontra => not_enqueued hcontra)
  · subst hg; exact absurd hw (fun hcontra => not_enqueued hcontra)
  · subst hg; exact absurd hw (fun hcontra => not_enqueued hcontra)

/-- A sequence of `dvmCheckJit` calls keeps the invariant. -/
theorem runCheckJit_inv {c : Consts} (calls : List CheckJitCall) :
    ∀ {g g1 : DvmJitGlobals} {st st1 : InterpState}, TraceInv st →
      runCheckJit c (g, st) calls = .ok (g1, st1) → TraceInv st1 := by
  induction calls with
  | nil =>
    intro g g1 st st1 hinv h
    simp only [runCheckJit, Except.ok.injEq, Prod.mk.injEq] at h
    rw [← h.2]; exact hinv
  | cons k ks ih =>
    intro g g1 st st1 hinv h
    simp only [runCheckJit] at h
    cases hc : dvmCheckJit c k.gDvm g k.pc k.self st k.insn k.mallocOk with
    | error err => simp [hc] at h
    | ok r =>
      obtain ⟨sw, g2, st2⟩ := r
      simp only [hc] at h
      exact ih (dvmCheckJit_inv hinv hc) h

/-- The final `switch` of the request gate: a state that selects afterwards
either selected before or is a pending request whose accumulators were
initialised. -/
theorem promoteRequest_select {c : Consts} {r res : Bool} {st st1 : InterpState}
    (h : promoteRequest c r st = .ok (res, st1)) (hsel : st1.jitState = .kJitTSelect) :
    (st.jitState = .kJitTSelect ∧ st1 = st) ∨
    (st.jitState = .kJitTSelectRequest ∧ res = r ∧ ∃ old rest, st.trace = old :: rest ∧
      st1 = { st with
        jitState := .kJitTSelect,
        currTraceHead := st.pc,
        currTraceRun := 0,
        totalTraceLen := 0,
        currRunHead := st.pc,
        currRunLen := 0,
        trace := { startOffset := (st.pc : Int) - (st.method.insns : Int), numInsts := 0,
                   runEnd := false, hint := c.kJitHintNone } :: rest }) := by
  unfold promoteRequest at h
  cases hjs : st.jitState <;> simp only [hjs] at h
  · simp only [Except.ok.injEq, Prod.mk.injEq] at h
    rw [← h.2, hjs] at hsel; simp at hsel
  · simp only [Except.ok.injEq, Prod.mk.injEq] at h
    rw [← h.2, hjs] at hsel; simp at hsel
  · right
    cases htr : st.trace with
    | nil => simp [htr] at h
    | cons old rest =>
      simp only [htr, Except.ok.injEq, Prod.mk.injEq] at h
      exact ⟨rfl, h.1.symm, old, rest, rfl, h.2.symm⟩
  · left
    simp only [Except.ok.injEq, Prod.mk.injEq] at h
    exact ⟨rfl, h.2.symm⟩
  · simp only [Except.ok.injEq, Prod.mk.injEq] at h
    rw [← h.2, hjs] at hsel; simp at hsel
  · simp at h
  · simp only [Except.ok.injEq, Prod.mk.injEq] at h
    rw [← h.2, hjs] at hsel; simp at hsel
  · simp only [Except.ok.injEq, Prod.mk.injEq] at h
    rw [← h.2, hjs] at hsel; simp at hsel

/-- The promotion step: when `dvmJitCheckTraceRequest` turns a pending request
into a selection, the accumulators of the thread are reset and `trace[0]` is
an empty run at the pc. -/
theorem checkTraceRequest_promoted {c : Consts} {gDvm : DvmGlobals} {g g1 : DvmJitGlobals}
    {self : Thread} {st st1 : InterpState} {now resetNow : Nat} {res : Bool}
    (hreq : st.jitState = .kJitTSelectRequest)
    (h : dvmJitCheckTraceRequest c gDvm g self st now resetNow = .ok (res, g1, st1))
    (hsel : st1.jitState = .kJitTSelect) :
    ∃ old rest, st.trace = old :: rest ∧
      st1 = { st with
        jitState := .kJitTSelect,
        currTraceHead := st.pc,
        currTraceRun := 0,
        totalTraceLen := 0,
        currRunHead := st.pc,
        currRunLen := 0,
        trace := { startOffset := (st.pc : Int) - (st.method.insns : Int), numInsts := 0,
                   runEnd := false, hint := c.kJitHintNone } :: rest } := by
  cases hg : g.pJitEntryTable with
  | none =>
    unfold dvmJitCheckTraceRequest at h
    simp only [hg, Except.ok.injEq, Prod.mk.injEq] at h
    rw [← h.2.2, hreq] at hsel
    simp at hsel
  | some tbl =>
    rcases checkTraceRequest_cases hg h with ⟨_, _, hp⟩ | ⟨_, _, _, hp⟩ |
      ⟨_, _, _, st2, ha, hp⟩ | ⟨_, _, hne, _⟩
    · have hoff : st.jitState ≠ .kJitOff := by rw [hreq]; simp
      rw [if_pos hoff] at hp
      rcases promoteRequest_select hp hsel with ⟨hj, _⟩ | ⟨hj, _⟩ <;> simp at hj
    · rcases promoteRequest_select hp hsel with ⟨hj, _⟩ | ⟨_, _, old, rest, htr, hst⟩
      · rw [hreq] at hj; simp at hj
      · exact ⟨old, rest, htr, hst⟩
    · have hst2 : st2 = st ∨ st2 = { st with jitState := .kJitTSelectAbort } := by
        rcases acquireSlot_cases ha with ⟨_, _, h2⟩ | ⟨_, hrest⟩
        · exact Or.inr h2
        · rcases hrest with ⟨_, _, _, _, _, _, _, h2⟩ |
            ⟨_, _, _, _, _, _, _, _, _, _, _, _, h2⟩ | ⟨_, h2⟩
          · exact Or.inl h2
          · exact Or.inl h2
          · exact Or.inr h2
      rcases hst2 with h2 | h2
      · subst h2
        rcases promoteRequest_select hp hsel with ⟨hj, _⟩ | ⟨_, _, old, rest, htr, hst⟩
        · rw [hreq] at hj; simp at hj
        · exact ⟨old, rest, htr, hst⟩
      · subst h2
        rcases promoteRequest_select hp hsel with ⟨hj, _⟩ | ⟨hj, _⟩ <;> simp at hj
    · exact absurd hreq hne

/-- A freshly promoted selection satisfies the invariant. -/
theorem checkTraceRequest_promoted_inv {c : Consts} {gDvm : DvmGlobals}
    {g g1 : DvmJitGlobals} {self : Thread} {st st1 : InterpState} {now resetNow : Nat}
    {res : Bool} (hreq : st.jitState = .kJitTSelectRequest)
    (h : dvmJitCheckTraceRequest c gDvm g self st now resetNow = .ok (res, g1, st1))
    (hsel : st1.jitState = .kJitTSelect) : TraceInv st1 := by
  obtain ⟨old, rest, _, hst⟩ := checkTraceRequest_promoted hreq h hsel
  subst hst
  refine ⟨fun _ => ⟨⟨?_, ?_, ?_⟩, ?_⟩, fun hj => absurd hj (by simp)⟩
  · simp
  · simp
  · intro r hr
    simp only [Nat.zero_add, List.take_succ_cons, List.take_zero, List.mem_singleton] at hr
    rw [hr]
  · simp [MAX_TRACE_LEN]

/-- C6 (trace bound): let a thread be promoted to trace selection by
`dvmJitCheckTraceRequest` and then make any sequence of `dvmCheckJit` calls,
with arbitrary pcs, flags and widths. Whenever one of these calls enqueues a
descriptor, the instruction counts of its runs `0..currTraceRun` add up to
`totalTraceLen`, which is at most `MAX_TRACE_LEN` = 100. -/
theorem C6_trace_bound (c : Consts) (gDvm : DvmGlobals) (g g1 g2 g3 : DvmJitGlobals)
    (self : Thread) (st st1 st2 st3 : InterpState) (now resetNow : Nat) (res sw : Bool)
    (calls : List CheckJitCall) (k : CheckJitCall) (w : CompilerWorkOrder)
    (hreq : st.jitState = .kJitTSelectRequest)
    (hprom : dvmJitCheckTraceRequest c gDvm g self st now resetNow = .ok (res, g1, st1))
    (hsel : st1.jitState = .kJitTSelect)
    (hrun : runCheckJit c (g1, st1) calls = .ok (g2, st2))
    (hcall : dvmCheckJit c k.gDvm g2 k.pc k.self st2 k.insn k.mallocOk = .ok (sw, g3, st3))
    (henq : g3.workOrders = g2.workOrders ++ [w]) :
    w.info.trace.length = st3.currTraceRun + 1 ∧
    (w.info.trace.map JitTraceRun.numInsts).sum = st3.totalTraceLen ∧
    st3.totalTraceLen ≤ MAX_TRACE_LEN ∧ MAX_TRACE_LEN = 100 := by
  have hinv := runCheckJit_inv calls (checkTraceRequest_promoted_inv hreq hprom hsel) hrun
  obtain ⟨_, _, _, _, hle, _, hlen, hsum, _⟩ := dvmCheckJit_enqueue hinv hcall henq
  exact ⟨hlen, hsum, hle, rfl⟩

/-- C7 (trace integrity): under the same conditions, the descriptor that a
`dvmCheckJit` call enqueues holds exactly the runs `trace[0..currTraceRun]` of
the thread, its method is the method of the interpreter state, it is enqueued
for the head of the trace as a trace work order, its last run has `runEnd`
set and every earlier run has not. -/
theorem C7_trace_integrity (c : Consts) (gDvm : DvmGlobals) (g g1 g2 g3 : DvmJitGlobals)
    (self : Thread) (st st1 st2 st3 : InterpState) (now resetNow : Nat) (res sw : Bool)
    (calls : List CheckJitCall) (k : CheckJitCall) (w : CompilerWorkOrder)
    (hreq : st.jitState = .kJitTSelectRequest)
    (hprom : dvmJitCheckTraceRequest c gDvm g self st now resetNow = .ok (res, g1, st1))
    (hsel : st1.jitState = .kJitTSelect)
    (hrun : runCheckJit c (g1, st1) calls = .ok (g2, st2))
    (hcall : dvmCheckJit c k.gDvm g2 k.pc k.self st2 k.insn k.mallocOk = .ok (sw, g3, st3))
    (henq : g3.workOrders = g2.workOrders ++ [w]) :
    w.info.trace = st3.trace.take (st3.currTraceRun + 1) ∧
    w.info.method = st2.method ∧ st3.method = st2.method ∧
    w.pc = st2.currTraceHead ∧ w.kind = c.kWorkOrderTrace ∧
    ∃ init last, w.info.trace = init ++ [last] ∧ last.runEnd = true ∧
      ∀ r ∈ init, r.runEnd = false := by
  have hinv := runCheckJit_inv calls (checkTraceRequest_promoted_inv hreq hprom hsel) hrun
  obtain ⟨hpc, hkind, hm, _, _, htr, _, _, hlast⟩ := dvmCheckJit_enqueue hinv hcall henq
  refine ⟨htr, hm, ?_, hpc, hkind, hlast⟩
  rcases dvmCheckJit_cases hcall with ⟨_, _, _, hst, _⟩ | ⟨hs, _, sa, sb, hsa, hsb, hc⟩ |
    ⟨_, hc⟩ | ⟨_, _, hst, _⟩ | ⟨_, _, hst, _⟩ | ⟨_, _, hst, _⟩ | ⟨_, _, hst, _⟩
  · rw [hst]
  · obtain ⟨_, _, _, hmb, _⟩ := addInsn_inv hs hinv hsa hsb
    rcases hc with ⟨_, _, hst, _⟩ | ⟨_, _, _, hst, _⟩ | ⟨_, _, hc⟩
    · rw [hst]; exact hmb
    · rw [hst]; exact hmb
    · obtain ⟨_, hcc⟩ := traceSelectEnd_cases hc
      rcases hcc with ⟨_, _, hst⟩ | ⟨_, _, _, hst⟩ | ⟨_, _, r, _, hst, _⟩ <;>
        (rw [hst]; exact hmb)
  · obtain ⟨_, hcc⟩ := traceSelectEnd_cases hc
    rcases hcc with ⟨_, _, hst⟩ | ⟨_, _, _, hst⟩ | ⟨_, _, r, _, hst, _⟩ <;> rw [hst]
  · rw [hst]
  · rw [hst]
  · rw [hst]
  · rw [hst]

/-- Example for C6: pc 4 is promoted, one ordinary instruction and then a
return are added; the return enqueues one run of two instructions. -/
theorem C6_trace_bound_witness :
    exOrder.info.trace.length = exFinished.currTraceRun + 1 ∧
    (exOrder.info.trace.map JitTraceRun.numInsts).sum = exFinished.totalTraceLen ∧
    exFinished.totalTraceLen ≤ MAX_TRACE_LEN ∧ MAX_TRACE_LEN = 100 :=
  C6_trace_bound exConsts exDvm exGlobals exGlobals1 exGlobals1
    { exGlobals1 with workOrders := [exOrder] } exThread (exRequest 4) (exPromoted 4)
    exSelecting exFinished 0 0 false true [exPlainCall 4] (exReturnCall 5) exOrder
    (by decide) (by decide) (by decide) (by decide) (by decide) (by decide)

/-- Example for C7: the same selection; the descriptor is the single run of
the thread, closed by `runEnd`. -/
theorem C7_trace_integrity_witness :
    exOrder.info.trace = exFinished.trace.take (exFinished.currTraceRun + 1) ∧
    exOrder.info.method = exSelecting.method ∧ exFinished.method = exSelecting.method ∧
    exOrder.pc = exSelecting.currTraceHead ∧ exOrder.kind = exConsts.kWorkOrderTrace ∧
    ∃ init last, exOrder.info.trace = init ++ [last] ∧ last.runEnd = true ∧
      ∀ r ∈ init, r.runEnd = false :=
  C7_trace_integrity exConsts exDvm exGlobals exGlobals1 exGlobals1
    { exGlobals1 with workOrders := [exOrder] } exThread (exRequest 4) (exPromoted 4)
    exSelecting exFinished 0 0 false true [exPlainCall 4] (exReturnCall 5) exOrder
    (by decide) (by decide) (by decide) (by decide) (by decide) (by decide)

/-! ## The kill switch -/

theorem traceSelectEnd_stop (c : Consts) (g : DvmJitGlobals) (st : InterpState)
    (dop mallocOk : Bool) :
    traceSelectEnd c (dvmJitStopTranslationRequests g) st dop mallocOk =
      (traceSelectEnd c g st dop mallocOk).map
        (fun r => (r.1, dvmJitStopTranslationRequests r.2.1, r.2.2)) := by
  unfold traceSelectEnd
  by_cases h0 : st.totalTraceLen = 0
  · rw [if_pos h0, if_pos h0]; rfl
  · rw [if_neg h0, if_neg h0]
    by_cases hm : mallocOk = false
    · rw [if_pos hm, if_pos hm]; rfl
    · rw [if_neg hm, if_neg hm]
      cases st.trace[st.currTraceRun]? with
      | none => rfl
      | some r =>
        simp only [dvmCompilerDrainQueue, ite_self]
        rfl

/-- `dvmCheckJit` neither reads nor restores the profile table pointers: after
the kill switch it does what it does without it. -/
theorem dvmCheckJit_stop (c : Consts) (gDvm : DvmGlobals) (g : DvmJitGlobals) (pc : Nat)
    (self : Thread) (st : InterpState) (insn : InsnInfo) (mallocOk : Bool) :
    dvmCheckJit c gDvm (dvmJitStopTranslationRequests g) pc self st insn mallocOk =
      (dvmCheckJit c gDvm g pc self st insn mallocOk).map
        (fun r => (r.1, dvmJitStopTranslationRequests r.2.1, r.2.2)) := by
  unfold dvmCheckJit
  cases st.jitState with
  | kJitTSelect =>
    simp only
    by_cases hnj : insn.flags &&& c.kInstrNoJit = c.kInstrNoJit
    · rw [if_pos hnj, if_pos hnj]; rfl
    · rw [if_neg hnj, if_neg hnj]
      cases startNewRun c pc st with
      | error e => rfl
      | ok sa =>
        simp only
        cases addInsn c sa insn with
        | error e => rfl
        | ok sb =>
          simp only
          by_cases hd : debugOrProfile gDvm self = true
          · rw [if_pos hd, if_pos hd]; rfl
          · rw [if_neg hd, if_neg hd]
            by_cases hcr : insn.flags &&& c.kInstrCanReturn ≠ c.kInstrCanReturn
            · rw [if_pos hcr, if_pos hcr]; rfl
            · rw [if_neg hcr, if_neg hcr]
              exact traceSelectEnd_stop c g sb _ mallocOk
  | kJitTSelectEnd => exact traceSelectEnd_stop c g st _ mallocOk
  | kJitOff => rfl
  | kJitNormal => rfl
  | kJitTSelectRequest => rfl
  | kJitTSelectAbort => rfl
  | kJitSingleStep => rfl
  | kJitSingleStepEnd => rfl

/-- What `dvmCheckJit` does to the globals: it leaves them, or stops
translation requests, or enqueues one work order. -/
theorem dvmCheckJit_globals {c : Consts} {gDvm : DvmGlobals} {g g1 : DvmJitGlobals} {pc : Nat}
    {self : Thread} {st st1 : InterpState} {insn : InsnInfo} {mallocOk sw : Bool}
    (h : dvmCheckJit c gDvm g pc self st insn mallocOk = .ok (sw, g1, st1)) :
    g1 = g ∨ g1 = dvmJitStopTranslationRequests g ∨
    ((st.jitState = .kJitTSelect ∨ (st.jitState = .kJitTSelectEnd ∧ st.totalTraceLen ≠ 0)) ∧
      ∃ pc1 kind info, g1 = dvmCompilerWorkEnqueue g pc1 kind info) := by
  have hend : ∀ {sE : InterpState},
      traceSelectEnd c g sE (debugOrProfile gDvm self) mallocOk = .ok (sw, g1, st1) →
      g1 = g ∨ g1 = dvmJitStopTranslationRequests g ∨
        (sE.totalTraceLen ≠ 0 ∧ ∃ pc1 kind info, g1 = dvmCompilerWorkEnqueue g pc1 kind info) := by
    intro sE hc
    obtain ⟨_, hcc⟩ := traceSelectEnd_cases hc
    rcases hcc with ⟨_, hg, _⟩ | ⟨_, _, hg, _⟩ | ⟨h0, _, r, _, _, hg⟩
    · exact Or.inl hg
    · exact Or.inr (Or.inl hg)
    · exact Or.inr (Or.inr ⟨h0, _, _, _, hg⟩)
  rcases dvmCheckJit_cases h with ⟨_, _, hg, _⟩ | ⟨hsel, _, sa, sb, _, _, hc⟩ |
    ⟨hj, hc⟩ | ⟨_, hg, _⟩ | ⟨_, hg, _⟩ | ⟨_, hg, _⟩ | ⟨_, hg, _⟩
  · exact Or.inl hg
  · rcases hc with ⟨_, hg, _⟩ | ⟨_, _, hg, _⟩ | ⟨_, _, hc⟩
    · exact Or.inl hg
    · exact Or.inl hg
    · rcases hend hc with h1 | h1 | ⟨_, h1⟩
      · exact Or.inl h1
      · exact Or.inr (Or.inl h1)
      · exact Or.inr (Or.inr ⟨Or.inl hsel, h1⟩)
  · rcases hend hc with h1 | h1 | ⟨h0, h1⟩
    · exact Or.inl h1
    · exact Or.inr (Or.inl h1)
    · exact Or.inr (Or.inr ⟨Or.inr ⟨hj, h0⟩, h1⟩)
  · exact Or.inl hg
  · exact Or.inl hg
  · exact Or.inl hg
  · exact Or.inl hg

/-- C8, as stated, fails: after `dvmJitStopTranslationRequests()` a thread that
is selecting a trace still enqueues it; here the selection at pc 4 meets a
return. -/
theorem C8_counterexample :
    ¬ (∀ (c : Consts) (gDvm : DvmGlobals) (g g1 : DvmJitGlobals) (pc : Nat) (self : Thread)
        (st st1 : InterpState) (insn : InsnInfo) (mallocOk sw : Bool),
        dvmCheckJit c gDvm (dvmJitStopTranslationRequests g) pc self st insn mallocOk =
          .ok (sw, g1, st1) →
        g1.workOrders = (dvmJitStopTranslationRequests g).workOrders) := by
  intro h
  have h1 := h exConsts exDvm exGlobals1
    (dvmJitStopTranslationRequests { exGlobals1 with workOrders := [exOrder] }) 5 exThread
    exSelecting exFinished (exReturnCall 5).insn true true (by decide)
  exact absurd h1 (by decide)

/-- C8, amended (kill switch): `dvmJitStopTranslationRequests()` nulls both
profile table pointers, and calling it again changes nothing. A later
`dvmCheckJit` call leaves both pointers null and does exactly what it does
without the kill switch: it enqueues nothing unless the thread is in
`kJitTSelect`, or in `kJitTSelectEnd` with `totalTraceLen` not 0, and in those
states a selection in progress is still enqueued. -/
theorem C8_stop_translation_requests (c : Consts) (gDvm : DvmGlobals)
    (g g1 : DvmJitGlobals) (pc : Nat) (self : Thread) (st st1 : InterpState)
    (insn : InsnInfo) (mallocOk sw : Bool)
    (hcall : dvmCheckJit c gDvm (dvmJitStopTranslationRequests g) pc self st insn mallocOk =
      .ok (sw, g1, st1)) :
    (dvmJitStopTranslationRequests g).pProfTable = false ∧
    (dvmJitStopTranslationRequests g).pProfTableCopy = false ∧
    dvmJitStopTranslationRequests (dvmJitStopTranslationRequests g) =
      dvmJitStopTranslationRequests g ∧
    g1.pProfTable = false ∧ g1.pProfTableCopy = false ∧
    (∃ g0, dvmCheckJit c gDvm g pc self st insn mallocOk = .ok (sw, g0, st1) ∧
      g1 = dvmJitStopTranslationRequests g0) ∧
    (¬ (st.jitState = .kJitTSelect ∨
        (st.jitState = .kJitTSelectEnd ∧ st.totalTraceLen ≠ 0)) →
      g1.workOrders = g.workOrders) := by
  refine ⟨rfl, rfl, rfl, ?_, ?_, ?_, ?_⟩
  · rcases dvmCheckJit_globals hcall with h1 | h1 | ⟨_, _, _, _, h1⟩ <;> rw [h1] <;> rfl
  · rcases dvmCheckJit_globals hcall with h1 | h1 | ⟨_, _, _, _, h1⟩ <;> rw [h1] <;> rfl
  · rw [dvmCheckJit_stop] at hcall
    cases h0 : dvmCheckJit c gDvm g pc self st insn mallocOk with
    | error e => simp [h0, Except.map] at hcall
    | ok r =>
      obtain ⟨sw0, g0, st0⟩ := r
      simp only [h0, Except.map, Except.ok.injEq, Prod.mk.injEq] at hcall
      obtain ⟨hsw, hg, hst⟩ := hcall
      subst hsw hg hst
      exact ⟨g0, rfl, rfl⟩
  · intro hidle
    rcases dvmCheckJit_globals hcall with h1 | h1 | ⟨hsel, _⟩
    · rw [h1]; rfl
    · rw [h1]; rfl
    · exact absurd hsel hidle

/-- Example for C8: after the kill switch, a thread in `kJitNormal` enqueues
nothing and the pointers stay null. -/
theorem C8_stop_translation_requests_witness :
    (dvmJitStopTranslationRequests exGlobals1).pProfTable = false ∧
    (dvmJitStopTranslationRequests exGlobals1).pProfTableCopy = false ∧
    dvmJitStopTranslationRequests (dvmJitStopTranslationRequests exGlobals1) =
      dvmJitStopTranslationRequests exGlobals1 ∧
    (dvmJitStopTranslationRequests exGlobals1).pProfTable = false ∧
    (dvmJitStopTranslationRequests exGlobals1).pProfTableCopy = false ∧
    (∃ g0, dvmCheckJit exConsts exDvm exGlobals1 5 exThread exFinished (exPlainCall 5).insn
        true = .ok (false, g0, exFinished) ∧
      dvmJitStopTranslationRequests exGlobals1 = dvmJitStopTranslationRequests g0) ∧
    (¬ (exFinished.jitState = .kJitTSelect ∨
        (exFinished.jitState = .kJitTSelectEnd ∧ exFinished.totalTraceLen ≠ 0)) →
      (dvmJitStopTranslationRequests exGlobals1).workOrders = exGlobals1.workOrders) :=
  C8_stop_translation_requests exConsts exDvm exGlobals1
    (dvmJitStopTranslationRequests exGlobals1) 5 exThread exFinished exFinished
    (exPlainCall 5).insn true false (by decide)

/-! ## The result of the request gate -/

/-- The final `switch` of the request gate, case by case. -/
theorem promoteRequest_cases {c : Consts} {r res : Bool} {st st1 : InterpState}
    (h : promoteRequest c r st = .ok (res, st1)) :
    (st.jitState = .kJitTSelectRequest ∧ res = r ∧ st1.jitState = .kJitTSelect) ∨
    (st.jitState = .kJitTSelect ∧ res = true ∧ st1 = st) ∨
    (st.jitState = .kJitTSelectAbort ∧ res = true ∧ st1 = st) ∨
    (st.jitState ≠ .kJitTSelectRequest ∧ st.jitState ≠ .kJitTSelect ∧
      st.jitState ≠ .kJitTSelectAbort ∧ res = r ∧ st1 = st) := by
  unfold promoteRequest at h
  cases hjs : st.jitState <;> simp only [hjs] at h
  · simp only [Except.ok.injEq, Prod.mk.injEq] at h
    exact Or.inr (Or.inr (Or.inr ⟨by simp, by simp, by simp, h.1.symm, h.2.symm⟩))
  · simp only [Except.ok.injEq, Prod.mk.injEq] at h
    exact Or.inr (Or.inr (Or.inr ⟨by simp, by simp, by simp, h.1.symm, h.2.symm⟩))
  · cases htr : st.trace with
    | nil => simp [htr] at h
    | cons old rest =>
      simp only [htr, Except.ok.injEq, Prod.mk.injEq] at h
      exact Or.inl ⟨rfl, h.1.symm, by rw [← h.2]⟩
  · simp only [Except.ok.injEq, Prod.mk.injEq] at h
    exact Or.inr (Or.inl ⟨rfl, h.1.symm, h.2.symm⟩)
  · simp only [Except.ok.injEq, Prod.mk.injEq] at h
    exact Or.inr (Or.inr (Or.inl ⟨rfl, h.1.symm, h.2.symm⟩))
  · simp at h
  · simp only [Except.ok.injEq, Prod.mk.injEq] at h
    exact Or.inr (Or.inr (Or.inr ⟨by simp, by simp, by simp, h.1.symm, h.2.symm⟩))
  · simp only [Except.ok.injEq, Prod.mk.injEq] at h
    exact Or.inr (Or.inr (Or.inr ⟨by simp, by simp, by simp, h.1.symm, h.2.symm⟩))

/-- The state that the slot acquisition returns is the state on entry, or that
state aborted. -/
theorem acquireSlot_state {c : Consts} {g g1 : DvmJitGlobals} {tbl : List JitEntry}
    {st st1 : InterpState} (h : acquireSlot c g tbl st = .ok (g1, st1)) :
    st1 = st ∨ st1 = { st with jitState := .kJitTSelectAbort } := by
  rcases acquireSlot_cases h with ⟨_, _, h2⟩ | ⟨_, hrest⟩
  · exact Or.inr h2
  · rcases hrest with ⟨_, _, _, _, _, _, _, h2⟩ |
      ⟨_, _, _, _, _, _, _, _, _, _, _, _, h2⟩ | ⟨_, h2⟩
    · exact Or.inl h2
    · exact Or.inl h2
    · exact Or.inr h2

/-- C9, as stated, fails: a pending request for pc 4 on the startup table is
promoted to `kJitTSelect`, and the call returns false. -/
theorem C9_counterexample :
    ¬ (∀ (c : Consts) (gDvm : DvmGlobals) (g g1 : DvmJitGlobals) (self : Thread)
        (st st1 : InterpState) (now resetNow : Nat) (res : Bool),
        g.pJitEntryTable ≠ none →
        dvmJitCheckTraceRequest c gDvm g self st now resetNow = .ok (res, g1, st1) →
        (res = true ↔
          (st1.jitState = .kJitTSelect ∨ st1.jitState = .kJitTSelectAbort))) := by
  intro h
  have h1 := h exConsts exDvm exGlobals exGlobals1 exThread (exRequest 4) (exPromoted 4) 0 0
    false (by decide) (by decide)
  exact absurd (h1.mpr (Or.inl rfl)) (by decide)

/-- C9, amended (result of the request gate): a call of
`dvmJitCheckTraceRequest` with a non-null JIT table that returns gives true if
and only if the profile was found stale (the gate not firing), or the state on
return is `kJitTSelectAbort`, or the state was `kJitTSelect` on entry and
still is on return. A pending request that is promoted to `kJitTSelect` with a
fresh profile returns false. -/
theorem C9_request_gate_result (c : Consts) (gDvm : DvmGlobals) (g g1 : DvmJitGlobals)
    (self : Thread) (st st1 : InterpState) (now resetNow : Nat) (res : Bool)
    (tbl : List JitEntry) (hg : g.pJitEntryTable = some tbl)
    (hcall : dvmJitCheckTraceRequest c gDvm g self st now resetNow = .ok (res, g1, st1)) :
    (res = true ↔
      ((abortGate gDvm g self = false ∧
          u8sub now g.lastProfileResetTimeUsec > PROFILE_STALENESS_THRESHOLD) ∨
        st1.jitState = .kJitTSelectAbort ∨
        (st.jitState = .kJitTSelect ∧ st1.jitState = .kJitTSelect))) ∧
    (st.jitState = .kJitTSelectRequest → st1.jitState = .kJitTSelect →
      ¬ u8sub now g.lastProfileResetTimeUsec > PROFILE_STALENESS_THRESHOLD →
      res = false) := by
  rcases checkTraceRequest_cases hg hcall with ⟨hgate, _, hp⟩ | ⟨hgate, hstale, _, hp⟩ |
    ⟨hgate, hstale, hreq, st2, ha, hp⟩ | ⟨hgate, hstale, hreq, _, hp⟩
  · have hst : ∃ s : InterpState, promoteRequest c false s = .ok (res, st1) ∧
        (s.jitState = .kJitNormal ∨ s.jitState = .kJitOff) := by
      by_cases hoff : st.jitState ≠ .kJitOff
      · rw [if_pos hoff] at hp
        exact ⟨_, hp, Or.inl rfl⟩
      · rw [if_neg hoff] at hp
        exact ⟨_, hp, Or.inr (by simpa using hoff)⟩
    obtain ⟨s, hps, hs⟩ := hst
    have hres : res = false ∧ st1 = s := by
      rcases promoteRequest_cases hps with ⟨hj, _⟩ | ⟨hj, _⟩ | ⟨hj, _⟩ | ⟨_, _, _, hr, hs1⟩
      · rcases hs with h1 | h1 <;> rw [h1] at hj <;> simp at hj
      · rcases hs with h1 | h1 <;> rw [h1] at hj <;> simp at hj
      · rcases hs with h1 | h1 <;> rw [h1] at hj <;> simp at hj
      · exact ⟨hr, hs1⟩
    obtain ⟨hr, hs1⟩ := hres
    subst hs1
    refine ⟨⟨fun ht => ?_, fun hrhs => ?_⟩, fun _ _ _ => hr⟩
    · rw [hr] at ht; simp at ht
    · rcases hrhs with ⟨hgf, _⟩ | hab | ⟨_, hsel⟩
      · rw [hgate] at hgf; simp at hgf
      · rcases hs with h1 | h1 <;> rw [h1] at hab <;> simp at hab
      · rcases hs with h1 | h1 <;> rw [h1] at hsel <;> simp at hsel
  · have hres : res = true := by
      rcases promoteRequest_cases hp with ⟨_, hr, _⟩ | ⟨_, hr, _⟩ | ⟨_, hr, _⟩ |
        ⟨_, _, _, hr, _⟩ <;> exact hr
    exact ⟨⟨fun _ => Or.inl ⟨hgate, hstale⟩, fun _ => hres⟩,
      fun _ _ hfresh => absurd hstale hfresh⟩
  · rcases acquireSlot_state ha with h2 | h2
    · subst h2
      rcases promoteRequest_cases hp with ⟨_, hr, hs1⟩ | ⟨hj, _⟩ | ⟨hj, _⟩ | ⟨hj, _⟩
      · refine ⟨⟨fun ht => ?_, fun hrhs => ?_⟩, fun _ _ _ => hr⟩
        · rw [hr] at ht; simp at ht
        · rcases hrhs with ⟨_, hs⟩ | hab | ⟨hsel, _⟩
          · exact absurd hs hstale
          · rw [hs1] at hab; simp at hab
          · rw [hreq] at hsel; simp at hsel
      · rw [hreq] at hj; simp at hj
      · rw [hreq] at hj; simp at hj
      · exact absurd hreq hj
    · subst h2
      rcases promoteRequest_cases hp with ⟨hj, _⟩ | ⟨hj, _⟩ | ⟨_, hr, hs1⟩ | ⟨_, _, hj, _⟩
      · simp at hj
      · simp at hj
      · subst hs1
        exact ⟨⟨fun _ => Or.inr (Or.inl rfl), fun _ => hr⟩,
          fun _ hsel _ => absurd hsel (by simp)⟩
      · simp at hj
  · rcases promoteRequest_cases hp with ⟨hj, _⟩ | ⟨hj, hr, hs1⟩ | ⟨hj, hr, hs1⟩ |
      ⟨_, hn1, hn2, hr, hs1⟩
    · exact absurd hj hreq
    · subst hs1
      exact ⟨⟨fun _ => Or.inr (Or.inr ⟨hj, hj⟩), fun _ => hr⟩, fun h1 => absurd h1 hreq⟩
    · subst hs1
      exact ⟨⟨fun _ => Or.inr (Or.inl hj), fun _ => hr⟩, fun h1 => absurd h1 hreq⟩
    · subst hs1
      refine ⟨⟨fun ht => ?_, fun hrhs => ?_⟩, fun h1 => absurd h1 hreq⟩
      · rw [hr] at ht; simp at ht
      · rcases hrhs with ⟨_, hs⟩ | hab | ⟨hsel, _⟩
        · exact absurd hs hstale
        · exact absurd hab hn2
        · exact absurd hsel hn1

/-- Example for C9: the promoted request for pc 4 returns false. -/
theorem C9_request_gate_result_witness :
    (false = true ↔
      ((abortGate exDvm exGlobals exThread = false ∧
          u8sub 0 exGlobals.lastProfileResetTimeUsec > PROFILE_STALENESS_THRESHOLD) ∨
        (exPromoted 4).jitState = .kJitTSelectAbort ∨
        ((exRequest 4).jitState = .kJitTSelect ∧ (exPromoted 4).jitState = .kJitTSelect))) ∧
    ((exRequest 4).jitState = .kJitTSelectRequest → (exPromoted 4).jitState = .kJitTSelect →
      ¬ u8sub 0 exGlobals.lastProfileResetTimeUsec > PROFILE_STALENESS_THRESHOLD →
      false = false) :=
  C9_request_gate_result exConsts exDvm exGlobals exGlobals1 exThread (exRequest 4)
    (exPromoted 4) 0 0 false (startupTable 4) (by decide) (by decide)

/-! ## Stale profiles -/

theorem fillProfTable_length (v : Nat) : ∀ (n : Nat) (tbl : List Nat),
    (fillProfTable v n tbl).length = tbl.length := by
  intro n
  induction n with
  | zero => intro tbl; rfl
  | succ n ih =>
    intro tbl
    unfold fillProfTable at ih ⊢
    rw [List.range_succ, List.foldl_append]
    simp only [List.foldl_cons, List.foldl_nil, List.length_set]
    exact ih tbl

/-- The store loop writes the threshold byte into the first `n` elements. -/
theorem fillProfTable_get (v : Nat) : ∀ (n : Nat) (tbl : List Nat) (i : Nat),
    (fillProfTable v n tbl)[i]? =
      if i < n then tbl[i]?.map (fun _ => v % 256) else tbl[i]? := by
  intro n
  induction n with
  | zero => intro tbl i; simp [fillProfTable]
  | succ n ih =>
    intro tbl i
    have hlen := fillProfTable_length v n tbl
    unfold fillProfTable at ih hlen ⊢
    rw [List.range_succ, List.foldl_append]
    simp only [List.foldl_cons, List.foldl_nil]
    rw [List.getElem?_set, hlen]
    by_cases hni : n = i
    · subst hni
      simp only [if_true, Nat.lt_succ_self]
      by_cases hl : n < tbl.length
      · simp [hl, List.getElem?_eq_getElem hl]
      · simp [hl, List.getElem?_eq_none (not_lt.mp hl)]
    · rw [if_neg hni, ih tbl i]
      have hiff : i < n + 1 ↔ i < n := by omega
      simp only [hiff]

/-- After `resetProfileCounts` with a non-null `pProfTable` that points to
`JIT_PROF_SIZE` bytes, every byte is the threshold. -/
theorem resetProfileCounts_bytes (c : Consts) (g : DvmJitGlobals) (now : Nat)
    (hp : g.pProfTable = true) (hlen : g.profTable.length = c.JIT_PROF_SIZE) :
    ∀ b ∈ (resetProfileCounts c g now).profTable, b = g.threshold % 256 := by
  intro b hb
  unfold resetProfileCounts at hb
  simp only [hp, if_true] at hb
  obtain ⟨i, hi, hget⟩ := List.getElem_of_mem hb
  have hget2 : (fillProfTable g.threshold c.JIT_PROF_SIZE g.profTable)[i]? = some b := by
    rw [List.getElem?_eq_getElem hi, hget]
  rw [fillProfTable_get] at hget2
  rw [fillProfTable_length, hlen] at hi
  rw [if_pos hi] at hget2
  cases hg : g.profTable[i]? with
  | none => simp [hg] at hget2
  | some x =>
    simp only [hg, Option.map_some', Option.some.injEq] at hget2
    exact hget2.symm

theorem resetProfileCounts_time (c : Consts) (g : DvmJitGlobals) (now : Nat) :
    (resetProfileCounts c g now).lastProfileResetTimeUsec = now := by
  unfold resetProfileCounts
  simp only
  split <;> rfl

/-- The final `switch` of the request gate returns unless the state is
`kJitTSelectEnd`, given a trace array with at least one element. -/
theorem promoteRequest_ok (c : Consts) (r : Bool) (st : InterpState)
    (hend : st.jitState ≠ .kJitTSelectEnd) (htr : st.trace ≠ []) :
    ∃ res st1, promoteRequest c r st = .ok (res, st1) := by
  unfold promoteRequest
  cases hjs : st.jitState <;> simp only
  · exact ⟨_, _, rfl⟩
  · exact ⟨_, _, rfl⟩
  · cases hl : st.trace with
    | nil => exact absurd hl htr
    | cons old rest => exact ⟨_, _, rfl⟩
  · exact ⟨_, _, rfl⟩
  · exact ⟨_, _, rfl⟩
  · exact absurd hjs hend
  · exact ⟨_, _, rfl⟩
  · exact ⟨_, _, rfl⟩

/-- C10, as stated, fails: with a stale profile and the thread in
`kJitTSelectEnd`, the call resets the profile and then reaches `dvmAbort()` in
the final `switch`; it does not return true. -/
theorem C10_counterexample :
    ¬ (∀ (c : Consts) (gDvm : DvmGlobals) (g : DvmJitGlobals) (self : Thread)
        (st : InterpState) (now resetNow : Nat),
        g.pJitEntryTable ≠ none → abortGate gDvm g self = false →
        u8sub now g.lastProfileResetTimeUsec > PROFILE_STALENESS_THRESHOLD →
        ∃ g1 st1, dvmJitCheckTraceRequest c gDvm g self st now resetNow =
          .ok (true, g1, st1)) := by
  intro h
  obtain ⟨g1, st1, h1⟩ := h exConsts exDvm exGlobals exThread
    { exRequest 4 with jitState := .kJitTSelectEnd } 300000 300001 (by decide) (by decide)
    (by decide)
  have h2 : dvmJitCheckTraceRequest exConsts exDvm exGlobals exThread
      { exRequest 4 with jitState := .kJitTSelectEnd } 300000 300001 = .error .abort := by
    decide
  rw [h2] at h1
  exact absurd h1 (by simp)

/-- C10, amended (staleness): take a call of `dvmJitCheckTraceRequest` with a
non-null JIT table in which the abort gate does not fire. The profile is reset
exactly when the `u8` difference `now − lastProfileResetTimeUsec` is above
250000 (exactly 250000 is not stale). When it is, a call that returns has
result true, the time stamp is the time read by the reset, the JIT table is
unchanged, and every byte of a non-null profile table of `JIT_PROF_SIZE` bytes
is the threshold (as a byte); the call returns whenever the state is not
`kJitTSelectEnd`, and ends in `dvmAbort()` when it is. When the profile is not
stale, the profile bytes and the time stamp are unchanged. -/
theorem C10_stale_profile (c : Consts) (gDvm : DvmGlobals) (g : DvmJitGlobals)
    (self : Thread) (st : InterpState) (now resetNow : Nat) (tbl : List JitEntry)
    (hg : g.pJitEntryTable = some tbl) (hgate : abortGate gDvm g self = false) :
    (u8sub now g.lastProfileResetTimeUsec > PROFILE_STALENESS_THRESHOLD →
      (∀ res g1 st1,
        dvmJitCheckTraceRequest c gDvm g self st now resetNow = .ok (res, g1, st1) →
        res = true ∧ g1 = resetProfileCounts c g resetNow ∧
        g1.lastProfileResetTimeUsec = resetNow ∧ g1.pJitEntryTable = some tbl ∧
        (g.pProfTable = true → g.profTable.length = c.JIT_PROF_SIZE →
          ∀ b ∈ g1.profTable, b = g.threshold % 256 ∧ (g.threshold < 256 → b = g.threshold))) ∧
      (st.jitState ≠ .kJitTSelectEnd → st.trace ≠ [] →
        ∃ st1, dvmJitCheckTraceRequest c gDvm g self st now resetNow =
          .ok (true, resetProfileCounts c g resetNow, st1)) ∧
      (st.jitState = .kJitTSelectEnd →
        dvmJitCheckTraceRequest c gDvm g self st now resetNow = .error .abort)) ∧
    (¬ u8sub now g.lastProfileResetTimeUsec > PROFILE_STALENESS_THRESHOLD →
      ∀ res g1 st1,
        dvmJitCheckTraceRequest c gDvm g self st now resetNow = .ok (res, g1, st1) →
        g1.profTable = g.profTable ∧
        g1.lastProfileResetTimeUsec = g.lastProfileResetTimeUsec) ∧
    (g.lastProfileResetTimeUsec ≤ now → now < 2 ^ 64 →
      u8sub now g.lastProfileResetTimeUsec = now - g.lastProfileResetTimeUsec) ∧
    PROFILE_STALENESS_THRESHOLD = 250000 := by
  refine ⟨fun hstale => ⟨?_, ?_, ?_⟩, ?_, ?_, rfl⟩
  · intro res g1 st1 hcall
    rcases checkTraceRequest_cases hg hcall with ⟨hgt, _⟩ | ⟨_, _, hg1, hp⟩ |
      ⟨_, hfresh, _⟩ | ⟨_, hfresh, _⟩
    · rw [hgate] at hgt; simp at hgt
    · have hres : res = true := by
        rcases promoteRequest_cases hp with ⟨_, hr, _⟩ | ⟨_, hr, _⟩ | ⟨_, hr, _⟩ |
          ⟨_, _, _, hr, _⟩ <;> exact hr
      subst hg1
      refine ⟨hres, rfl, resetProfileCounts_time c g resetNow,
        by rw [resetProfileCounts_table]; exact hg, ?_⟩
      intro hp1 hlen b hb
      have hbyte := resetProfileCounts_bytes c g resetNow hp1 hlen b hb
      exact ⟨hbyte, fun hlt => by rw [hbyte, Nat.mod_eq_of_lt hlt]⟩
    · exact absurd hstale hfresh
    · exact absurd hstale hfresh
  · intro hend htr
    obtain ⟨res, st1, hp⟩ := promoteRequest_ok c true st hend htr
    have hres : res = true := by
      rcases promoteRequest_cases hp with ⟨_, hr, _⟩ | ⟨_, hr, _⟩ | ⟨_, hr, _⟩ |
        ⟨_, _, _, hr, _⟩ <;> exact hr
    subst hres
    refine ⟨st1, ?_⟩
    unfold dvmJitCheckTraceRequest
    simp only [hg, hgate, Bool.false_eq_true, if_false, hstale, if_true, hp]
  · intro hend
    unfold dvmJitCheckTraceRequest
    simp only [hg, hgate, Bool.false_eq_true, if_false, hstale, if_true, promoteRequest, hend]
  · intro hfresh res g1 st1 hcall
    rcases checkTraceRequest_cases hg hcall with ⟨hgt, _⟩ | ⟨_, hstale, _⟩ |
      ⟨_, _, _, st2, ha, _⟩ | ⟨_, _, _, hg1, _⟩
    · rw [hgate] at hgt; simp at hgt
    · exact absurd hstale hfresh
    · rcases acquireSlot_cases ha with ⟨_, hg1, _⟩ | ⟨_, hrest⟩
      · rw [hg1]; exact ⟨rfl, rfl⟩
      · rcases hrest with ⟨_, _, _, _, _, _, hg1, _⟩ |
          ⟨_, _, _, _, _, _, _, _, _, _, _, hg1, _⟩ | ⟨hg1, _⟩ <;>
          (rw [hg1]; exact ⟨rfl, rfl⟩)
    · rw [hg1]; exact ⟨rfl, rfl⟩
  · intro hle hlt
    unfold u8sub
    have hl : g.lastProfileResetTimeUsec < 2 ^ 64 := lt_of_le_of_lt hle hlt
    rw [Nat.mod_eq_of_lt hlt, Nat.mod_eq_of_lt hl]
    have h1 : now + 2 ^ 64 - g.lastProfileResetTimeUsec =
        (now - g.lastProfileResetTimeUsec) + 2 ^ 64 := by omega
    rw [h1, Nat.add_mod_right]
    exact Nat.mod_eq_of_lt (by omega)

/-- Example for C10: 300 ms after the last reset, a pending request for pc 4
resets the profile and returns true. -/
theorem C10_stale_profile_witness :
    ∃ st1, dvmJitCheckTraceRequest exConsts exDvm exGlobals exThread (exRequest 4) 300000
      300001 = .ok (true, resetProfileCounts exConsts exGlobals 300001, st1) :=
  ((C10_stale_profile exConsts exDvm exGlobals exThread (exRequest 4) 300000 300001
    (startupTable 4) (by decide) (by decide)).1 (by decide)).2.1 (by decide) (by decide)

/-! ## Promotion of a pending request -/

/-- With a fresh profile and the gate not firing, a pending request is only
promoted to trace selection when its pc has a slot in the table on return. -/
theorem checkTraceRequest_promoted_slot {c : Consts} {gDvm : DvmGlobals}
    {g g1 : DvmJitGlobals} {self : Thread} {st st1 : InterpState} {now resetNow : Nat}
    {res : Bool} {tbl : List JitEntry} (hg : g.pJitEntryTable = some tbl)
    (hreq : st.jitState = .kJitTSelectRequest)
    (hfresh : ¬ u8sub now g.lastProfileResetTimeUsec > PROFILE_STALENESS_THRESHOLD)
    (h : dvmJitCheckTraceRequest c gDvm g self st now resetNow = .ok (res, g1, st1))
    (hsel : st1.jitState = .kJitTSelect) :
    ∃ tbl1 j, g1.pJitEntryTable = some tbl1 ∧ dpcAt tbl1 j = some st.pc := by
  rcases checkTraceRequest_cases hg h with ⟨_, _, hp⟩ | ⟨_, hstale, _⟩ |
    ⟨_, _, _, st2, ha, hp⟩ | ⟨_, _, hne, _⟩
  · have hoff : st.jitState ≠ .kJitOff := by rw [hreq]; simp
    rw [if_pos hoff] at hp
    rcases promoteRequest_select hp hsel with ⟨hj, _⟩ | ⟨hj, _⟩ <;> simp at hj
  · exact absurd hstale hfresh
  · rcases acquireSlot_cases ha with ⟨_, _, h2⟩ | ⟨_, hrest⟩
    · subst h2
      rcases promoteRequest_select hp hsel with ⟨hj, _⟩ | ⟨hj, _⟩ <;> simp at hj
    · rcases hrest with ⟨idx, e, he, _, _, _, hg1, _⟩ |
        ⟨prev, idx1, ePrev, e1, hp1, _, _, _, he1, _, hne, hg1, _⟩ | ⟨_, h2⟩
      · subst hg1
        exact ⟨_, idx, rfl, dpcAt_set_self _ (lt_length_of_get he)⟩
      · subst hg1
        refine ⟨_, idx1, rfl, dpcAt_set_self _ ?_⟩
        rw [List.length_set]
        exact lt_length_of_get he1
      · subst h2
        rcases promoteRequest_select hp hsel with ⟨hj, _⟩ | ⟨hj, _⟩ <;> simp at hj
  · exact absurd hreq hne

/-- C11 at its failing input: on the startup table, with the last profile
reset 300 ms in the past, a pending request for pc 4 takes the stale branch:
the profile is reset and the call returns true, but the request is not
discarded; the final `switch` promotes it to `kJitTSelect` with the
accumulators initialised, although no slot of the table holds pc 4. -/
theorem C11_stale_request_promoted :
    dvmJitCheckTraceRequest exConsts exDvm exGlobals exThread (exRequest 4) 300000 300001 =
      .ok (true, resetProfileCounts exConsts exGlobals 300001, exPromoted 4) ∧
    (exRequest 4).jitState = .kJitTSelectRequest ∧
    (exPromoted 4).jitState = .kJitTSelect ∧
    (resetProfileCounts exConsts exGlobals 300001).pJitEntryTable = some (startupTable 4) ∧
    ∀ e ∈ startupTable 4, e.dPC ≠ 4 := by
  decide

/-! ## Debugger or suspension during selection -/

theorem startNewRun_ok (c : Consts) (pc : Nat) (st : InterpState)
    (h : st.currTraceRun + 1 < st.trace.length) :
    ∃ sa, startNewRun c pc st = .ok sa ∧ sa.currTraceRun < sa.trace.length := by
  unfold startNewRun
  by_cases hpc : pc ≠ st.currRunHead + st.currRunLen
  · rw [if_pos hpc]
    simp only
    rw [if_pos h]
    exact ⟨_, rfl, by simp only [List.length_set]; exact h⟩
  · rw [if_neg hpc]
    exact ⟨st, rfl, by omega⟩

theorem addInsn_ok (c : Consts) (st : InterpState) (insn : InsnInfo)
    (h : st.currTraceRun < st.trace.length) : ∃ sb, addInsn c st insn = .ok sb := by
  unfold addInsn
  rw [List.getElem?_eq_getElem h]
  exact ⟨_, rfl⟩

/-- C13, as stated, fails: with a debugger attached, the next `dvmCheckJit`
call of a selecting thread aborts the selection but returns false, not
true. -/
theorem C13_counterexample :
    ¬ (∀ (c : Consts) (gDvm : DvmGlobals) (g g1 : DvmJitGlobals) (pc : Nat) (self : Thread)
        (st st1 : InterpState) (insn : InsnInfo) (mallocOk sw : Bool),
        st.jitState = .kJitTSelect → ¬ insn.flags &&& c.kInstrNoJit = c.kInstrNoJit →
        debugOrProfile gDvm self = true →
        dvmCheckJit c gDvm g pc self st insn mallocOk = .ok (sw, g1, st1) →
        st1.jitState = .kJitTSelectAbort ∧ g1.workOrders = g.workOrders ∧ sw = true) := by
  intro h
  have h1 := h exConsts exDvmDebugger exGlobals1 exGlobals1 4 exThread (exPromoted 4)
    { exSelecting with jitState := .kJitTSelectAbort } (exPlainCall 4).insn true false
    (by decide) (by decide) (by decide) (by decide)
  exact absurd h1.2.2 (by decide)

/-- C13, amended (debugger or suspension during selection): a `dvmCheckJit`
call in `kJitTSelect` for an opcode without the no-JIT flag, made while a
debugger or profiler is active or the thread is being suspended, sets the
state to `kJitTSelectAbort`, leaves the globals as they are (nothing is
enqueued) and returns false: the value is `!debugOrProfile`, so no switch of
interpreter is requested. The call returns whenever the next run index is
inside the trace array. -/
theorem C13_debugger_aborts_selection (c : Consts) (gDvm : DvmGlobals) (g : DvmJitGlobals)
    (pc : Nat) (self : Thread) (st : InterpState) (insn : InsnInfo) (mallocOk : Bool)
    (hsel : st.jitState = .kJitTSelect)
    (hnj : ¬ insn.flags &&& c.kInstrNoJit = c.kInstrNoJit)
    (hdop : debugOrProfile gDvm self = true) :
    (∀ sw g1 st1, dvmCheckJit c gDvm g pc self st insn mallocOk = .ok (sw, g1, st1) →
      st1.jitState = .kJitTSelectAbort ∧ g1 = g ∧ sw = false) ∧
    (st.currTraceRun + 1 < st.trace.length →
      ∃ st1, dvmCheckJit c gDvm g pc self st insn mallocOk = .ok (false, g, st1) ∧
        st1.jitState = .kJitTSelectAbort) ∧
    (debugOrProfile gDvm self = true ↔
      (gDvm.debuggerActive = true ∨ self.suspendCount ≠ 0 ∨ gDvm.activeProfilers ≠ 0)) := by
  refine ⟨?_, ?_, ?_⟩
  · intro sw g1 st1 hcall
    rcases dvmCheckJit_cases hcall with ⟨_, h1, _⟩ | ⟨_, _, sa, sb, _, _, hc⟩ |
      ⟨hj, _⟩ | ⟨hj, _⟩ | ⟨hj, _⟩ | ⟨hj, _⟩ | ⟨hj, _⟩
    · exact absurd h1 hnj
    · rcases hc with ⟨_, hg, hst, hsw⟩ | ⟨hd, _⟩ | ⟨hd, _⟩
      · exact ⟨by rw [hst], hg, hsw⟩
      · rw [hdop] at hd; simp at hd
      · rw [hdop] at hd; simp at hd
    · rw [hsel] at hj; simp at hj
    · rw [hsel] at hj; simp at hj
    · rw [hsel] at hj; simp at hj
    · rw [hsel] at hj; simp at hj
    · rw [hsel] at hj; simp at hj
  · intro hlen
    obtain ⟨sa, hsa, hlt⟩ := startNewRun_ok c pc st hlen
    obtain ⟨sb, hsb⟩ := addInsn_ok c sa insn hlt
    refine ⟨{ sb with jitState := .kJitTSelectAbort }, ?_, rfl⟩
    unfold dvmCheckJit
    simp only [hsel, if_neg hnj, hsa, hsb, hdop, if_true, Bool.not_true]
  · unfold debugOrProfile
    simp only [Bool.or_eq_true, decide_eq_true_eq]
    tauto

/-- Example for C13: the selection at pc 4 with a debugger attached. -/
theorem C13_debugger_aborts_selection_witness :
    ∃ st1, dvmCheckJit exConsts exDvmDebugger exGlobals1 4 exThread (exPromoted 4)
        (exPlainCall 4).insn true = .ok (false, exGlobals1, st1) ∧
      st1.jitState = .kJitTSelectAbort :=
  (C13_debugger_aborts_selection exConsts exDvmDebugger exGlobals1 4 exThread (exPromoted 4)
    (exPlainCall 4).insn true (by decide) (by decide) (by decide)).2.1 (by decide)

/-! ## The abort gate -/

/-- C14, as stated, fails: with the queue length equal to the high-water mark
(10 = 10) and nothing else triggering, the gate fires; the pending request for
pc 4 is cancelled instead of reaching the slot acquisition. -/
theorem C14_counterexample :
    ¬ (∀ (c : Consts) (gDvm : DvmGlobals) (g g1 : DvmJitGlobals) (self : Thread)
        (st st1 : InterpState) (now resetNow : Nat) (res : Bool) (tbl : List JitEntry),
        g.pJitEntryTable = some tbl → st.jitState = .kJitTSelectRequest →
        g.compilerQueueLength = g.compilerHighWater → debugOrProfile gDvm self = false →
        ¬ u8sub now g.lastProfileResetTimeUsec > PROFILE_STALENESS_THRESHOLD →
        dvmJitCheckTraceRequest c gDvm g self st now resetNow = .ok (res, g1, st1) →
        ∃ st2, acquireSlot c g tbl st = .ok (g1, st2) ∧
          promoteRequest c false st2 = .ok (res, st1)) := by
  intro h
  obtain ⟨st2, h1, h2⟩ := h exConsts exDvm { exGlobals with compilerQueueLength := 10 }
    { exGlobals with compilerQueueLength := 10 } exThread (exRequest 4)
    { exRequest 4 with jitState := .kJitNormal } 0 0 false (startupTable 4) (by decide)
    (by decide) (by decide) (by decide) (by decide) (by decide)
  have h3 : acquireSlot exConsts { exGlobals with compilerQueueLength := 10 } (startupTable 4)
      (exRequest 4) =
      .ok ({ exGlobals with compilerQueueLength := 10, pJitEntryTable := some exTable1 },
        exRequest 4) := by decide
  rw [h3] at h1
  simp only [Except.ok.injEq, Prod.mk.injEq] at h1
  exact absurd h1.1 (by decide)

/-- C14, amended (abort gate): in a call of `dvmJitCheckTraceRequest` with a
non-null JIT table the gate fires exactly when `compilerQueueLength` is at
least `compilerHighWater` (equality included), or a debugger or profiler is
active, or `self.suspendCount` is non-zero. When it fires, the call returns
false, the state becomes `kJitNormal` unless it is `kJitOff`, and the globals
(JIT table, profile table, time stamp) are unchanged. When the queue length is
below the high-water mark and nothing else triggers, a pending request with a
fresh profile proceeds to the slot acquisition. -/
theorem C14_abort_gate (c : Consts) (gDvm : DvmGlobals) (g : DvmJitGlobals) (self : Thread)
    (st : InterpState) (now resetNow : Nat) (tbl : List JitEntry)
    (hg : g.pJitEntryTable = some tbl) :
    (abortGate gDvm g self = true ↔
      (g.compilerQueueLength ≥ g.compilerHighWater ∨ gDvm.debuggerActive = true ∨
        self.suspendCount ≠ 0 ∨ gDvm.activeProfilers ≠ 0)) ∧
    (abortGate gDvm g self = true →
      dvmJitCheckTraceRequest c gDvm g self st now resetNow =
        .ok (false, g,
          if st.jitState ≠ .kJitOff then { st with jitState := .kJitNormal } else st)) ∧
    (abortGate gDvm g self = false →
      ¬ u8sub now g.lastProfileResetTimeUsec > PROFILE_STALENESS_THRESHOLD →
      st.jitState = .kJitTSelectRequest →
      ∀ res g1 st1,
        dvmJitCheckTraceRequest c gDvm g self st now resetNow = .ok (res, g1, st1) →
        ∃ st2, acquireSlot c g tbl st = .ok (g1, st2) ∧
          promoteRequest c false st2 = .ok (res, st1)) := by
  refine ⟨?_, ?_, ?_⟩
  · unfold abortGate debugOrProfile
    simp only [Bool.or_eq_true, decide_eq_true_eq]
    tauto
  · intro hgate
    unfold dvmJitCheckTraceRequest
    simp only [hg, hgate, if_true]
    by_cases hoff : st.jitState ≠ .kJitOff
    · rw [if_pos hoff]
      simp only [promoteRequest]
    · rw [if_neg hoff]
      have hoff1 : st.jitState = .kJitOff := by simpa using hoff
      simp only [promoteRequest, hoff1]
  · intro hgate hfresh hreq res g1 st1 hcall
    rcases checkTraceRequest_cases hg hcall with ⟨hgt, _⟩ | ⟨_, hstale, _⟩ |
      ⟨_, _, _, st2, ha, hp⟩ | ⟨_, _, hne, _⟩
    · rw [hgate] at hgt; simp at hgt
    · exact absurd hstale hfresh
    · exact ⟨st2, ha, hp⟩
    · exact absurd hreq hne

/-- Example for C14: at queue length 10 with high-water mark 10 the pending
request for pc 4 is cancelled and the call returns false. -/
theorem C14_abort_gate_witness :
    dvmJitCheckTraceRequest exConsts exDvm { exGlobals with compilerQueueLength := 10 }
      exThread (exRequest 4) 0 0 =
      .ok (false, { exGlobals with compilerQueueLength := 10 },
        if (exRequest 4).jitState ≠ .kJitOff then
          { exRequest 4 with jitState := .kJitNormal }
        else exRequest 4) :=
  (C14_abort_gate exConsts exDvm { exGlobals with compilerQueueLength := 10 } exThread
    (exRequest 4) 0 0 (startupTable 4) (by decide)).2.1 (by decide)

/-! ## States in which `dvmCheckJit` does nothing or steps -/

/-- C16, as stated, fails: `dvmCheckJit` has no case for `kJitOff`, so a call
in that state reaches the default branch and `dvmAbort()`. -/
theorem C16_counterexample :
    ¬ (∀ (c : Consts) (gDvm : DvmGlobals) (g : DvmJitGlobals) (pc : Nat) (self : Thread)
        (st : InterpState) (insn : InsnInfo) (mallocOk : Bool),
        (st.jitState = .kJitNormal ∨ st.jitState = .kJitOff) →
        dvmCheckJit c gDvm g pc self st insn mallocOk = .ok (false, g, st)) := by
  intro h
  have h1 := h exConsts exDvm exGlobals 4 exThread { exRequest 4 with jitState := .kJitOff }
    (exPlainCall 4).insn true (Or.inr rfl)
  have h2 : dvmCheckJit exConsts exDvm exGlobals 4 exThread
      { exRequest 4 with jitState := .kJitOff } (exPlainCall 4).insn true = .error .abort := by
    decide
  rw [h2] at h1
  exact absurd h1 (by simp)

/-- C16, amended (idle states): a `dvmCheckJit` call in `kJitNormal` returns
false and leaves the interpreter state and the globals unchanged (nothing is
enqueued, no fatal branch). A call in `kJitOff` has no case of its own and
ends in the fatal default branch (`dvmAbort()`). -/
theorem C16_idle_states (c : Consts) (gDvm : DvmGlobals) (g : DvmJitGlobals) (pc : Nat)
    (self : Thread) (st : InterpState) (insn : InsnInfo) (mallocOk : Bool) :
    (st.jitState = .kJitNormal →
      dvmCheckJit c gDvm g pc self st insn mallocOk = .ok (false, g, st)) ∧
    (st.jitState = .kJitOff →
      dvmCheckJit c gDvm g pc self st insn mallocOk = .error .abort) := by
  constructor
  · intro h
    unfold dvmCheckJit
    simp only [h]
  · intro h
    unfold dvmCheckJit
    simp only [h]

/-- Example for C16: the thread whose trace was enqueued is in `kJitNormal`;
another call changes nothing. -/
theorem C16_idle_states_witness :
    dvmCheckJit exConsts exDvm exGlobals1 6 exThread exFinished (exPlainCall 6).insn true =
      .ok (false, exGlobals1, exFinished) :=
  (C16_idle_states exConsts exDvm exGlobals1 6 exThread exFinished (exPlainCall 6).insn
    true).1 (by decide)

/-- C17, as stated, fails: a call in `kJitSingleStepEnd` sets the entry point
but leaves the state at `kJitSingleStepEnd`, not `kJitNormal`. -/
theorem C17_counterexample :
    ¬ (∀ (c : Consts) (gDvm : DvmGlobals) (g g1 : DvmJitGlobals) (pc : Nat) (self : Thread)
        (st st1 : InterpState) (insn : InsnInfo) (mallocOk sw : Bool),
        st.jitState = .kJitSingleStepEnd →
        dvmCheckJit c gDvm g pc self st insn mallocOk = .ok (sw, g1, st1) →
        st1.entryPoint = c.kInterpEntryResume ∧ st1.jitState = .kJitNormal) := by
  intro h
  have h1 := h exConsts exDvm exGlobals exGlobals 4 exThread
    { exRequest 4 with jitState := .kJitSingleStepEnd }
    { exRequest 4 with jitState := .kJitSingleStepEnd, entryPoint := 3 }
    (exPlainCall 4).insn true true rfl (by decide)
  exact absurd h1.2 (by decide)

/-- C17, amended (single step): a `dvmCheckJit` call in `kJitSingleStep`
changes the state to `kJitSingleStepEnd` and returns false; a call in
`kJitSingleStepEnd` sets `entryPoint` to `kInterpEntryResume`, returns
`!debugOrProfile` and leaves the state at `kJitSingleStepEnd`; so two
consecutive calls from `kJitSingleStep` end in `kJitSingleStepEnd` with the
entry point set. The globals are unchanged throughout. -/
theorem C17_single_step (c : Consts) (gDvm gDvm1 : DvmGlobals) (g : DvmJitGlobals)
    (pc pc1 : Nat) (self self1 : Thread) (st : InterpState) (insn insn1 : InsnInfo)
    (mallocOk mallocOk1 : Bool) :
    (st.jitState = .kJitSingleStep →
      dvmCheckJit c gDvm g pc self st insn mallocOk =
        .ok (false, g, { st with jitState := .kJitSingleStepEnd })) ∧
    (st.jitState = .kJitSingleStepEnd →
      dvmCheckJit c gDvm g pc self st insn mallocOk =
        .ok (!debugOrProfile gDvm self, g, { st with entryPoint := c.kInterpEntryResume })) ∧
    (st.jitState = .kJitSingleStep →
      dvmCheckJit c gDvm1 g pc1 self1 { st with jitState := .kJitSingleStepEnd } insn1
          mallocOk1 =
        .ok (!debugOrProfile gDvm1 self1, g,
          { st with jitState := .kJitSingleStepEnd, entryPoint := c.kInterpEntryResume })) := by
  refine ⟨?_, ?_, ?_⟩
  · intro h
    unfold dvmCheckJit
    simp only [h]
  · intro h
    unfold dvmCheckJit
    simp only [h]
  · intro _
    unfold dvmCheckJit
    simp only

/-- Example for C17: a single-stepping thread. -/
theorem C17_single_step_witness :
    dvmCheckJit exConsts exDvm exGlobals 4 exThread
        { exRequest 4 with jitState := .kJitSingleStep } (exPlainCall 4).insn true =
      .ok (false, exGlobals, { exRequest 4 with jitState := .kJitSingleStepEnd }) :=
  (C17_single_step exConsts exDvm exDvm exGlobals 4 5 exThread exThread
    { exRequest 4 with jitState := .kJitSingleStep } (exPlainCall 4).insn (exPlainCall 5).insn
    true true).1 rfl

/-! ## Returns close the trace at once -/

/-- The `kJitTSelectEnd` case with a non-empty trace, a successful allocation
and the current run inside the array: the run is closed and the descriptor
enqueued. -/
theorem traceSelectEnd_ok (c : Consts) (g : DvmJitGlobals) (st : InterpState) (dop : Bool)
    {r : JitTraceRun} (h0 : st.totalTraceLen ≠ 0) (hr : st.trace[st.currTraceRun]? = some r) :
    ∃ st1, traceSelectEnd c g st dop true =
        .ok (!dop,
          dvmCompilerWorkEnqueue g st.currTraceHead c.kWorkOrderTrace
            { method := st.method, trace := st1.trace.take (st1.currTraceRun + 1) },
          st1) ∧
      st1.jitState = .kJitNormal ∧ st1.totalTraceLen = st.totalTraceLen ∧
      st1.currTraceRun = st.currTraceRun ∧
      st1.trace = st.trace.set st.currTraceRun { r with runEnd := true } := by
  refine ⟨{ st with
      trace := st.trace.set st.currTraceRun { r with runEnd := true },
      jitState := .kJitNormal }, ?_, rfl, rfl, rfl, rfl⟩
  unfold traceSelectEnd
  rw [if_neg h0]
  simp only [Bool.true_eq_false, if_false, hr, dvmCompilerDrainQueue, ite_self]

/-- C15 (return fall-through): a `dvmCheckJit` call in `kJitTSelect` for an
opcode that can return and has no no-JIT flag, with no debugger, profiler or
suspension, a successful allocation and the run index inside the trace array,
adds the return to the current run (the run that continues at `pc`, or a fresh
run opened at `pc`): `numInsts` of that run and `totalTraceLen` grow by 1. The
same call enqueues exactly one work order (`currTraceHead`, `kWorkOrderTrace`,
descriptor of the runs `0..currTraceRun` with the method) whose last run has
`runEnd` set and counts the return, leaves the state `kJitNormal`, and returns
true. -/
theorem C15_return_falls_through (c : Consts) (gDvm : DvmGlobals) (g : DvmJitGlobals)
    (pc : Nat) (self : Thread) (st : InterpState) (insn : InsnInfo)
    (hsel : st.jitState = .kJitTSelect)
    (hnj : ¬ insn.flags &&& c.kInstrNoJit = c.kInstrNoJit)
    (hret : insn.flags &&& c.kInstrCanReturn = c.kInstrCanReturn)
    (hdop : debugOrProfile gDvm self = false)
    (hlen : (if pc = st.currRunHead + st.currRunLen then st.currTraceRun
      else st.currTraceRun + 1) < st.trace.length) :
    ∃ (st1 : InterpState) (w : CompilerWorkOrder) (r : JitTraceRun),
      dvmCheckJit c gDvm g pc self st insn true =
        .ok (true, dvmCompilerWorkEnqueue g w.pc w.kind w.info, st1) ∧
      (dvmCompilerWorkEnqueue g w.pc w.kind w.info).workOrders = g.workOrders ++ [w] ∧
      w.pc = st.currTraceHead ∧ w.kind = c.kWorkOrderTrace ∧ w.info.method = st.method ∧
      w.info.trace = st1.trace.take (st1.currTraceRun + 1) ∧
      st1.jitState = .kJitNormal ∧ st1.totalTraceLen = st.totalTraceLen + 1 ∧
      (pc = st.currRunHead + st.currRunLen →
        st.trace[st.currTraceRun]? = some r ∧ st1.currTraceRun = st.currTraceRun) ∧
      (pc ≠ st.currRunHead + st.currRunLen →
        r = { startOffset := (pc : Int) - (st.method.insns : Int), numInsts := 0,
              runEnd := false, hint := c.kJitHintNone } ∧
        st1.currTraceRun = st.currTraceRun + 1) ∧
      st1.trace[st1.currTraceRun]? =
        some { r with numInsts := r.numInsts + 1, runEnd := true } ∧
      ∃ init, w.info.trace = init ++ [{ r with numInsts := r.numInsts + 1, runEnd := true }] := by
  have hsa : ∃ sa r, startNewRun c pc st = .ok sa ∧ sa.trace[sa.currTraceRun]? = some r ∧
      sa.totalTraceLen = st.totalTraceLen ∧ sa.method = st.method ∧
      sa.currTraceHead = st.currTraceHead ∧
      (pc = st.currRunHead + st.currRunLen →
        st.trace[st.currTraceRun]? = some r ∧ sa.currTraceRun = st.currTraceRun) ∧
      (pc ≠ st.currRunHead + st.currRunLen →
        r = { startOffset := (pc : Int) - (st.method.insns : Int), numInsts := 0,
              runEnd := false, hint := c.kJitHintNone } ∧
        sa.currTraceRun = st.currTraceRun + 1) := by
    by_cases hpc : pc = st.currRunHead + st.currRunLen
    · rw [if_pos hpc] at hlen
      refine ⟨st, st.trace[st.currTraceRun], ?_, List.getElem?_eq_getElem hlen, rfl, rfl, rfl,
        fun _ => ⟨List.getElem?_eq_getElem hlen, rfl⟩, fun hne => absurd hpc hne⟩
      unfold startNewRun
      rw [if_neg (not_not.mpr hpc)]
    · rw [if_neg hpc] at hlen
      rcases startNewRun_ok c pc st hlen with ⟨sa, hsa0, _⟩
      rcases startNewRun_cases hsa0 with ⟨heq, _⟩ | ⟨_, _, hsaeq⟩
      · exact absurd heq hpc
      · refine ⟨sa, JitTraceRun.mk ((pc : Int) - (st.method.insns : Int)) 0 false c.kJitHintNone,
          hsa0, ?_, ?_, ?_, ?_, fun heq => absurd heq hpc, fun _ => ⟨rfl, ?_⟩⟩
        · rw [hsaeq]
          simp [List.getElem?_set, hlen]
        · rw [hsaeq]
        · rw [hsaeq]
        · rw [hsaeq]
        · rw [hsaeq]
  obtain ⟨sa, r, hsa1, hr, htot, hm, hh, hcont, hnew⟩ := hsa
  have hltsa : sa.currTraceRun < sa.trace.length := length_lt_of_getElem? hr
  obtain ⟨sb, hsb⟩ := addInsn_ok c sa insn hltsa
  obtain ⟨r1, hr1, htr, htotb, hctr, hmb, hhb, _⟩ := addInsn_cases hsb
  have hrr : r1 = r := by rw [hr] at hr1; exact (Option.some.inj hr1).symm
  subst hrr
  have hrb : sb.trace[sb.currTraceRun]? = some { r1 with numInsts := r1.numInsts + 1 } := by
    rw [htr, hctr]
    simp [List.getElem?_set, hltsa]
  have h0 : sb.totalTraceLen ≠ 0 := by rw [htotb]; omega
  have hltsb : sb.currTraceRun < sb.trace.length := length_lt_of_getElem? hrb
  obtain ⟨st1, hend, hj1, ht1, hc1, htr1⟩ :=
    traceSelectEnd_ok c g sb (debugOrProfile gDvm self) h0 hrb
  have hget1 : st1.trace[st1.currTraceRun]? =
      some { r1 with numInsts := r1.numInsts + 1, runEnd := true } := by
    rw [htr1, hc1]
    simp [List.getElem?_set, hltsb]
  refine ⟨st1, ⟨sb.currTraceHead, c.kWorkOrderTrace,
    ⟨sb.method, st1.trace.take (st1.currTraceRun + 1)⟩⟩, r1, ?_, rfl, by rw [hhb, hh], rfl,
    by rw [hmb, hm], rfl, hj1, by rw [ht1, htotb, htot], ?_, ?_, hget1, ?_⟩
  · unfold dvmCheckJit
    simp only [hsel, if_neg hnj, hsa1, hsb, hdop, Bool.false_eq_true, if_false]
    rw [if_neg (not_not.mpr hret)]
    rw [hdop] at hend
    exact hend
  · intro hpc
    exact ⟨(hcont hpc).1, by rw [hc1, hctr, (hcont hpc).2]⟩
  · intro hpc
    exact ⟨(hnew hpc).1, by rw [hc1, hctr, (hnew hpc).2]⟩
  · simp only
    rw [take_succ_get _ _ _ hget1]
    exact ⟨_, rfl⟩

/-- Example for C15: the selection at pc 4 holds one instruction; a return at
pc 5 is added to the run and the trace of two instructions is enqueued. -/
theorem C15_return_falls_through_witness :
    ∃ (st1 : InterpState) (w : CompilerWorkOrder) (r : JitTraceRun),
      dvmCheckJit exConsts exDvm exGlobals1 5 exThread exSelecting (exReturnCall 5).insn true =
        .ok (true, dvmCompilerWorkEnqueue exGlobals1 w.pc w.kind w.info, st1) ∧
      (dvmCompilerWorkEnqueue exGlobals1 w.pc w.kind w.info).workOrders =
        exGlobals1.workOrders ++ [w] ∧
      w.pc = exSelecting.currTraceHead ∧ w.kind = exConsts.kWorkOrderTrace ∧
      w.info.method = exSelecting.method ∧
      w.info.trace = st1.trace.take (st1.currTraceRun + 1) ∧
      st1.jitState = .kJitNormal ∧ st1.totalTraceLen = exSelecting.totalTraceLen + 1 ∧
      (5 = exSelecting.currRunHead + exSelecting.currRunLen →
        exSelecting.trace[exSelecting.currTraceRun]? = some r ∧
        st1.currTraceRun = exSelecting.currTraceRun) ∧
      (5 ≠ exSelecting.currRunHead + exSelecting.currRunLen →
        r = { startOffset := ((5 : Nat) : Int) - (exSelecting.method.insns : Int),
              numInsts := 0, runEnd := false, hint := exConsts.kJitHintNone } ∧
        st1.currTraceRun = exSelecting.currTraceRun + 1) ∧
      st1.trace[st1.currTraceRun]? =
        some { r with numInsts := r.numInsts + 1, runEnd := true } ∧
      ∃ init, w.info.trace = init ++ [{ r with numInsts := r.numInsts + 1, runEnd := true }] :=
  C15_return_falls_through exConsts exDvm exGlobals1 5 exThread exSelecting
    (exReturnCall 5).insn (by decide) (by decide) (by decide) (by decide) (by decide)

/-! ## The order of the stores of a chain append -/

/-- The request branch is the walk before the lock followed, when the pc was
not found, by the locked section. -/
theorem acquireSlot_eq_locked (c : Consts) (g : DvmJitGlobals) (tbl : List JitEntry)
    (st : InterpState) :
    acquireSlot c g tbl st =
      match walkChain tbl g.maxTableEntries st.pc g.maxTableEntries (c.dvmJitHash st.pc) with
      | .error e => .error e
      | .ok idx =>
        match tbl[idx]? with
        | none => .error .outOfBounds
        | some e =>
          if e.dPC = st.pc then .ok (g, { st with jitState := .kJitTSelectAbort })
          else lockedSection g tbl idx st := by
  unfold acquireSlot lockedSection
  simp only
  cases hw : walkChain tbl g.maxTableEntries st.pc g.maxTableEntries (c.dvmJitHash st.pc) with
  | error e => rfl
  | ok idx =>
    simp only
    cases he : tbl[idx]? with
    | none => rfl
    | some e => rfl

/-- The stores of the locked section give the table of the locked section:
when it claims a slot, the new table is the old one after the stores; when the
table is full, there is no store. -/
theorem lockedSection_stores (g : DvmJitGlobals) (tbl : List JitEntry) (idx : Nat)
    (st : InterpState) :
    (∀ err, lockedSection g tbl idx st = .error err ↔
      lockedStores tbl g.maxTableEntries idx st.pc = .error err) ∧
    ∀ stores, lockedStores tbl g.maxTableEntries idx st.pc = .ok stores →
      (stores ≠ [] ∧ lockedSection g tbl idx st =
          .ok ({ g with pJitEntryTable := some (applyStores tbl stores) }, st)) ∨
      (stores = [] ∧ lockedSection g tbl idx st =
          .ok (dvmJitStopTranslationRequests g, { st with jitState := .kJitTSelectAbort })) := by
  unfold lockedSection lockedStores
  cases he : tbl[idx]? with
  | none => simp
  | some e =>
    simp only
    by_cases hz : e.dPC = 0
    · simp only [hz, ne_eq, not_true_eq_false, if_false, applyStores, List.foldl_nil, he,
        if_true, List.nil_append]
      refine ⟨fun err => by simp, fun stores hs => ?_⟩
      left
      have hs1 := (Except.ok.inj hs).symm
      subst hs1
      refine ⟨by simp, ?_⟩
      simp [applyStore, he]
    · simp only [ne_eq, hz, not_false_eq_true, if_true]
      unfold chainFreeSlot
      cases hw : walkToEnd tbl g.maxTableEntries g.maxTableEntries idx with
      | error e1 => simp
      | ok last =>
        simp only
        cases hl : tbl[last]? with
        | none => simp
        | some eLast =>
          simp only
          by_cases hlz : eLast.dPC = 0
          · simp [hlz]
          · simp only [hlz, if_false]
            cases hp : probeFree tbl g.maxTableEntries last g.maxTableEntries last with
            | error e1 => simp
            | ok idx1 =>
              simp only
              obtain ⟨e1, he1, hor⟩ := probeFree_post _ _ _ hp
              by_cases hi : idx1 = last
              · subst hi
                have hee : e1 = eLast := by rw [hl] at he1; exact (Option.some.inj he1).symm
                subst hee
                simp [applyStores, hl, hlz]
              · have hz1 : e1.dPC = 0 := by
                  rcases hor with h | h
                  · exact h
                  · exact absurd h hi
                have hlt : last < tbl.length := length_lt_of_getElem? hl
                have hget : (tbl.set last { eLast with chain := idx1 })[idx1]? = some e1 := by
                  rw [List.getElem?_set_ne (Ne.symm hi)]
                  exact he1
                simp only [ne_eq, hi, not_false_eq_true, if_true, applyStores, List.foldl_cons,
                  List.foldl_nil, applyStore, hl, hget, hz1, List.singleton_append]
                refine ⟨fun err => by simp, fun stores hs => ?_⟩
                left
                have hs1 := (Except.ok.inj hs).symm
                subst hs1
                refine ⟨by simp, ?_⟩
                simp [applyStore, hl, hget]

/-- When the locked section is entered at an occupied slot and stores anything,
it stores the chain link of the predecessor first and the pc of the new slot
second. -/
theorem lockedStores_append {tbl : List JitEntry} {n idx pc : Nat} {e : JitEntry}
    {stores : List TableStore} (he : tbl[idx]? = some e) (hne : e.dPC ≠ 0)
    (h : lockedStores tbl n idx pc = .ok stores) (hs : stores ≠ []) :
    ∃ prev idx1 ePrev e1, stores = [TableStore.chain prev idx1, TableStore.dPC idx1 pc] ∧
      idx1 ≠ prev ∧ tbl[prev]? = some ePrev ∧ ePrev.dPC ≠ 0 ∧ tbl[idx1]? = some e1 ∧
      e1.dPC = 0 := by
  unfold lockedStores at h
  simp only [he, ne_eq, hne, not_false_eq_true, if_true] at h
  cases hw : walkToEnd tbl n n idx with
  | error e1 => simp [hw] at h
  | ok last =>
    simp only [hw] at h
    cases hl : tbl[last]? with
    | none => simp [hl] at h
    | some eLast =>
      simp only [hl] at h
      by_cases hlz : eLast.dPC = 0
      · simp [hlz] at h
      · simp only [hlz, if_false] at h
        cases hp : probeFree tbl n last n last with
        | error e1 => simp [hp] at h
        | ok idx1 =>
          simp only [hp] at h
          obtain ⟨e1, he1, hor⟩ := probeFree_post _ _ _ hp
          by_cases hi : idx1 = last
          · subst hi
            have hee : e1 = eLast := by rw [hl] at he1; exact (Option.some.inj he1).symm
            subst hee
            simp only [ne_eq, not_true_eq_false, if_false, applyStores, List.foldl_nil, hl, hlz,
              List.nil_append] at h
            exact absurd (Except.ok.inj h).symm hs
          · have hz1 : e1.dPC = 0 := by
              rcases hor with h1 | h1
              · exact h1
              · exact absurd h1 hi
            have hget : (tbl.set last { eLast with chain := idx1 })[idx1]? = some e1 := by
              rw [List.getElem?_set_ne (Ne.symm hi)]
              exact he1
            simp only [ne_eq, hi, not_false_eq_true, if_true, applyStores, List.foldl_cons,
              List.foldl_nil, applyStore, hl, hget, hz1, List.singleton_append] at h
            exact ⟨last, idx1, eLast, e1, (Except.ok.inj h).symm, hi, hl, hlz, he1, hz1⟩

/-- C18 (counterexample): on the table that holds pc 4 in slot 0, a request
for pc 8 (same bucket) enters the locked section at slot 0 and appends slot 1
to the chain. Its stores are, in program order, the chain field of slot 0 and
then the dPC of slot 1: after the first store slot 0 links to slot 1 while the
dPC of slot 1 is still empty. -/
theorem C18_counterexample :
    walkChain exTable1 4 8 4 (exConsts.dvmJitHash 8) = .ok 0 ∧
    lockedStores exTable1 4 0 8 = .ok [TableStore.chain 0 1, TableStore.dPC 1 8] ∧
    chainAt (applyStore exTable1 (TableStore.chain 0 1)) 0 = some 1 ∧
    dpcAt (applyStore exTable1 (TableStore.chain 0 1)) 1 = some 0 ∧
    applyStores exTable1 [TableStore.chain 0 1, TableStore.dPC 1 8] = exTable2 ∧
    acquireSlot exConsts exGlobals1 exTable1 (exRequest 8) =
      .ok ({ exGlobals1 with pJitEntryTable := some exTable2 }, exRequest 8) := by
  decide

/-- C18 (publication order on chain append, as the code has it): when the
locked section of `dvmJitCheckTraceRequest` is entered at an occupied slot and
claims a slot, it issues exactly two stores: first the index of the new slot
into the chain field of the predecessor, then the pc into the dPC of the new
slot. In the table between the two stores the predecessor links to the new
slot, whose dPC is still empty; after both stores the new slot holds the pc,
and this table is the one the call leaves. -/
theorem C18_chain_link_stored_first {tbl : List JitEntry} {n idx pc : Nat} {e : JitEntry}
    {stores : List TableStore} (he : tbl[idx]? = some e) (hne : e.dPC ≠ 0)
    (h : lockedStores tbl n idx pc = .ok stores) (hs : stores ≠ []) :
    ∃ prev idx1, stores = [TableStore.chain prev idx1, TableStore.dPC idx1 pc] ∧
      idx1 ≠ prev ∧
      (∃ p, dpcAt tbl prev = some p ∧ p ≠ 0) ∧
      chainAt (applyStore tbl (TableStore.chain prev idx1)) prev = some idx1 ∧
      dpcAt (applyStore tbl (TableStore.chain prev idx1)) idx1 = some 0 ∧
      chainAt (applyStores tbl stores) prev = some idx1 ∧
      dpcAt (applyStores tbl stores) idx1 = some pc ∧
      ∀ (g : DvmJitGlobals) (st : InterpState), g.maxTableEntries = n → st.pc = pc →
        lockedSection g tbl idx st =
          .ok ({ g with pJitEntryTable := some (applyStores tbl stores) }, st) := by
  obtain ⟨prev, idx1, ePrev, e1, hst, hi, hp, hpz, he1, hz1⟩ := lockedStores_append he hne h hs
  have hlt : prev < tbl.length := length_lt_of_getElem? hp
  have hlt1 : idx1 < tbl.length := length_lt_of_getElem? he1
  have hget : (tbl.set prev { ePrev with chain := idx1 })[idx1]? = some e1 := by
    rw [List.getElem?_set_ne (Ne.symm hi)]
    exact he1
  refine ⟨prev, idx1, hst, hi, ⟨ePrev.dPC, dpcAt_of_get hp, hpz⟩, ?_, ?_, ?_, ?_, ?_⟩
  · simp [applyStore, hp, chainAt, hlt]
  · simp [applyStore, hp, dpcAt, hget, hz1]
  · subst hst
    simp [applyStores, applyStore, hp, hget, chainAt, List.getElem?_set_ne hi, hlt]
  · subst hst
    simp [applyStores, applyStore, hp, hget, dpcAt, hlt1]
  · intro g st hg hpc
    subst hg hpc
    rcases (lockedSection_stores g tbl idx st).2 stores h with ⟨_, hl⟩ | ⟨hnil, _⟩
    · exact hl
    · exact absurd hnil hs

/-- Example for C18: the append of pc 8 behind pc 4. -/
theorem C18_chain_link_stored_first_witness :
    ∃ prev idx1, [TableStore.chain 0 1, TableStore.dPC 1 8] =
        [TableStore.chain prev idx1, TableStore.dPC idx1 8] ∧
      idx1 ≠ prev ∧
      (∃ p, dpcAt exTable1 prev = some p ∧ p ≠ 0) ∧
      chainAt (applyStore exTable1 (TableStore.chain prev idx1)) prev = some idx1 ∧
      dpcAt (applyStore exTable1 (TableStore.chain prev idx1)) idx1 = some 0 ∧
      chainAt (applyStores exTable1 [TableStore.chain 0 1, TableStore.dPC 1 8]) prev =
        some idx1 ∧
      dpcAt (applyStores exTable1 [TableStore.chain 0 1, TableStore.dPC 1 8]) idx1 = some 8 ∧
      ∀ (g : DvmJitGlobals) (st : InterpState), g.maxTableEntries = 4 → st.pc = 8 →
        lockedSection g exTable1 0 st =
          .ok ({ g with
            pJitEntryTable :=
              some (applyStores exTable1 [TableStore.chain 0 1, TableStore.dPC 1 8]) }, st) :=
  @C18_chain_link_stored_first exTable1 4 0 8 { dPC := 4, codeAddress := 0, chain := 4 }
    [TableStore.chain 0 1, TableStore.dPC 1 8] (by decide) (by decide) (by decide) (by decide)

/-! ## Two threads that request the same pc -/

/-- C20 (failing input): on the startup table of four slots two threads
request a trace for pc 4. Both walks before the lock end at the empty slot 0
without a match. The locked section of the first thread claims slot 0. The
locked section of the second thread finds slot 0 occupied, never compares its
dPC with the pc, probes to the free slot 1, chains it behind slot 0 and stores
pc 4 there as well: the table ends with two slots whose dPC is 4, and both
threads stay in `kJitTSelectRequest`. -/
theorem C20_racing_requests_duplicate :
    exGlobals.pJitEntryTable = some (startupTable 4) ∧
    walkChain (startupTable 4) 4 4 4 (exConsts.dvmJitHash 4) = .ok 0 ∧
    dpcAt (startupTable 4) 0 = some 0 ∧
    lockedSection exGlobals (startupTable 4) 0 (exRequest 4) =
      .ok ({ exGlobals with pJitEntryTable := some exTable1 }, exRequest 4) ∧
    racingRequests exConsts exGlobals (exRequest 4) (exRequest 4) =
      .ok ({ exGlobals with pJitEntryTable := some exTableRace }, exRequest 4, exRequest 4) ∧
    dpcAt exTableRace 0 = some 4 ∧ dpcAt exTableRace 1 = some 4 ∧
    List.countP (fun (e : JitEntry) => decide (e.dPC = 4)) exTableRace = 2 := by
  decide

/-! ## The linear probe and the full table -/

/-- One step of the probe with wraparound is the successor modulo the capacity. -/
theorem wrap_eq_mod {n idx : Nat} (h : idx < n) :
    (if idx + 1 = n then 0 else idx + 1) = (idx + 1) % n := by
  by_cases hc : idx + 1 = n
  · rw [if_pos hc, hc, Nat.mod_self]
  · rw [if_neg hc, Nat.mod_eq_of_lt (by omega)]

/-- What the linear probe returns: it stops after `k` steps at slot
`(idx + k) mod n`, all slots it passed hold a pc and are not `prev`, and the
slot where it stops is empty or is `prev`. -/
theorem probeFree_steps {tbl : List JitEntry} {n prev : Nat} :
    ∀ (fuel idx idx1 : Nat), idx < n → probeFree tbl n prev fuel idx = .ok idx1 →
      ∃ k, 1 ≤ k ∧ k ≤ fuel ∧ idx1 = (idx + k) % n ∧
        (∀ m, 1 ≤ m → m < k →
          dpcAt tbl ((idx + m) % n) ≠ some 0 ∧ (idx + m) % n ≠ prev) ∧
        (dpcAt tbl idx1 = some 0 ∨ idx1 = prev) := by
  intro fuel
  induction fuel with
  | zero =>
    intro idx idx1 _ h
    simp [probeFree] at h
  | succ fuel ih =>
    intro idx idx1 hidx h
    unfold probeFree at h
    simp only at h
    rw [wrap_eq_mod hidx] at h
    cases he : tbl[(idx + 1) % n]? with
    | none => simp [he] at h
    | some e =>
      simp only [he] at h
      by_cases hstop : e.dPC = 0 ∨ (idx + 1) % n = prev
      · rw [if_pos hstop] at h
        have h1 := (Except.ok.inj h).symm
        subst h1
        refine ⟨1, le_refl 1, by omega, rfl, fun m h1 h2 => by omega, ?_⟩
        rcases hstop with hz | hp
        · left
          rw [dpcAt_of_get he, hz]
        · exact Or.inr hp
      · rw [if_neg hstop] at h
        have hlt : (idx + 1) % n < n := Nat.mod_lt _ (by omega)
        obtain ⟨k, hk1, hk2, hk3, hk4, hk5⟩ := ih _ _ hlt h
        have hmod : ∀ j, ((idx + 1) % n + j) % n = (idx + (j + 1)) % n := by
          intro j
          rw [Nat.mod_add_mod]
          congr 1
          omega
        refine ⟨k + 1, by omega, by omega, by rw [hk3, hmod], ?_, hk5⟩
        intro m hm1 hm2
        by_cases hm : m = 1
        · subst hm
          refine ⟨?_, fun hp => hstop (Or.inr hp)⟩
          rw [dpcAt_of_get he]
          intro hz
          exact hstop (Or.inl (Option.some.inj hz))
        · have := hk4 (m - 1) (by omega) (by omega)
          rw [hmod] at this
          have hm' : m - 1 + 1 = m := by omega
          rw [hm'] at this
          exact this

/-- A probe that starts at `prev` and comes back to `prev` has seen every
other slot, and none was empty. -/
theorem probeFree_full {tbl : List JitEntry} {n prev : Nat} (hprev : prev < n)
    (h : probeFree tbl n prev n prev = .ok prev) :
    ∀ j, j < n → j ≠ prev → dpcAt tbl j ≠ some 0 := by
  obtain ⟨k, hk1, hk2, hk3, hk4, _⟩ := probeFree_steps n prev prev hprev h
  have hkn : k = n := by
    by_cases hlt : prev + k < n
    · rw [Nat.mod_eq_of_lt hlt] at hk3
      omega
    · have h2 : (prev + k) % n = prev + k - n := by
        rw [Nat.mod_eq_sub_mod (by omega), Nat.mod_eq_of_lt (by omega)]
      rw [h2] at hk3
      omega
  subst hkn
  intro j hj hne
  by_cases hgt : prev < j
  · have := (hk4 (j - prev) (by omega) (by omega)).1
    have he : prev + (j - prev) = j := by omega
    rw [he, Nat.mod_eq_of_lt hj] at this
    exact this
  · have := (hk4 (j + k - prev) (by omega) (by omega)).1
    have he : prev + (j + k - prev) = j + k := by omega
    rw [he, Nat.add_mod_right, Nat.mod_eq_of_lt hj] at this
    exact this

/-- The outcome of the locked section, entered at a slot that is empty or is
the end of its chain: an empty slot is claimed in place; behind an occupied
chain end the first empty slot of the probe is linked and claimed; and when
the probe comes back to where it started, no slot of the table is empty and
the table-full branch is taken. -/
theorem lockedSection_outcome {g : DvmJitGlobals} {tbl : List JitEntry} {idx : Nat}
    (st : InterpState) {e : JitEntry} (hlen : tbl.length = g.maxTableEntries)
    (he : tbl[idx]? = some e) (hend : e.dPC ≠ 0 → e.chain = g.maxTableEntries) :
    (e.dPC = 0 ∧ lockedSection g tbl idx st =
        .ok ({ g with pJitEntryTable := some (tbl.set idx { e with dPC := st.pc }) }, st)) ∨
    (e.dPC ≠ 0 ∧ ∃ k idx1 e1, 1 ≤ k ∧ k < g.maxTableEntries ∧
        idx1 = (idx + k) % g.maxTableEntries ∧ idx1 ≠ idx ∧ tbl[idx1]? = some e1 ∧
        e1.dPC = 0 ∧
        (∀ m, 1 ≤ m → m < k → dpcAt tbl ((idx + m) % g.maxTableEntries) ≠ some 0) ∧
        lockedSection g tbl idx st =
          .ok ({ g with
            pJitEntryTable := some ((tbl.set idx { e with chain := idx1 }).set idx1
              { e1 with dPC := st.pc }) }, st)) ∨
    (e.dPC ≠ 0 ∧ (∀ j, j < g.maxTableEntries → dpcAt tbl j ≠ some 0) ∧
      lockedSection g tbl idx st =
        .ok (dvmJitStopTranslationRequests g, { st with jitState := .kJitTSelectAbort })) := by
  have hidx : idx < g.maxTableEntries := by rw [← hlen]; exact lt_length_of_get he
  unfold lockedSection
  simp only [he]
  by_cases hz : e.dPC = 0
  · left
    refine ⟨hz, ?_⟩
    simp [hz, he]
  · right
    have hc := hend hz
    have hw : walkToEnd tbl g.maxTableEntries g.maxTableEntries idx = .ok idx := by
      obtain ⟨f, hf⟩ : ∃ f, g.maxTableEntries = f + 1 := ⟨g.maxTableEntries - 1, by omega⟩
      rw [hf]
      unfold walkToEnd
      simp only [he]
      rw [if_neg (by rw [← hf]; exact fun hne => hne hc)]
    obtain ⟨idx1, hp⟩ :=
      probeFree_ok hlen hidx g.maxTableEntries idx hidx (by simp)
    obtain ⟨k, hk1, hk2, hk3, hk4, hk5⟩ := probeFree_steps _ _ _ hidx hp
    obtain ⟨e1, he1, hor⟩ := probeFree_post _ _ _ hp
    simp only [ne_eq, hz, not_false_eq_true, if_true, chainFreeSlot, hw, he, if_false, hp]
    by_cases hi : idx1 = idx
    · right
      subst hi
      have hee : e1 = e := by rw [he] at he1; exact (Option.some.inj he1).symm
      subst hee
      refine ⟨trivial, ?_, ?_⟩
      · intro j hj
        by_cases hji : j = idx1
        · subst hji
          rw [dpcAt_of_get he]
          exact fun h0 => hz (Option.some.inj h0)
        · exact probeFree_full hidx hp j hj hji
      · simp [he, hz]
    · left
      have hz1 : e1.dPC = 0 := by
        rcases hor with h | h
        · exact h
        · exact absurd h hi
      have hget : (tbl.set idx { e with chain := idx1 })[idx1]? = some e1 := by
        rw [List.getElem?_set_ne (Ne.symm hi)]
        exact he1
      have hkn : k < g.maxTableEntries := by
        rcases Nat.lt_or_ge k g.maxTableEntries with h | h
        · exact h
        · have hkk : k = g.maxTableEntries := by omega
          rw [hkk, Nat.add_mod_right, Nat.mod_eq_of_lt hidx] at hk3
          exact absurd hk3 hi
      refine ⟨trivial, k, idx1, e1, hk1, hkn, hk3, hi, he1, hz1,
        fun m h1 h2 => (hk4 m h1 h2).1, ?_⟩
      simp [hi, hget, hz1]

/-! ## Counting the occupied slots -/

theorem occupied_set {e e1 : JitEntry} :
    ∀ (tbl : List JitEntry) (i : Nat), tbl[i]? = some e →
      occupied (tbl.set i e1) + (if e.dPC ≠ 0 then 1 else 0) =
        occupied tbl + (if e1.dPC ≠ 0 then 1 else 0) := by
  intro tbl
  induction tbl with
  | nil =>
    intro i h
    simp at h
  | cons a t ih =>
    intro i h
    cases i with
    | zero =>
      have ha : a = e := by simpa using h
      subst ha
      simp only [occupied, List.set_cons_zero, List.countP_cons, decide_eq_true_eq]
      omega
    | succ i =>
      have h1 : t[i]? = some e := by simpa using h
      have := ih i h1
      simp only [occupied, List.set_cons_succ, List.countP_cons] at this ⊢
      omega

theorem occupied_le (tbl : List JitEntry) : occupied tbl ≤ tbl.length :=
  List.countP_le_length _

/-- A table without an empty slot has all its slots occupied. -/
theorem occupied_of_full {n : Nat} {tbl : List JitEntry} (hlen : tbl.length = n)
    (h : ∀ j, j < n → dpcAt tbl j ≠ some 0) : occupied tbl = n := by
  rw [← hlen]
  unfold occupied
  rw [List.countP_eq_length]
  intro a ha
  obtain ⟨j, hj, hja⟩ := List.getElem_of_mem ha
  have hget : tbl[j]? = some a := by rw [List.getElem?_eq_getElem hj, hja]
  have := h j (by rw [← hlen]; exact hj)
  rw [dpcAt_of_get hget] at this
  simp only [ne_eq, decide_eq_true_eq]
  exact fun h0 => this (by rw [h0])

/-- A table with an empty slot has fewer occupied slots than slots. -/
theorem occupied_lt_of_empty {tbl : List JitEntry} {j : Nat} (h : dpcAt tbl j = some 0) :
    occupied tbl < tbl.length := by
  obtain ⟨e, he, hz⟩ := get_of_dpcAt h
  have hne : occupied tbl ≠ tbl.length := by
    intro heq
    unfold occupied at heq
    rw [List.countP_eq_length] at heq
    have hmem : e ∈ tbl := by
      obtain ⟨hlt, hv⟩ := List.getElem?_eq_some.mp he
      rw [← hv]
      exact List.getElem_mem hlt
    have := heq e hmem
    simp only [ne_eq, decide_eq_true_eq] at this
    exact this hz
  have := occupied_le tbl
  omega

/-- A table with fewer occupied slots than slots has an empty slot. -/
theorem empty_of_occupied_lt {n : Nat} {tbl : List JitEntry} (hlen : tbl.length = n)
    (h : occupied tbl < n) : ∃ j, j < n ∧ dpcAt tbl j = some 0 := by
  by_contra hno
  have hall : ∀ j, j < n → dpcAt tbl j ≠ some 0 := by
    intro j hj h0
    exact hno ⟨j, hj, h0⟩
  have := occupied_of_full hlen hall
  omega

/-! ## A request for a pc that owns no slot -/

/-- When the pc owns no slot, the walk before the lock ends at the end of the
chain of its bucket, and the request branch is the locked section entered
there. -/
theorem acquireSlot_not_found {c : Consts} {g : DvmJitGlobals} {tbl : List JitEntry}
    (st : InterpState) (hinv : ChainInv g.maxTableEntries tbl)
    (hh : c.dvmJitHash st.pc < g.maxTableEntries)
    (hnot : ∀ i, dpcAt tbl i ≠ some st.pc) :
    ∃ idx e, tbl[idx]? = some e ∧ e.chain = g.maxTableEntries ∧
      (∃ k, (nextIdx tbl g.maxTableEntries)^[k] (c.dvmJitHash st.pc) = idx) ∧
      acquireSlot c g tbl st = lockedSection g tbl idx st := by
  obtain ⟨idx, hw⟩ := walkChain_ok hinv st.pc _ _ hh
    (iterate_reaches_end hinv _ (le_of_lt hh))
  obtain ⟨k, hk, ⟨e, he, hor⟩, _⟩ := walkChain_post _ _ _ hw
  have hne : e.dPC ≠ st.pc := by
    intro heq
    exact hnot idx (by rw [dpcAt_of_get he, heq])
  have hc : e.chain = g.maxTableEntries := by
    rcases hor with h | h
    · exact h
    · exact absurd h hne
  refine ⟨idx, e, he, hc, ⟨k, hk⟩, ?_⟩
  rw [acquireSlot_eq_locked]
  simp only [hw, he]
  rw [if_neg hne]

/-- A request for a non-null pc that owns no slot claims one empty slot when the
table has one, and takes the table-full branch when it has none. -/
theorem acquireSlot_claim_or_full {c : Consts} {g : DvmJitGlobals} {tbl : List JitEntry}
    (st : InterpState) (hinv : ChainInv g.maxTableEntries tbl)
    (hh : c.dvmJitHash st.pc < g.maxTableEntries) (hpc : st.pc ≠ 0)
    (hnot : ∀ i, dpcAt tbl i ≠ some st.pc) :
    (occupied tbl < g.maxTableEntries →
      ∃ j tbl1, dpcAt tbl j = some 0 ∧ dpcAt tbl1 j = some st.pc ∧
        (∀ i, i ≠ j → dpcAt tbl1 i = dpcAt tbl i) ∧
        (∀ i, codeAt tbl1 i = codeAt tbl i) ∧
        occupied tbl1 = occupied tbl + 1 ∧
        acquireSlot c g tbl st = .ok ({ g with pJitEntryTable := some tbl1 }, st)) ∧
    (occupied tbl = g.maxTableEntries →
      acquireSlot c g tbl st =
        .ok (dvmJitStopTranslationRequests g, { st with jitState := .kJitTSelectAbort })) := by
  obtain ⟨idx, e, he, hc, _, hacq⟩ := acquireSlot_not_found st hinv hh hnot
  have hlen := hinv.len
  have hidx : idx < tbl.length := lt_length_of_get he
  rw [hacq]
  rcases lockedSection_outcome st hlen he (fun _ => hc) with
    ⟨hz, hl⟩ | ⟨hz, k, idx1, e1, _, _, _, hi, he1, hz1, _, hl⟩ | ⟨hz, hfull, hl⟩
  · have hempty : dpcAt tbl idx = some 0 := by rw [dpcAt_of_get he, hz]
    refine ⟨fun _ => ⟨idx, _, hempty, dpcAt_set_self _ hidx, ?_, ?_, ?_, hl⟩, fun hocc => ?_⟩
    · intro i hne
      exact dpcAt_set_ne _ (Ne.symm hne)
    · intro i
      by_cases hii : idx = i
      · subst hii
        simp [codeAt, he, List.getElem?_set, hidx]
      · simp [codeAt, List.getElem?_set_ne hii]
    · have := @occupied_set e { e with dPC := st.pc } tbl idx he
      rw [if_neg (not_not.mpr hz), if_pos hpc] at this
      omega
    · have := occupied_lt_of_empty hempty
      omega
  · have hempty : dpcAt tbl idx1 = some 0 := by rw [dpcAt_of_get he1, hz1]
    have hidx1 : idx1 < tbl.length := lt_length_of_get he1
    have hget : (tbl.set idx { e with chain := idx1 })[idx1]? = some e1 := by
      rw [List.getElem?_set_ne (Ne.symm hi)]
      exact he1
    have hidx1s : idx1 < (tbl.set idx { e with chain := idx1 }).length := by
      rw [List.length_set]
      exact hidx1
    refine ⟨fun _ => ⟨idx1, _, hempty, dpcAt_set_self _ hidx1s, ?_, ?_, ?_, hl⟩, fun hocc => ?_⟩
    · intro i hne
      rw [dpcAt_set_ne _ (Ne.symm hne)]
      exact congrFun (@dpcAt_set_same tbl idx e { e with chain := idx1 } he rfl) i
    · intro i
      by_cases hii : idx1 = i
      · subst hii
        simp [codeAt, he1, hget, List.getElem?_set, hidx1]
      · by_cases hij : idx = i
        · subst hij
          simp [codeAt, he, List.getElem?_set_ne hii, List.getElem?_set, hidx]
        · simp [codeAt, List.getElem?_set_ne hii, List.getElem?_set_ne hij]
    · have h1 := @occupied_set e { e with chain := idx1 } tbl idx he
      have h2 := @occupied_set e1 { e1 with dPC := st.pc }
        (tbl.set idx { e with chain := idx1 }) idx1 hget
      rw [if_neg (not_not.mpr hz1), if_pos hpc] at h2
      simp only at h1
      omega
    · have := occupied_lt_of_empty hempty
      omega
  · refine ⟨fun hocc => ?_, fun _ => hl⟩
    have := occupied_of_full hlen hfull
    omega

/-- With the gate clear and the profile fresh, a call in `kJitTSelectRequest`
is the request branch followed by the final switch. -/
theorem checkTraceRequest_request {c : Consts} {gDvm : DvmGlobals} {g : DvmJitGlobals}
    {self : Thread} {st : InterpState} {now resetNow : Nat} {tbl : List JitEntry}
    (hg : g.pJitEntryTable = some tbl) (hgate : abortGate gDvm g self = false)
    (hfresh : ¬ u8sub now g.lastProfileResetTimeUsec > PROFILE_STALENESS_THRESHOLD)
    (hreq : st.jitState = .kJitTSelectRequest) :
    dvmJitCheckTraceRequest c gDvm g self st now resetNow =
      match acquireSlot c g tbl st with
      | .error e => .error e
      | .ok (g1, st1) =>
        match promoteRequest c false st1 with
        | .error e => .error e
        | .ok (res1, st2) => .ok (res1, g1, st2) := by
  unfold dvmJitCheckTraceRequest
  simp only [hg, hgate, Bool.false_eq_true, if_false, hreq, if_true]
  rw [if_neg hfresh]
  cases acquireSlot c g tbl st with
  | error e => rfl
  | ok p => rfl

/-- A fresh request for a non-null pc that owns no slot: while the table has
an empty slot the call claims one and the thread is promoted to
`kJitTSelect`; when every slot is occupied the call takes the table-full
branch. -/
theorem checkTraceRequest_claim_or_full {c : Consts} {gDvm : DvmGlobals} {g : DvmJitGlobals}
    {self : Thread} {st : InterpState} {now resetNow : Nat} {tbl : List JitEntry}
    (hg : g.pJitEntryTable = some tbl) (hinv : ChainInv g.maxTableEntries tbl)
    (hgate : abortGate gDvm g self = false)
    (hfresh : ¬ u8sub now g.lastProfileResetTimeUsec > PROFILE_STALENESS_THRESHOLD)
    (hreq : st.jitState = .kJitTSelectRequest) (htr : st.trace ≠ [])
    (hh : c.dvmJitHash st.pc < g.maxTableEntries) (hpc : st.pc ≠ 0)
    (hnot : ∀ i, dpcAt tbl i ≠ some st.pc) :
    (occupied tbl < g.maxTableEntries →
      ∃ j tbl1 st1, dpcAt tbl j = some 0 ∧ dpcAt tbl1 j = some st.pc ∧
        (∀ i, i ≠ j → dpcAt tbl1 i = dpcAt tbl i) ∧
        (∀ i, codeAt tbl1 i = codeAt tbl i) ∧
        occupied tbl1 = occupied tbl + 1 ∧
        dvmJitCheckTraceRequest c gDvm g self st now resetNow =
          .ok (false, { g with pJitEntryTable := some tbl1 }, st1) ∧
        st1.jitState = .kJitTSelect ∧ st1.currTraceHead = st.pc) ∧
    (occupied tbl = g.maxTableEntries →
      dvmJitCheckTraceRequest c gDvm g self st now resetNow =
        .ok (true, dvmJitStopTranslationRequests g,
          { st with jitState := .kJitTSelectAbort })) := by
  obtain ⟨hclaim, hfull⟩ := acquireSlot_claim_or_full st hinv hh hpc hnot
  rw [checkTraceRequest_request hg hgate hfresh hreq]
  constructor
  · intro hocc
    obtain ⟨j, tbl1, h0, h1, h2, h3, h4, hacq⟩ := hclaim hocc
    have hp : ∃ st1, promoteRequest c false st = .ok (false, st1) ∧
        st1.jitState = .kJitTSelect ∧ st1.currTraceHead = st.pc := by
      unfold promoteRequest
      cases htrace : st.trace with
      | nil => exact absurd htrace htr
      | cons old rest =>
        simp only [hreq]
        exact ⟨_, rfl, rfl, rfl⟩
    obtain ⟨st1, hp1, hp2, hp3⟩ := hp
    refine ⟨j, tbl1, st1, h0, h1, h2, h3, h4, ?_, hp2, hp3⟩
    rw [hacq]
    simp only [hp1]
  · intro hocc
    rw [hfull hocc]
    simp only [promoteRequest]

/-! ## Filling the table -/

theorem occupied_startup (n : Nat) : occupied (startupTable n) = 0 := by
  unfold occupied startupTable
  rw [List.countP_eq_zero]
  intro a ha
  rw [List.mem_replicate] at ha
  simp [ha.2]

theorem dpcAt_startup {n i p : Nat} (h : dpcAt (startupTable n) i = some p) : p = 0 := by
  simp only [dpcAt, startupTable, List.getElem?_replicate] at h
  split at h <;> simp at h
  exact h.symm

theorem globals_with_table {g : DvmJitGlobals} {tbl : List JitEntry}
    (hg : g.pJitEntryTable = some tbl) : { g with pJitEntryTable := some tbl } = g := by
  cases g
  simp only at hg
  subst hg
  rfl

/-- Requests for distinct non-null pcs that own no slot, issued while the gate
is clear and the profile fresh, each claim a slot and are promoted, as long as
the table has room for all of them. -/
theorem runRequests_fill {c : Consts} {n : Nat} :
    ∀ (ks : List RequestCall) (g : DvmJitGlobals) (tbl : List JitEntry),
      Reachable c n tbl → g.pJitEntryTable = some tbl → g.maxTableEntries = n →
      (∀ k ∈ ks, abortGate k.gDvm g k.self = false ∧
        ¬ u8sub k.now g.lastProfileResetTimeUsec > PROFILE_STALENESS_THRESHOLD ∧
        k.st.jitState = .kJitTSelectRequest ∧ k.st.trace ≠ [] ∧
        c.dvmJitHash k.st.pc < n ∧ k.st.pc ≠ 0) →
      (ks.map (fun k => k.st.pc)).Nodup →
      (∀ k ∈ ks, ∀ i, dpcAt tbl i ≠ some k.st.pc) →
      occupied tbl + ks.length ≤ n →
      ∃ tbl1 outs, runRequests c g ks = .ok ({ g with pJitEntryTable := some tbl1 }, outs) ∧
        Reachable c n tbl1 ∧ occupied tbl1 = occupied tbl + ks.length ∧
        List.Forall₂ (fun (k : RequestCall) (o : Bool × InterpState) =>
          o.1 = false ∧ o.2.jitState = .kJitTSelect ∧ o.2.currTraceHead = k.st.pc ∧
          ∃ i, dpcAt tbl1 i = some k.st.pc) ks outs ∧
        (∀ i p, dpcAt tbl i = some p → p ≠ 0 → dpcAt tbl1 i = some p) ∧
        (∀ i p, dpcAt tbl1 i = some p → p ≠ 0 →
          dpcAt tbl i = some p ∨ p ∈ ks.map (fun k => k.st.pc)) := by
  intro ks
  induction ks with
  | nil =>
    intro g tbl hr hg _ _ _ _ _
    refine ⟨tbl, [], ?_, hr, rfl, List.Forall₂.nil, fun _ _ h _ => h, fun _ _ h _ => Or.inl h⟩
    rw [globals_with_table hg]
    rfl
  | cons k ks ih =>
    intro g tbl hr hg hn hall hnd hnot hocc
    obtain ⟨hgate, hfresh, hreq, htr, hh, hpc⟩ := hall k (List.mem_cons_self _ _)
    have hinv := (Reachable.inv hr).toChainInv
    rw [← hn] at hinv hh
    have hlt : occupied tbl < g.maxTableEntries := by
      rw [hn]
      simp only [List.length_cons] at hocc
      omega
    obtain ⟨j, tbl1, st1, h0, h1, h2, _, h4, hcall, hsel, hhead⟩ :=
      (checkTraceRequest_claim_or_full hg hinv hgate hfresh hreq htr hh hpc
        (hnot k (List.mem_cons_self _ _))).1 hlt
    have hr1 : Reachable c n tbl1 :=
      Reachable.request k.gDvm g _ k.self k.st st1 k.now k.resetNow false hr hg hn hcall rfl
    rw [List.map_cons, List.nodup_cons] at hnd
    have hnot1 : ∀ k1 ∈ ks, ∀ i, dpcAt tbl1 i ≠ some k1.st.pc := by
      intro k1 hk1 i
      by_cases hij : i = j
      · subst hij
        rw [h1]
        intro heq
        apply hnd.1
        rw [Option.some.inj heq]
        exact List.mem_map_of_mem (fun (k : RequestCall) => k.st.pc) hk1
      · rw [h2 i hij]
        exact hnot k1 (List.mem_cons_of_mem _ hk1) i
    obtain ⟨tbl2, outs, hrun, hr2, hocc2, hf2, hkeep, hfrom⟩ :=
      ih { g with pJitEntryTable := some tbl1 } tbl1 hr1 rfl hn
        (fun k1 hk1 => hall k1 (List.mem_cons_of_mem _ hk1)) hnd.2 hnot1
        (by simp only [List.length_cons] at hocc; omega)
    refine ⟨tbl2, (false, st1) :: outs, ?_, hr2, ?_, ?_, ?_, ?_⟩
    · unfold runRequests
      simp only [hcall, hrun]
    · rw [hocc2, h4, List.length_cons]
      omega
    · exact List.Forall₂.cons ⟨rfl, hsel, hhead, j, hkeep j _ h1 hpc⟩ hf2
    · intro i p hp hp0
      apply hkeep i p _ hp0
      by_cases hij : i = j
      · subst hij
        rw [hp] at h0
        exact absurd (Option.some.inj h0) hp0
      · rw [h2 i hij]
        exact hp
    · intro i p hp hp0
      rcases hfrom i p hp hp0 with h | h
      · by_cases hij : i = j
        · subst hij
          rw [h1] at h
          right
          rw [← Option.some.inj h, List.map_cons]
          exact List.mem_cons_self _ _
        · left
          rw [← h2 i hij]
          exact h
      · right
        rw [List.map_cons]
        exact List.mem_cons_of_mem _ h

/-- C12 (counterexample): in the startup table of four slots, requests for
the four pcs 4, 8, 12 and 16, all of bucket 0, are issued with the gate clear
and the profile fresh. The fourth request still finds slot 3 empty: it claims
it, the thread goes to `kJitTSelect`, and the profile pointers stay set. -/
theorem C12_counterexample :
    exGlobals.pJitEntryTable = some (startupTable 4) ∧
    exConsts.dvmJitHash 4 = 0 ∧ exConsts.dvmJitHash 8 = 0 ∧ exConsts.dvmJitHash 12 = 0 ∧
    exConsts.dvmJitHash 16 = 0 ∧
    runRequests exConsts exGlobals [exCall 4, exCall 8, exCall 12] =
      .ok ({ exGlobals with
        pJitEntryTable := some
          [{ dPC := 4, codeAddress := 0, chain := 1 }, { dPC := 8, codeAddress := 0, chain := 2 },
           { dPC := 12, codeAddress := 0, chain := 4 },
           { dPC := 0, codeAddress := 0, chain := 4 }] },
        [(false, exPromoted 4), (false, exPromoted 8), (false, exPromoted 12)]) ∧
    runRequests exConsts exGlobals [exCall 4, exCall 8, exCall 12, exCall 16] =
      .ok ({ exGlobals with pJitEntryTable := some exTableFull },
        [(false, exPromoted 4), (false, exPromoted 8), (false, exPromoted 12),
         (false, exPromoted 16)]) ∧
    dpcAt exTableFull 3 = some 16 ∧
    (exPromoted 16).jitState = .kJitTSelect ∧
    ({ exGlobals with pJitEntryTable := some exTableFull } : DvmJitGlobals).pProfTable = true ∧
    ({ exGlobals with pJitEntryTable := some exTableFull } : DvmJitGlobals).pProfTableCopy =
      true := by
  decide

/-- C12 (table full, one request later than stated): starting from the
startup table of capacity `N`, requests for `N` distinct non-null pcs (whatever
their buckets, in particular all in one bucket), issued with the abort gate
clear and the profile fresh, each claim a slot and end in `kJitTSelect`, so
that all `N` slots are occupied. The request for one more distinct pc then
finds no empty slot: it returns true, leaves the table as it is, sets jitState
to `kJitTSelectAbort` and both profile pointers to null, and enqueues
nothing. -/
theorem C12_table_full (c : Consts) (g : DvmJitGlobals) (ks : List RequestCall)
    (last : RequestCall)
    (hg : g.pJitEntryTable = some (startupTable g.maxTableEntries))
    (hlen : ks.length = g.maxTableEntries)
    (hall : ∀ k ∈ ks ++ [last], abortGate k.gDvm g k.self = false ∧
      ¬ u8sub k.now g.lastProfileResetTimeUsec > PROFILE_STALENESS_THRESHOLD ∧
      k.st.jitState = .kJitTSelectRequest ∧ k.st.trace ≠ [] ∧
      c.dvmJitHash k.st.pc < g.maxTableEntries ∧ k.st.pc ≠ 0)
    (hnd : ((ks ++ [last]).map (fun k => k.st.pc)).Nodup) :
    ∃ tbl1 outs,
      runRequests c g ks = .ok ({ g with pJitEntryTable := some tbl1 }, outs) ∧
      List.Forall₂ (fun (k : RequestCall) (o : Bool × InterpState) =>
          o.1 = false ∧ o.2.jitState = .kJitTSelect ∧ o.2.currTraceHead = k.st.pc ∧
          ∃ i, dpcAt tbl1 i = some k.st.pc) ks outs ∧
      tbl1.length = g.maxTableEntries ∧ occupied tbl1 = g.maxTableEntries ∧
      dvmJitCheckTraceRequest c last.gDvm { g with pJitEntryTable := some tbl1 } last.self
          last.st last.now last.resetNow =
        .ok (true,
          { g with pJitEntryTable := some tbl1, pProfTable := false, pProfTableCopy := false },
          { last.st with jitState := .kJitTSelectAbort }) := by
  rw [List.map_append, List.nodup_append] at hnd
  obtain ⟨hnd1, _, hdisj⟩ := hnd
  have hnot0 : ∀ k ∈ ks, ∀ i, dpcAt (startupTable g.maxTableEntries) i ≠ some k.st.pc := by
    intro k hk i h
    exact (hall k (List.mem_append_left _ hk)).2.2.2.2.2 (dpcAt_startup h)
  obtain ⟨tbl1, outs, hrun, hr1, hocc, hf, _, hfrom⟩ :=
    runRequests_fill ks g _ (Reachable.startup) hg rfl
      (fun k hk => hall k (List.mem_append_left _ hk)) hnd1 hnot0
      (by rw [occupied_startup, hlen]; omega)
  have hinv := (Reachable.inv hr1).toChainInv
  obtain ⟨hgate, hfresh, hreq, htr, hh, hpc⟩ :=
    hall last (List.mem_append_right _ (List.mem_singleton_self _))
  have hnot : ∀ i, dpcAt tbl1 i ≠ some last.st.pc := by
    intro i h
    rcases hfrom i _ h hpc with h1 | h1
    · exact hpc (dpcAt_startup h1)
    · exact hdisj h1 (by simp)
  have hfull : occupied tbl1 = g.maxTableEntries := by
    rw [hocc, occupied_startup, hlen]
    omega
  refine ⟨tbl1, outs, hrun, hf, hinv.len, hfull, ?_⟩
  exact (@checkTraceRequest_claim_or_full c last.gDvm { g with pJitEntryTable := some tbl1 }
    last.self last.st last.now last.resetNow tbl1 rfl hinv hgate hfresh hreq htr hh hpc hnot).2
    hfull

/-- Example for C12: four slots, the pcs 4, 8, 12 and 16 of bucket 0 fill the
table, and the request for pc 20 finds it full. -/
theorem C12_table_full_witness :
    ∃ tbl1 outs,
      runRequests exConsts exGlobals [exCall 4, exCall 8, exCall 12, exCall 16] =
        .ok ({ exGlobals with pJitEntryTable := some tbl1 }, outs) ∧
      List.Forall₂ (fun (k : RequestCall) (o : Bool × InterpState) =>
          o.1 = false ∧ o.2.jitState = .kJitTSelect ∧ o.2.currTraceHead = k.st.pc ∧
          ∃ i, dpcAt tbl1 i = some k.st.pc) [exCall 4, exCall 8, exCall 12, exCall 16] outs ∧
      tbl1.length = exGlobals.maxTableEntries ∧ occupied tbl1 = exGlobals.maxTableEntries ∧
      dvmJitCheckTraceRequest exConsts (exCall 20).gDvm
          { exGlobals with pJitEntryTable := some tbl1 } (exCall 20).self
          (exCall 20).st (exCall 20).now (exCall 20).resetNow =
        .ok (true,
          { exGlobals with
            pJitEntryTable := some tbl1, pProfTable := false, pProfTableCopy := false },
          { (exCall 20).st with jitState := .kJitTSelectAbort }) :=
  C12_table_full exConsts exGlobals [exCall 4, exCall 8, exCall 12, exCall 16] (exCall 20)
    (by decide) (by decide) (by decide) (by decide)

/-! ## Run splitting -/

theorem specMergeHead_append (p w p1 : Nat) {T : List (Nat × Nat)} (U : List (Nat × Nat))
    (hT : T ≠ []) : specMergeHead p w p1 (T ++ U) = specMergeHead p w p1 T ++ U := by
  cases T with
  | nil => exact absurd rfl hT
  | cons x T =>
    obtain ⟨s, n⟩ := x
    simp only [List.cons_append, specMergeHead]
    split <;> rfl

/-- Putting an instruction in front changes the last segment in the same way
whatever its count is. -/
theorem specMergeHead_last (a wa b : Nat) (S : List (Nat × Nat)) (s n : Nat) :
    ∃ S1 s1 n1, specMergeHead a wa b (S ++ [(s, n)]) = S1 ++ [(s1, n1)] ∧
      (specMergeHead a wa b (S ++ [(s, n + 1)]) = S1 ++ [(s1, n1 + 1)]) ∧
      ∀ x, specMergeHead a wa b (S ++ [(s, n), x]) = S1 ++ [(s1, n1), x] := by
  cases S with
  | nil =>
    by_cases hc : b = a + wa
    · exact ⟨[], a, n + 1, by simp [specMergeHead, hc], by simp [specMergeHead, hc],
        fun x => by simp [specMergeHead, hc]⟩
    · exact ⟨[(a, 1)], s, n, by simp [specMergeHead, hc], by simp [specMergeHead, hc],
        fun x => by simp [specMergeHead, hc]⟩
  | cons y S =>
    refine ⟨specMergeHead a wa b [y] ++ S, s, n, ?_, ?_, fun x => ?_⟩
    · rw [show y :: S ++ [(s, n)] = [y] ++ (S ++ [(s, n)]) from rfl,
        specMergeHead_append _ _ _ _ (by simp), List.append_assoc]
    · rw [show y :: S ++ [(s, n + 1)] = [y] ++ (S ++ [(s, n + 1)]) from rfl,
        specMergeHead_append _ _ _ _ (by simp), List.append_assoc]
    · rw [show y :: S ++ [(s, n), x] = [y] ++ (S ++ [(s, n), x]) from rfl,
        specMergeHead_append _ _ _ _ (by simp), List.append_assoc]

/-- The segments of a sequence with one more instruction at its end: the new
instruction joins the last segment when its pc is the pc of the last
instruction plus its width, and opens a new segment otherwise. -/
theorem specSegments_snoc (l : List (Nat × Nat)) (pl wl p w : Nat) :
    ∃ S s n, specSegments (l ++ [(pl, wl)]) = S ++ [(s, n)] ∧
      specSegments (l ++ [(pl, wl)] ++ [(p, w)]) =
        if p = pl + wl then S ++ [(s, n + 1)] else S ++ [(s, n), (p, 1)] := by
  induction l with
  | nil =>
    refine ⟨[], pl, 1, rfl, ?_⟩
    simp only [List.nil_append, List.singleton_append, specSegments, specMergeHead]
  | cons x l ih =>
    obtain ⟨a, wa⟩ := x
    obtain ⟨S, s, n, h1, h2⟩ := ih
    obtain ⟨b, wb, t, ht⟩ : ∃ b wb t, l ++ [(pl, wl)] = (b, wb) :: t := by
      cases l with
      | nil => exact ⟨pl, wl, [], rfl⟩
      | cons y l => exact ⟨y.1, y.2, l ++ [(pl, wl)], rfl⟩
    obtain ⟨S1, s1, n1, e1, e2, e3⟩ := specMergeHead_last a wa b S s n
    refine ⟨S1, s1, n1, ?_, ?_⟩
    · rw [List.cons_append, ht, specSegments, ← ht, h1, e1]
    · rw [List.cons_append, List.cons_append, ht, List.cons_append, specSegments]
      rw [ht, List.cons_append] at h2
      rw [h2]
      by_cases hc : p = pl + wl
      · rw [if_pos hc, if_pos hc, e2]
      · rw [if_neg hc, if_neg hc, e3]

/-- A contiguous sequence is one segment. -/
theorem specSegments_chain :
    ∀ (l : List (Nat × Nat)) (p w : Nat),
      List.Chain' (fun a b => b.1 = a.1 + a.2) ((p, w) :: l) →
      specSegments ((p, w) :: l) = [(p, l.length + 1)] := by
  intro l
  induction l with
  | nil =>
    intro p w _
    rfl
  | cons y l ih =>
    intro p w h
    obtain ⟨p1, w1⟩ := y
    rw [List.chain'_cons] at h
    rw [specSegments, ih p1 w1 h.2]
    simp only [specMergeHead]
    rw [if_pos h.1]
    simp

/-- An instruction that passes none of the three tests leaves the state of the
selection as it is. -/
theorem addInsn_continues {c : Consts} {st sb : InterpState} {insn : InsnInfo}
    (h : addInsn c st insn = .ok sb) (hcont : continuesTrace c insn = true)
    (hlen : st.totalTraceLen + 1 < MAX_TRACE_LEN) : sb.jitState = st.jitState := by
  simp only [continuesTrace, Bool.and_eq_true, Bool.not_eq_true', decide_eq_false_iff_not,
    decide_eq_true_eq] at hcont
  obtain ⟨⟨h1, h2⟩, _⟩ := hcont
  unfold addInsn at h
  cases hr : st.trace[st.currTraceRun]? with
  | none => simp [hr] at h
  | some r =>
    simp only [hr] at h
    rw [if_neg h1, if_neg h2, if_neg (by simp only [ge_iff_le, not_le]; exact hlen)] at h
    rw [← Except.ok.inj h]

/-- The `kJitTSelectEnd` case returns when the trace is empty or the current
run is inside the array. -/
theorem traceSelectEnd_total (c : Consts) (g : DvmJitGlobals) (st : InterpState)
    (dop mallocOk : Bool) (hin : st.currTraceRun < st.trace.length) :
    ∃ sw g1 st1, traceSelectEnd c g st dop mallocOk = .ok (sw, g1, st1) := by
  unfold traceSelectEnd
  by_cases h0 : st.totalTraceLen = 0
  · rw [if_pos h0]
    exact ⟨_, _, _, rfl⟩
  · rw [if_neg h0]
    by_cases hm : mallocOk = false
    · rw [if_pos hm]
      exact ⟨_, _, _, rfl⟩
    · rw [if_neg hm, List.getElem?_eq_getElem hin]
      exact ⟨_, _, _, rfl⟩

/-- The `kJitTSelectEnd` case keeps the start offsets and instruction counts of
the recorded runs. -/
theorem traceSelectEnd_runs {c : Consts} {g g1 : DvmJitGlobals} {st st1 : InterpState}
    {dop mallocOk sw : Bool} (h : traceSelectEnd c g st dop mallocOk = .ok (sw, g1, st1)) :
    recordedRuns st1 = recordedRuns st ∧ st1.currTraceRun = st.currTraceRun ∧
    st1.currRunHead = st.currRunHead ∧ st1.currRunLen = st.currRunLen ∧
    st1.totalTraceLen = st.totalTraceLen ∧ st1.method = st.method ∧
    st1.trace.length = st.trace.length := by
  obtain ⟨_, hcase⟩ := traceSelectEnd_cases h
  rcases hcase with ⟨_, _, hs⟩ | ⟨_, _, _, hs⟩ | ⟨_, _, r, hr, hs, _⟩
  · subst hs
    exact ⟨rfl, rfl, rfl, rfl, rfl, rfl, rfl⟩
  · subst hs
    exact ⟨rfl, rfl, rfl, rfl, rfl, rfl, rfl⟩
  · subst hs
    refine ⟨?_, rfl, rfl, rfl, rfl, rfl, by simp⟩
    unfold recordedRuns
    simp only
    rw [take_succ_set _ _ _ (length_lt_of_getElem? hr), take_succ_get _ _ _ hr]
    simp

/-- One accepted instruction in the runs: it is counted in the current run when
its pc continues that run, and opens a new run holding it otherwise. -/
theorem record_step (c : Consts) {pc : Nat} {st : InterpState} (insn : InsnInfo)
    {A : List (Int × Nat)} {o : Int} {n : Nat}
    (hin : st.currTraceRun < st.trace.length)
    (hroom : pc ≠ st.currRunHead + st.currRunLen → st.currTraceRun + 1 < st.trace.length)
    (hruns : recordedRuns st = A ++ [(o, n)]) :
    ∃ sa sb, startNewRun c pc st = .ok sa ∧ addInsn c sa insn = .ok sb ∧
      recordedRuns sb =
        (if pc = st.currRunHead + st.currRunLen then A ++ [(o, n + 1)]
         else A ++ [(o, n), ((pc : Int) - (st.method.insns : Int), 1)]) ∧
      sb.currTraceRun =
        (if pc = st.currRunHead + st.currRunLen then st.currTraceRun
         else st.currTraceRun + 1) ∧
      sb.currRunHead + sb.currRunLen = pc + insn.width ∧
      sb.totalTraceLen = st.totalTraceLen + 1 ∧ sb.method = st.method ∧
      sb.trace.length = st.trace.length ∧ sb.currTraceRun < sb.trace.length ∧
      (continuesTrace c insn = true → st.totalTraceLen + 1 < MAX_TRACE_LEN →
        sb.jitState = st.jitState) := by
  by_cases hpc : pc = st.currRunHead + st.currRunLen
  · have hsa : startNewRun c pc st = .ok st := by
      unfold startNewRun
      rw [if_neg (not_not.mpr hpc)]
    obtain ⟨sb, hsb⟩ := addInsn_ok c st insn hin
    obtain ⟨r, hr, htr, htot, hctr, hm, _, hrh, hrl, _, _, _, _⟩ := addInsn_cases hsb
    have hsplit := take_succ_get _ _ _ hr
    unfold recordedRuns at hruns
    rw [hsplit, List.map_append, List.map_singleton] at hruns
    obtain ⟨hA, hlast⟩ := List.append_inj' hruns rfl
    have ho : r.startOffset = o := by
      have := congrArg Prod.fst (List.singleton_inj.mp hlast)
      exact this
    have hn : r.numInsts = n := by
      have := congrArg Prod.snd (List.singleton_inj.mp hlast)
      exact this
    refine ⟨st, sb, hsa, hsb, ?_, ?_, ?_, htot, hm, ?_, ?_, ?_⟩
    · rw [if_pos hpc]
      unfold recordedRuns
      rw [htr, hctr, take_succ_set _ _ _ hin, List.map_append, List.map_singleton, hA]
      simp only [ho, hn]
    · rw [if_pos hpc, hctr]
    · rw [hrh, hrl, hpc]
      omega
    · rw [htr, List.length_set]
    · rw [hctr, htr, List.length_set]
      exact hin
    · intro hcont hlen
      exact addInsn_continues hsb hcont hlen
  · have hlt := hroom hpc
    obtain ⟨sa, hsa, hsalt⟩ := startNewRun_ok c pc st hlt
    rcases startNewRun_cases hsa with ⟨heq, _⟩ | ⟨_, _, hsaeq⟩
    · exact absurd heq hpc
    · obtain ⟨sb, hsb⟩ := addInsn_ok c sa insn hsalt
      obtain ⟨r, hr, htr, htot, hctr, hm, _, hrh, hrl, _, _, _, _⟩ := addInsn_cases hsb
      have hsactr : sa.currTraceRun = st.currTraceRun + 1 := by rw [hsaeq]
      have hsatr : sa.trace = st.trace.set (st.currTraceRun + 1)
          { startOffset := (pc : Int) - (st.method.insns : Int), numInsts := 0,
            runEnd := false, hint := c.kJitHintNone } := by rw [hsaeq]
      have hrv : r =
          JitTraceRun.mk ((pc : Int) - (st.method.insns : Int)) 0 false c.kJitHintNone := by
        rw [hsatr, hsactr] at hr
        simpa [List.getElem?_set, hlt] using hr.symm
      refine ⟨sa, sb, hsa, hsb, ?_, ?_, ?_, ?_, ?_, ?_, ?_, ?_⟩
      · rw [if_neg hpc]
        unfold recordedRuns at hruns ⊢
        rw [htr, hctr, take_succ_set _ _ _ hsalt, hsactr, hsatr, take_set_self,
          List.map_append, hruns, hrv]
        simp
      · rw [if_neg hpc, hctr, hsactr]
      · rw [hrh, hrl, hsaeq]
        simp
      · rw [htot, hsaeq]
      · rw [hm, hsaeq]
      · rw [htr, List.length_set, hsatr, List.length_set]
      · rw [hctr, htr, List.length_set]
        exact hsalt
      · intro hcont hlen
        have := addInsn_continues hsb hcont (by rw [hsaeq]; exact hlen)
        rw [this, hsaeq]

/-- One call of `dvmCheckJit` in trace selection for an accepted instruction:
the call returns, the instruction is counted in the current run when its pc
continues that run and opens a new run otherwise, and the thread stays in
`kJitTSelect` when the instruction does not end the selection. -/
theorem dvmCheckJit_record (c : Consts) {gDvm : DvmGlobals} (g : DvmJitGlobals) {pc : Nat}
    {self : Thread} {st : InterpState} {insn : InsnInfo} (mallocOk : Bool)
    {A : List (Int × Nat)} {o : Int} {n : Nat}
    (hsel : st.jitState = .kJitTSelect)
    (hnj : ¬ insn.flags &&& c.kInstrNoJit = c.kInstrNoJit)
    (hdop : debugOrProfile gDvm self = false)
    (hin : st.currTraceRun < st.trace.length)
    (hroom : pc ≠ st.currRunHead + st.currRunLen → st.currTraceRun + 1 < st.trace.length)
    (hruns : recordedRuns st = A ++ [(o, n)]) :
    ∃ sw g1 st1, dvmCheckJit c gDvm g pc self st insn mallocOk = .ok (sw, g1, st1) ∧
      recordedRuns st1 =
        (if pc = st.currRunHead + st.currRunLen then A ++ [(o, n + 1)]
         else A ++ [(o, n), ((pc : Int) - (st.method.insns : Int), 1)]) ∧
      st1.currTraceRun =
        (if pc = st.currRunHead + st.currRunLen then st.currTraceRun
         else st.currTraceRun + 1) ∧
      st1.currRunHead + st1.currRunLen = pc + insn.width ∧
      st1.totalTraceLen = st.totalTraceLen + 1 ∧ st1.method = st.method ∧
      st1.trace.length = st.trace.length ∧ st1.currTraceRun < st1.trace.length ∧
      (continuesTrace c insn = true → st.totalTraceLen + 1 < MAX_TRACE_LEN →
        st1.jitState = .kJitTSelect ∧ g1 = g) := by
  obtain ⟨sa, sb, hsa, hsb, hr, hctr, hhead, htot, hm, hlen, hlt, hjs⟩ :=
    record_step c insn hin hroom hruns
  by_cases hret : insn.flags &&& c.kInstrCanReturn = c.kInstrCanReturn
  · obtain ⟨sw, g1, st1, hend⟩ := traceSelectEnd_total c g sb false mallocOk hlt
    obtain ⟨e1, e2, e3, e4, e5, e6, e7⟩ := traceSelectEnd_runs hend
    refine ⟨sw, g1, st1, ?_, by rw [e1, hr], by rw [e2, hctr], by rw [e3, e4, hhead],
      by rw [e5, htot], by rw [e6, hm], by rw [e7, hlen], by rw [e2, e7]; exact hlt, ?_⟩
    · unfold dvmCheckJit
      simp only [hsel, if_neg hnj, hsa, hsb, hdop, Bool.false_eq_true, if_false]
      rw [if_neg (not_not.mpr hret)]
      exact hend
    · intro hcont _
      simp only [continuesTrace, Bool.and_eq_true, decide_eq_true_eq] at hcont
      exact absurd hret hcont.2
  · refine ⟨false, g, sb, ?_, hr, hctr, hhead, htot, hm, hlen, hlt, ?_⟩
    · unfold dvmCheckJit
      simp only [hsel, if_neg hnj, hsa, hsb, hdop, Bool.false_eq_true, if_false]
      rw [if_pos hret]
    · intro hcont hl
      exact ⟨by rw [hjs hcont hl, hsel], rfl⟩

theorem runCheckJit_append (c : Consts) :
    ∀ (ks : List CheckJitCall) (s : DvmJitGlobals × InterpState) (k : CheckJitCall),
      runCheckJit c s (ks ++ [k]) =
        match runCheckJit c s ks with
        | .error e => .error e
        | .ok (g, st) =>
          match dvmCheckJit c k.gDvm g k.pc k.self st k.insn k.mallocOk with
          | .error e => .error e
          | .ok (_, g1, st1) => .ok (g1, st1) := by
  intro ks
  induction ks with
  | nil =>
    intro s k
    obtain ⟨g, st⟩ := s
    simp only [List.nil_append, runCheckJit]
  | cons k0 ks ih =>
    intro s k
    obtain ⟨g, st⟩ := s
    simp only [List.cons_append, runCheckJit]
    cases dvmCheckJit c k0.gDvm g k0.pc k0.self st k0.insn k0.mallocOk with
    | error e => rfl
    | ok p => exact ih _ k

/-- The runs of a selection that starts at the head `h` with an empty run 0 and
is fed the accepted instructions `ks` and then `k`, where none of `ks` ends the
selection: every call is entered in `kJitTSelect` and returns, and the
recorded runs are the maximal contiguous segments of the sequence. -/
theorem runCheckJit_segments (c : Consts) (g0 : DvmJitGlobals) (st0 : InterpState) (h : Nat)
    (r0 : JitTraceRun) (hsel : st0.jitState = .kJitTSelect) (hh : st0.currRunHead = h)
    (hl : st0.currRunLen = 0) (hc : st0.currTraceRun = 0) (ht : st0.totalTraceLen = 0)
    (hr0 : st0.trace[0]? = some r0)
    (hso : r0.startOffset = (h : Int) - (st0.method.insns : Int)) (hn0 : r0.numInsts = 0) :
    ∀ (ks : List CheckJitCall) (k : CheckJitCall),
      (∀ x ∈ (ks ++ [k]).head?, x.pc = h) →
      (∀ x ∈ ks ++ [k], ¬ x.insn.flags &&& c.kInstrNoJit = c.kInstrNoJit ∧
        debugOrProfile x.gDvm x.self = false) →
      (∀ x ∈ ks, continuesTrace c x.insn = true) →
      ks.length + 1 ≤ MAX_TRACE_LEN → ks.length + 1 ≤ st0.trace.length →
      ∃ g1 st1, runCheckJit c (g0, st0) (ks ++ [k]) = .ok (g1, st1) ∧
        recordedRuns st1 =
          (specSegments ((ks ++ [k]).map (fun x => (x.pc, x.insn.width)))).map
            (fun s => ((s.1 : Int) - (st0.method.insns : Int), s.2)) ∧
        st1.currTraceRun < st1.totalTraceLen ∧ st1.totalTraceLen = ks.length + 1 ∧
        st1.currRunHead + st1.currRunLen = k.pc + k.insn.width ∧
        st1.method = st0.method ∧ st1.trace.length = st0.trace.length ∧
        (continuesTrace c k.insn = true → ks.length + 1 < MAX_TRACE_LEN →
          st1.jitState = .kJitTSelect ∧ g1 = g0) ∧
        ∀ j, j ≤ ks.length → ∃ gj stj,
          runCheckJit c (g0, st0) ((ks ++ [k]).take j) = .ok (gj, stj) ∧
          stj.jitState = .kJitTSelect := by
  intro ks
  induction ks using List.reverseRecOn with
  | nil =>
    intro k hfirst hacc _ _ hcap
    have hpc : k.pc = h := hfirst k (by simp)
    obtain ⟨hnj, hdop⟩ := hacc k (by simp)
    have hin : st0.currTraceRun < st0.trace.length := by
      rw [hc]
      exact length_lt_of_getElem? hr0
    have hruns : recordedRuns st0 = [] ++ [((h : Int) - (st0.method.insns : Int), 0)] := by
      unfold recordedRuns
      rw [hc, take_succ_get _ _ _ hr0]
      simp [hso, hn0]
    have hcontig : k.pc = st0.currRunHead + st0.currRunLen := by rw [hh, hl, hpc]; rfl
    obtain ⟨sw, g1, st1, hcall, e1, e2, e3, e4, e5, e6, _, e8⟩ :=
      dvmCheckJit_record c g0 k.mallocOk hsel hnj hdop hin (fun hne => absurd hcontig hne) hruns
    rw [if_pos hcontig] at e1 e2
    refine ⟨g1, st1, ?_, ?_, by rw [e2, e4, hc, ht]; omega, by rw [e4, ht]; rfl, e3, e5, e6, ?_,
      ?_⟩
    · simp only [List.nil_append, runCheckJit, hcall]
    · rw [e1]
      simp [specSegments, hpc]
    · intro hcont hlt
      exact e8 hcont (by rw [ht]; exact hlt)
    · intro j hj
      have hj0 : j = 0 := by simpa using hj
      subst hj0
      exact ⟨g0, st0, rfl, hsel⟩
  | append_singleton l kl ih =>
    intro k hfirst hacc hcont hmax hcap
    simp only [List.length_append, List.length_singleton] at hmax hcap
    have hfirst1 : ∀ x ∈ (l ++ [kl]).head?, x.pc = h := by
      intro x hx
      apply hfirst x
      rw [List.head?_append_of_ne_nil _ (by simp)]
      exact hx
    obtain ⟨gl, stl, hrun, hruns, hctr, htot, hhead, hm, hlen, hstay, hpre⟩ :=
      ih kl hfirst1 (fun x hx => hacc x (List.mem_append_left _ hx))
        (fun x hx => hcont x (List.mem_append_left _ hx)) (by omega) (by omega)
    obtain ⟨hsell, hgl⟩ := hstay (hcont kl (by simp)) (by omega)
    subst hgl
    obtain ⟨hnj, hdop⟩ := hacc k (by simp)
    obtain ⟨S, s, n, hs1, hs2⟩ :=
      specSegments_snoc (l.map (fun x => (x.pc, x.insn.width))) kl.pc kl.insn.width k.pc
        k.insn.width
    have hruns1 : recordedRuns stl =
        S.map (fun s => ((s.1 : Int) - (st0.method.insns : Int), s.2)) ++
          [((s : Int) - (st0.method.insns : Int), n)] := by
      rw [hruns, List.map_append, List.map_singleton, hs1, List.map_append, List.map_singleton]
    have hin : stl.currTraceRun < stl.trace.length := by
      rw [hlen]
      omega
    obtain ⟨sw, g1, st1, hcall, e1, e2, e3, e4, e5, e6, _, e8⟩ :=
      dvmCheckJit_record c gl k.mallocOk hsell hnj hdop hin (fun _ => by rw [hlen]; omega) hruns1
    rw [hhead, hm] at e1
    rw [hhead] at e2
    refine ⟨g1, st1, ?_, ?_, ?_, by rw [e4, htot]; simp, e3, by rw [e5, hm], by rw [e6, hlen],
      ?_, ?_⟩
    · rw [runCheckJit_append, hrun]
      simp only [hcall]
    · rw [e1, List.map_append, List.map_append, List.map_singleton, List.map_singleton, hs2]
      by_cases hcg : k.pc = kl.pc + kl.insn.width
      · rw [if_pos hcg, if_pos hcg]
        simp
      · rw [if_neg hcg, if_neg hcg]
        simp
    · rw [e2, e4]
      split <;> omega
    · intro hck hlt
      simp only [List.length_append, List.length_singleton] at hlt
      exact e8 hck (by rw [htot]; exact hlt)
    · intro j hj
      simp only [List.length_append, List.length_singleton] at hj
      by_cases hjl : j ≤ l.length
      · rw [List.take_append_of_le_length (by simp; omega)]
        exact hpre j hjl
      · have hje : j = (l ++ [kl]).length := by simp; omega
        rw [hje, List.take_left']
        · exact ⟨gl, stl, hrun, hsell⟩
        · rfl

/-- C19 (run splitting): a request at head pc `h` is promoted by
`dvmJitCheckTraceRequest`, and the selection is then fed the instructions `ks`
through `dvmCheckJit`, the first of them at `h`; all are accepted (no no-JIT
flag, no debugger, profiler or suspension), none but the last ends the
selection, there are at most `MAX_TRACE_LEN` of them, and the trace array has
a run for each. Then every call is entered in `kJitTSelect`, all calls return,
and the recorded runs `trace[0..currTraceRun]` are exactly the maximal
contiguous segments of the pc sequence: one run per segment, with startOffset
the pc of the first instruction of the segment minus `method.insns` and
numInsts the number of instructions of the segment. In particular a contiguous
sequence gives the single run of `ks.length` instructions at `h`. As long as
the selection is not closed, every recorded run has `runEnd` false. -/
theorem C19_run_splitting (c : Consts) (gDvm : DvmGlobals) (gR g0 : DvmJitGlobals)
    (self : Thread) (stR st0 : InterpState) (now resetNow : Nat) (res : Bool)
    (ks : List CheckJitCall)
    (hreq : stR.jitState = .kJitTSelectRequest)
    (hcall : dvmJitCheckTraceRequest c gDvm gR self stR now resetNow = .ok (res, g0, st0))
    (hsel : st0.jitState = .kJitTSelect)
    (hne : ks ≠ []) (hfirst : ∀ x ∈ ks.head?, x.pc = stR.pc)
    (hacc : ∀ x ∈ ks, ¬ x.insn.flags &&& c.kInstrNoJit = c.kInstrNoJit ∧
      debugOrProfile x.gDvm x.self = false)
    (hcont : ∀ x ∈ ks.dropLast, continuesTrace c x.insn = true)
    (hmax : ks.length ≤ MAX_TRACE_LEN) (hcap : ks.length ≤ stR.trace.length) :
    ∃ g1 st1, runCheckJit c (g0, st0) ks = .ok (g1, st1) ∧
      recordedRuns st1 =
        (specSegments (ks.map (fun x => (x.pc, x.insn.width)))).map
          (fun s => ((s.1 : Int) - (stR.method.insns : Int), s.2)) ∧
      st1.currTraceRun + 1 = (specSegments (ks.map (fun x => (x.pc, x.insn.width)))).length ∧
      st1.totalTraceLen = ks.length ∧
      (List.Chain' (fun (a b : CheckJitCall) => b.pc = a.pc + a.insn.width) ks →
        recordedRuns st1 = [((stR.pc : Int) - (stR.method.insns : Int), ks.length)]) ∧
      (∀ j, j < ks.length → ∃ gj stj,
        runCheckJit c (g0, st0) (ks.take j) = .ok (gj, stj) ∧ stj.jitState = .kJitTSelect) ∧
      (st1.jitState = .kJitTSelect ∨ st1.jitState = .kJitTSelectEnd →
        ∀ r ∈ st1.trace.take (st1.currTraceRun + 1), r.runEnd = false) := by
  obtain ⟨old, rest, htr, hst0⟩ := checkTraceRequest_promoted hreq hcall hsel
  have hinv0 := checkTraceRequest_promoted_inv hreq hcall hsel
  have hks : ks.dropLast ++ [ks.getLast hne] = ks := List.dropLast_append_getLast hne
  have hlenks : ks.length = ks.dropLast.length + 1 := by
    conv_lhs => rw [← hks]
    simp
  have hm0 : st0.method = stR.method := by rw [hst0]
  have hlen0 : st0.trace.length = stR.trace.length := by rw [hst0, htr]; rfl
  obtain ⟨g1, st1, hrun, hruns, hctr, htot, _, _, hlen1, _, hpre⟩ :=
    runCheckJit_segments c g0 st0 stR.pc
      { startOffset := (stR.pc : Int) - (stR.method.insns : Int), numInsts := 0,
        runEnd := false, hint := c.kJitHintNone }
      hsel (by rw [hst0]) (by rw [hst0]) (by rw [hst0]) (by rw [hst0]) (by rw [hst0]; simp)
      (by rw [hst0]) rfl ks.dropLast (ks.getLast hne)
      (by rw [hks]; exact hfirst) (by rw [hks]; exact hacc) hcont (by omega)
      (by rw [hlen0]; omega)
  rw [hks, hm0] at hruns
  rw [hks] at hrun hpre
  have hcount : st1.currTraceRun + 1 =
      (specSegments (ks.map (fun x => (x.pc, x.insn.width)))).length := by
    have := congrArg List.length hruns
    unfold recordedRuns at this
    simp only [List.length_map, List.length_take] at this
    rw [← this, Nat.min_eq_left]
    rw [hlen1, hlen0]
    omega
  have hinv1 := runCheckJit_inv ks hinv0 hrun
  refine ⟨g1, st1, hrun, hruns, hcount, by rw [htot, hlenks], ?_, ?_, ?_⟩
  rotate_left
  · intro j hj
    exact hpre j (by omega)
  · intro hjs
    rcases hjs with hjs | hjs
    · exact (hinv1.1 hjs).1.2.2
    · exact (hinv1.2 hjs).1.2.2
  · intro hchain
    rw [hruns]
    cases hk : ks with
    | nil => exact absurd hk hne
    | cons k0 t =>
      rw [hk] at hchain hfirst
      have hpc : k0.pc = stR.pc := hfirst k0 (by simp)
      have hchain1 : List.Chain' (fun (a b : Nat × Nat) => b.1 = a.1 + a.2)
          ((k0.pc, k0.insn.width) :: t.map (fun x => (x.pc, x.insn.width))) := by
        have := (List.chain'_map (R := fun (a b : Nat × Nat) => b.1 = a.1 + a.2)
          (fun (x : CheckJitCall) => (x.pc, x.insn.width))).mpr hchain
        simpa using this
      rw [List.map_cons, specSegments_chain _ _ _ hchain1]
      simp [hpc]

/-- Example for C19: the request at pc 4 is promoted and fed ten contiguous
one-unit instructions at the pcs 4 to 13; they make the single run with
startOffset 0 and numInsts 10. -/
theorem C19_run_splitting_witness :
    dvmJitCheckTraceRequest exConsts exDvm exGlobals exThread exRequestTen 0 0 =
      .ok (false, exGlobals1, exPromotedTen) ∧
    exContiguous.length = 10 ∧
    ∃ g1 st1, runCheckJit exConsts (exGlobals1, exPromotedTen) exContiguous = .ok (g1, st1) ∧
      recordedRuns st1 = [(0, 10)] ∧ st1.currTraceRun + 1 = 1 ∧ st1.totalTraceLen = 10 := by
  have hcall : dvmJitCheckTraceRequest exConsts exDvm exGlobals exThread exRequestTen 0 0 =
      .ok (false, exGlobals1, exPromotedTen) := by decide
  obtain ⟨g1, st1, h1, _, h3, h4, h5, _, _⟩ :=
    C19_run_splitting exConsts exDvm exGlobals exGlobals1 exThread exRequestTen exPromotedTen
      0 0 false exContiguous (by decide) hcall (by decide) (by simp [exContiguous])
      (by decide) (by decide) (by decide) (by decide) (by decide)
  refine ⟨hcall, by decide, g1, st1, h1, h5 (by simp [exContiguous, exPlainCall]), ?_, h4⟩
  rw [h3]
  decide

/-! ## Chain links lead to occupied slots -/

theorem reachableNonNull_reachable {c : Consts} {n : Nat} {tbl : List JitEntry}
    (h : ReachableNonNull c n tbl) : Reachable c n tbl := by
  induction h with
  | startup => exact Reachable.startup
  | request gDvm g g1 self st st1 now resetNow res _ hg hn _ hcall hg1 ih =>
    exact Reachable.request gDvm g g1 self st st1 now resetNow res ih hg hn hcall hg1
  | setCodeAddr g g1 dPC nPC _ hg hn hcall hg1 ih =>
    exact Reachable.setCodeAddr g g1 dPC nPC ih hg hn hcall hg1

theorem linkInv_startup (n : Nat) : LinkInv n (startupTable n) := by
  intro i m h hne
  simp only [chainAt, startupTable, List.getElem?_replicate] at h
  split at h <;> simp at h
  exact absurd h.symm hne

theorem linkInv_congr {n : Nat} {tbl tbl1 : List JitEntry} (h : LinkInv n tbl)
    (hd : dpcAt tbl1 = dpcAt tbl) (hc : chainAt tbl1 = chainAt tbl) : LinkInv n tbl1 := by
  intro i m hi hne
  rw [hc] at hi
  rw [hd]
  exact h i m hi hne

/-- A request for a non-null pc keeps every link pointing to an occupied slot. -/
theorem acquireSlot_link {c : Consts} {g g1 : DvmJitGlobals} {tbl tbl1 : List JitEntry}
    {st st1 : InterpState} (hg : g.pJitEntryTable = some tbl)
    (hinv : LinkInv g.maxTableEntries tbl) (hpc : st.pc ≠ 0)
    (h : acquireSlot c g tbl st = .ok (g1, st1)) (h1 : g1.pJitEntryTable = some tbl1) :
    LinkInv g.maxTableEntries tbl1 := by
  rcases acquireSlot_cases h with ⟨_, hg1, _⟩ | ⟨_, hrest⟩
  · subst hg1
    rw [hg] at h1
    exact (Option.some.inj h1) ▸ hinv
  · rcases hrest with ⟨idx, e, he, hz, _, _, hg1, _⟩ |
      ⟨prev, idx1, ePrev, e1, hp, _, _, _, he1, hz1, hne, hg1, _⟩ | ⟨hg1, _⟩
    · subst hg1
      simp only [Option.some.injEq] at h1
      subst h1
      intro i m hi hm
      rw [@chainAt_set_same tbl idx e { e with dPC := st.pc } he rfl] at hi
      obtain ⟨p, hp, hp0⟩ := hinv i m hi hm
      have hmi : idx ≠ m := by
        intro heq
        subst heq
        rw [dpcAt_of_get he, hz] at hp
        exact hp0 (Option.some.inj hp).symm
      exact ⟨p, by rw [dpcAt_set_ne _ hmi]; exact hp, hp0⟩
    · subst hg1
      simp only [Option.some.injEq] at h1
      subst h1
      have hget : (tbl.set prev { ePrev with chain := idx1 })[idx1]? = some e1 := by
        rw [List.getElem?_set_ne (Ne.symm hne)]; exact he1
      have hlt1 : idx1 < (tbl.set prev { ePrev with chain := idx1 }).length := by
        rw [List.length_set]; exact lt_length_of_get he1
      intro i m hi hm
      rw [@chainAt_set_same (tbl.set prev { ePrev with chain := idx1 }) idx1 e1
        { e1 with dPC := st.pc } hget rfl] at hi
      by_cases hip : i = prev
      · subst hip
        rw [chainAt_set_self _ (lt_length_of_get hp)] at hi
        have hmi : m = idx1 := (Option.some.inj hi).symm
        subst hmi
        exact ⟨st.pc, dpcAt_set_self _ hlt1, hpc⟩
      · rw [chainAt_set_ne _ (Ne.symm hip)] at hi
        obtain ⟨p, hpm, hp0⟩ := hinv i m hi hm
        have hmi : idx1 ≠ m := by
          intro heq
          subst heq
          rw [dpcAt_of_get he1, hz1] at hpm
          exact hp0 (Option.some.inj hpm).symm
        refine ⟨p, ?_, hp0⟩
        rw [dpcAt_set_ne _ hmi]
        rw [congrFun (@dpcAt_set_same tbl prev ePrev { ePrev with chain := idx1 } hp rfl) m]
        exact hpm
    · subst hg1
      simp only [dvmJitStopTranslationRequests] at h1
      rw [hg] at h1
      exact (Option.some.inj h1) ▸ hinv

theorem checkTraceRequest_link {c : Consts} {gDvm : DvmGlobals} {g g1 : DvmJitGlobals}
    {self : Thread} {st st1 : InterpState} {now resetNow : Nat} {res : Bool}
    {tbl tbl1 : List JitEntry} (hg : g.pJitEntryTable = some tbl)
    (hinv : LinkInv g.maxTableEntries tbl) (hpc : st.pc ≠ 0)
    (h : dvmJitCheckTraceRequest c gDvm g self st now resetNow = .ok (res, g1, st1))
    (h1 : g1.pJitEntryTable = some tbl1) : LinkInv g.maxTableEntries tbl1 := by
  rcases checkTraceRequest_cases hg h with ⟨_, hg1, _⟩ | ⟨_, _, hg1, _⟩ |
    ⟨_, _, _, st2, ha, _⟩ | ⟨_, _, _, hg1, _⟩
  · subst hg1
    rw [hg] at h1
    exact (Option.some.inj h1) ▸ hinv
  · subst hg1
    rw [resetProfileCounts_table, hg] at h1
    exact (Option.some.inj h1) ▸ hinv
  · exact acquireSlot_link hg hinv hpc ha h1
  · subst hg1
    rw [hg] at h1
    exact (Option.some.inj h1) ▸ hinv

/-- In a table reached by requests for non-null pcs every chain link leads to an
occupied slot. -/
theorem reachableNonNull_link {c : Consts} {n : Nat} {tbl : List JitEntry}
    (h : ReachableNonNull c n tbl) : LinkInv n tbl := by
  induction h with
  | startup => exact linkInv_startup n
  | request gDvm g g1 self st st1 now resetNow res _ hg hn hpc hcall hg1 ih =>
    subst hn
    exact checkTraceRequest_link hg ih hpc hcall hg1
  | setCodeAddr g g1 dPC nPC _ hg hn hcall hg1 ih =>
    obtain ⟨tbl0, i, e, hg0, _, he, hgg⟩ := setCodeAddr_cases hcall
    rw [hg] at hg0
    have ht : tbl0 = _ := (Option.some.inj hg0).symm
    subst ht
    subst hgg
    simp only [Option.some.injEq] at hg1
    subst hg1
    exact linkInv_congr ih (dpcAt_set_same he rfl) (chainAt_set_same he rfl)

/-- The slot where a walk from an occupied primary bucket ends is occupied. -/
theorem walk_end_occupied {n : Nat} {tbl : List JitEntry} (hlink : LinkInv n tbl) {h idx : Nat}
    (hocc : ∃ p, dpcAt tbl h = some p ∧ p ≠ 0) (k : Nat)
    (hk : (nextIdx tbl n)^[k] h = idx) (hidx : idx < n) :
    ∃ p, dpcAt tbl idx = some p ∧ p ≠ 0 := by
  cases k with
  | zero =>
    simp only [Function.iterate_zero, id_eq] at hk
    rw [← hk]
    exact hocc
  | succ k =>
    rw [Function.iterate_succ_apply'] at hk
    have hc : chainAt tbl ((nextIdx tbl n)^[k] h) = some idx := by
      have hk1 : (chainAt tbl ((nextIdx tbl n)^[k] h)).getD n = idx := hk
      cases hx : chainAt tbl ((nextIdx tbl n)^[k] h) with
      | none =>
        rw [hx] at hk1
        simp only [Option.getD_none] at hk1
        omega
      | some m =>
        rw [hx] at hk1
        simp only [Option.getD_some] at hk1
        rw [hk1]
    exact hlink _ _ hc (by omega)

/-- A walk from an empty primary bucket ends in that bucket. -/
theorem walk_from_empty {n : Nat} {tbl : List JitEntry} (hinv : ChainInv n tbl) {h idx : Nat}
    (hempty : dpcAt tbl h = some 0) (k : Nat) (hk : (nextIdx tbl n)^[k] h = idx)
    (hidx : idx < n) : idx = h := by
  cases k with
  | zero =>
    simp only [Function.iterate_zero, id_eq] at hk
    exact hk.symm
  | succ k =>
    rw [Function.iterate_succ_apply] at hk
    have hnx : nextIdx tbl n h = n := by
      unfold nextIdx
      rw [hinv.empty_end h hempty]
      rfl
    rw [hnx, iterate_end hinv.len] at hk
    omega

/-! ## The table is reported full exactly when it is full -/

theorem exTable2_reachableNonNull : ReachableNonNull exConsts 4 exTable2 :=
  ReachableNonNull.request exDvm { exGlobals with pJitEntryTable := some exTable1 }
    { exGlobals with pJitEntryTable := some exTable2 }
    exThread (exRequest 8) (exPromoted 8) 0 0 false
    (ReachableNonNull.request exDvm exGlobals { exGlobals with pJitEntryTable := some exTable1 }
      exThread (exRequest 4) (exPromoted 4) 0 0 false ReachableNonNull.startup rfl rfl
      (by decide) (by decide) rfl)
    rfl rfl (by decide) (by decide) rfl

/-- A pc that no entry of the table holds is in no slot. -/
theorem dpcAt_ne_of_forall {tbl : List JitEntry} {p : Nat} (h : ∀ e ∈ tbl, e.dPC ≠ p) :
    ∀ i, dpcAt tbl i ≠ some p := by
  intro i hi
  obtain ⟨e, he, hd⟩ := get_of_dpcAt hi
  obtain ⟨hlt, hv⟩ := List.getElem?_eq_some.mp he
  exact h e (by rw [← hv]; exact List.getElem_mem hlt) hd

/-- Why the pcs of the requests are taken non-null: a request for the null pc
on the table that holds pc 4 chains slot 1 behind slot 0 and stores the null pc
there, so that the chain of bucket 0 ends in an empty slot; the next request of
that bucket, for pc 8, then claims the chain tail itself, without a probe and
without a new link. -/
theorem nullPc_request_links_empty_slot :
    dvmJitCheckTraceRequest exConsts exDvm { exGlobals with pJitEntryTable := some exTable1 }
        exThread (exRequest 0) 0 0 =
      .ok (false, { exGlobals with pJitEntryTable := some exTableNull }, exPromoted 0) ∧
    chainAt exTableNull 0 = some 1 ∧ dpcAt exTableNull 1 = some 0 ∧
    dvmJitCheckTraceRequest exConsts exDvm { exGlobals with pJitEntryTable := some exTableNull }
        exThread (exRequest 8) 0 0 =
      .ok (false, { exGlobals with pJitEntryTable := some exTable2 }, exPromoted 8) := by
  decide

/-- C21 (table full exactly when full): in a table of capacity `n` reached by
requests for non-null pcs, a `dvmJitCheckTraceRequest` call in
`kJitTSelectRequest` for a pc that owns no slot (in particular a non-null one),
with the abort gate clear and the profile fresh, ends in the table-full outcome (`kJitTSelectAbort`,
kill switch invoked, table unchanged, result true) if and only if all `n`
slots are occupied. Otherwise exactly one slot `j`, empty before, gets
`dPC = pc`, no other dPC and no codeAddress changes, and the thread is promoted
to `kJitTSelect`. The slot is the primary bucket when that is empty (no chain
field changes); else it is the first empty slot met by probing forward with
wraparound from the tail `t` of the bucket's chain, and the chain field of `t`,
and no other, is set to `j`. -/
theorem C21_table_full_iff_full (c : Consts) (gDvm : DvmGlobals) (g : DvmJitGlobals)
    (self : Thread) (st : InterpState) (now resetNow n : Nat) (tbl : List JitEntry)
    (hr : ReachableNonNull c n tbl) (hg : g.pJitEntryTable = some tbl)
    (hn : g.maxTableEntries = n) (hgate : abortGate gDvm g self = false)
    (hfresh : ¬ u8sub now g.lastProfileResetTimeUsec > PROFILE_STALENESS_THRESHOLD)
    (hreq : st.jitState = .kJitTSelectRequest) (htr : st.trace ≠ [])
    (hh : c.dvmJitHash st.pc < n) (hnot : ∀ i, dpcAt tbl i ≠ some st.pc) :
    ((∀ i, i < n → dpcAt tbl i ≠ some 0) →
      dvmJitCheckTraceRequest c gDvm g self st now resetNow =
        .ok (true, dvmJitStopTranslationRequests g,
          { st with jitState := .kJitTSelectAbort })) ∧
    (¬ (∀ i, i < n → dpcAt tbl i ≠ some 0) →
      ∃ j tbl1 st1,
        dvmJitCheckTraceRequest c gDvm g self st now resetNow =
          .ok (false, { g with pJitEntryTable := some tbl1 }, st1) ∧
        st1.jitState = .kJitTSelect ∧
        dpcAt tbl j = some 0 ∧ dpcAt tbl1 j = some st.pc ∧
        (∀ i, i ≠ j → dpcAt tbl1 i = dpcAt tbl i) ∧
        (∀ i, codeAt tbl1 i = codeAt tbl i) ∧
        (dpcAt tbl (c.dvmJitHash st.pc) = some 0 →
          j = c.dvmJitHash st.pc ∧ chainAt tbl1 = chainAt tbl) ∧
        (dpcAt tbl (c.dvmJitHash st.pc) ≠ some 0 →
          ∃ t k0 k, (nextIdx tbl n)^[k0] (c.dvmJitHash st.pc) = t ∧
            chainAt tbl t = some n ∧ 1 ≤ k ∧ k < n ∧ j = (t + k) % n ∧
            (∀ m, 1 ≤ m → m < k → dpcAt tbl ((t + m) % n) ≠ some 0) ∧
            chainAt tbl1 t = some j ∧ ∀ i, i ≠ t → chainAt tbl1 i = chainAt tbl i)) ∧
    (∀ res g1 st1,
      dvmJitCheckTraceRequest c gDvm g self st now resetNow = .ok (res, g1, st1) →
      (st1.jitState = .kJitTSelectAbort ↔ ∀ i, i < n → dpcAt tbl i ≠ some 0)) := by
  subst hn
  have hinv := (Reachable.inv (reachableNonNull_reachable hr)).toChainInv
  have hlink := reachableNonNull_link hr
  obtain ⟨idx, e, he, hc, ⟨k0, hk0⟩, hacq⟩ := acquireSlot_not_found st hinv hh hnot
  have hidx : idx < tbl.length := lt_length_of_get he
  have hidxn : idx < g.maxTableEntries := by rw [← hinv.len]; exact hidx
  have hp : ∃ sp, promoteRequest c false st = .ok (false, sp) ∧
      sp.jitState = .kJitTSelect := by
    unfold promoteRequest
    cases htrace : st.trace with
    | nil => exact absurd htrace htr
    | cons old rest =>
      simp only [hreq]
      exact ⟨_, rfl, rfl⟩
  obtain ⟨sp, hp1, hp2⟩ := hp
  have hprim : dpcAt tbl (c.dvmJitHash st.pc) ≠ some 0 →
      ∃ p, dpcAt tbl (c.dvmJitHash st.pc) = some p ∧ p ≠ 0 := by
    intro hne
    obtain ⟨e0, he0⟩ := get_of_lt hinv.len hh
    refine ⟨e0.dPC, dpcAt_of_get he0, fun h0 => hne ?_⟩
    rw [dpcAt_of_get he0, h0]
  have hmain :
      (∃ j tbl1,
        dvmJitCheckTraceRequest c gDvm g self st now resetNow =
          .ok (false, { g with pJitEntryTable := some tbl1 }, sp) ∧
        dpcAt tbl j = some 0 ∧ dpcAt tbl1 j = some st.pc ∧
        (∀ i, i ≠ j → dpcAt tbl1 i = dpcAt tbl i) ∧
        (∀ i, codeAt tbl1 i = codeAt tbl i) ∧
        (dpcAt tbl (c.dvmJitHash st.pc) = some 0 →
          j = c.dvmJitHash st.pc ∧ chainAt tbl1 = chainAt tbl) ∧
        (dpcAt tbl (c.dvmJitHash st.pc) ≠ some 0 →
          ∃ t k0 k, (nextIdx tbl g.maxTableEntries)^[k0] (c.dvmJitHash st.pc) = t ∧
            chainAt tbl t = some g.maxTableEntries ∧ 1 ≤ k ∧ k < g.maxTableEntries ∧
            j = (t + k) % g.maxTableEntries ∧
            (∀ m, 1 ≤ m → m < k → dpcAt tbl ((t + m) % g.maxTableEntries) ≠ some 0) ∧
            chainAt tbl1 t = some j ∧ ∀ i, i ≠ t → chainAt tbl1 i = chainAt tbl i)) ∨
      ((∀ i, i < g.maxTableEntries → dpcAt tbl i ≠ some 0) ∧
        dvmJitCheckTraceRequest c gDvm g self st now resetNow =
          .ok (true, dvmJitStopTranslationRequests g,
            { st with jitState := .kJitTSelectAbort })) := by
    rw [checkTraceRequest_request hg hgate hfresh hreq, hacq]
    rcases lockedSection_outcome st hinv.len he (fun _ => hc) with
      ⟨hz, hl⟩ | ⟨hz, k, idx1, e1, hk1, hk2, hk3, hi, he1, hz1, hk4, hl⟩ | ⟨hz, hfull, hl⟩
    · left
      have hempty : dpcAt tbl idx = some 0 := by rw [dpcAt_of_get he, hz]
      refine ⟨idx, tbl.set idx { e with dPC := st.pc }, ?_, hempty, dpcAt_set_self _ hidx,
        ?_, ?_, ?_, ?_⟩
      · rw [hl]
        simp only [hp1]
      · intro i hne
        exact dpcAt_set_ne _ (Ne.symm hne)
      · intro i
        by_cases hii : idx = i
        · subst hii
          simp [codeAt, he, List.getElem?_set, hidx]
        · simp [codeAt, List.getElem?_set_ne hii]
      · intro hpe
        exact ⟨walk_from_empty hinv hpe k0 hk0 hidxn,
          @chainAt_set_same tbl idx e { e with dPC := st.pc } he rfl⟩
      · intro hpne
        obtain ⟨p, hpd, hp0⟩ := walk_end_occupied hlink (hprim hpne) k0 hk0 hidxn
        rw [hempty] at hpd
        exact absurd (Option.some.inj hpd).symm hp0
    · left
      have hempty : dpcAt tbl idx1 = some 0 := by rw [dpcAt_of_get he1, hz1]
      have hidx1 : idx1 < tbl.length := lt_length_of_get he1
      have hget : (tbl.set idx { e with chain := idx1 })[idx1]? = some e1 := by
        rw [List.getElem?_set_ne (Ne.symm hi)]
        exact he1
      have hidx1s : idx1 < (tbl.set idx { e with chain := idx1 }).length := by
        rw [List.length_set]
        exact hidx1
      have hchain : chainAt ((tbl.set idx { e with chain := idx1 }).set idx1
          { e1 with dPC := st.pc }) = chainAt (tbl.set idx { e with chain := idx1 }) :=
        @chainAt_set_same (tbl.set idx { e with chain := idx1 }) idx1 e1
          { e1 with dPC := st.pc } hget rfl
      refine ⟨idx1,
        (tbl.set idx { e with chain := idx1 }).set idx1 { e1 with dPC := st.pc }, ?_, hempty,
        dpcAt_set_self _ hidx1s, ?_, ?_, ?_, ?_⟩
      · rw [hl]
        simp only [hp1]
      · intro i hne
        rw [dpcAt_set_ne _ (Ne.symm hne)]
        exact congrFun (@dpcAt_set_same tbl idx e { e with chain := idx1 } he rfl) i
      · intro i
        by_cases hii : idx1 = i
        · subst hii
          simp [codeAt, he1, hget, List.getElem?_set, hidx1]
        · by_cases hij : idx = i
          · subst hij
            simp [codeAt, he, List.getElem?_set_ne hii, List.getElem?_set, hidx]
          · simp [codeAt, List.getElem?_set_ne hii, List.getElem?_set_ne hij]
      · intro hpe
        have hih := walk_from_empty hinv hpe k0 hk0 hidxn
        rw [← hih, dpcAt_of_get he] at hpe
        exact absurd (Option.some.inj hpe) hz
      · intro _
        refine ⟨idx, k0, k, hk0, by rw [chainAt_of_get he, hc], hk1, hk2, hk3, hk4, ?_, ?_⟩
        · rw [hchain]
          exact chainAt_set_self _ hidx
        · intro i hne
          rw [hchain]
          exact chainAt_set_ne _ (Ne.symm hne)
    · right
      refine ⟨hfull, ?_⟩
      rw [hl]
      simp only [promoteRequest]
  refine ⟨?_, ?_, ?_⟩
  · intro hfull
    rcases hmain with ⟨j, _, _, h0, _⟩ | ⟨_, hcall⟩
    · obtain ⟨ej, hej, _⟩ := get_of_dpcAt h0
      have hj : j < g.maxTableEntries := by rw [← hinv.len]; exact lt_length_of_get hej
      exact absurd h0 (hfull j hj)
    · exact hcall
  · intro hnfull
    rcases hmain with ⟨j, tbl1, hcall, h0, h1, h2, h3, h4, h5⟩ | ⟨hfull, _⟩
    · exact ⟨j, tbl1, sp, hcall, hp2, h0, h1, h2, h3, h4, h5⟩
    · exact absurd hfull hnfull
  · intro res g1 st1 hcall
    rcases hmain with ⟨j, _, hc1, h0, _⟩ | ⟨hfull, hc1⟩
    · rw [hc1] at hcall
      simp only [Except.ok.injEq, Prod.mk.injEq] at hcall
      obtain ⟨_, _, hst⟩ := hcall
      subst hst
      constructor
      · intro habs
        rw [hp2] at habs
        exact absurd habs (by simp)
      · intro hfull
        obtain ⟨ej, hej, _⟩ := get_of_dpcAt h0
        have hj : j < g.maxTableEntries := by rw [← hinv.len]; exact lt_length_of_get hej
        exact absurd h0 (hfull j hj)
    · rw [hc1] at hcall
      simp only [Except.ok.injEq, Prod.mk.injEq] at hcall
      obtain ⟨_, _, hst⟩ := hcall
      subst hst
      exact ⟨fun _ => hfull, fun _ => rfl⟩

/-- Example for C21: in the table that holds the pcs 4 and 8 of bucket 0 in the
slots 0 and 1, the request for pc 12 claims slot 2, the first empty slot after
the chain tail 1, and links it from there. -/
theorem C21_table_full_iff_full_witness :
    ∃ j tbl1 st1,
      dvmJitCheckTraceRequest exConsts exDvm { exGlobals with pJitEntryTable := some exTable2 }
          exThread (exRequest 12) 0 0 =
        .ok (false,
          { ({ exGlobals with pJitEntryTable := some exTable2 } : DvmJitGlobals) with
            pJitEntryTable := some tbl1 }, st1) ∧
      st1.jitState = .kJitTSelect ∧
      dpcAt exTable2 j = some 0 ∧ dpcAt tbl1 j = some (exRequest 12).pc ∧
      (∀ i, i ≠ j → dpcAt tbl1 i = dpcAt exTable2 i) ∧
      (∀ i, codeAt tbl1 i = codeAt exTable2 i) ∧
      (dpcAt exTable2 (exConsts.dvmJitHash (exRequest 12).pc) = some 0 →
        j = exConsts.dvmJitHash (exRequest 12).pc ∧ chainAt tbl1 = chainAt exTable2) ∧
      (dpcAt exTable2 (exConsts.dvmJitHash (exRequest 12).pc) ≠ some 0 →
        ∃ t k0 k, (nextIdx exTable2 4)^[k0] (exConsts.dvmJitHash (exRequest 12).pc) = t ∧
          chainAt exTable2 t = some 4 ∧ 1 ≤ k ∧ k < 4 ∧ j = (t + k) % 4 ∧
          (∀ m, 1 ≤ m → m < k → dpcAt exTable2 ((t + m) % 4) ≠ some 0) ∧
          chainAt tbl1 t = some j ∧ ∀ i, i ≠ t → chainAt tbl1 i = chainAt exTable2 i) :=
  (C21_table_full_iff_full exConsts exDvm { exGlobals with pJitEntryTable := some exTable2 }
    exThread (exRequest 12) 0 0 4 exTable2 exTable2_reachableNonNull rfl rfl (by decide)
    (by decide) (by decide) (by decide) (by decide)
    (dpcAt_ne_of_forall (by decide))).2.1 (by decide)

/-! ## The bound on the run index -/

theorem IndexInv.lt {st : InterpState} (h : IndexInv st) : st.currTraceRun < MAX_TRACE_LEN := by
  rcases h.2 with ⟨_, h1, h2⟩ | ⟨_, h1⟩
  · omega
  · exact h1

/-- One call in `kJitTSelect` with fewer than `MAX_TRACE_LEN` instructions
recorded, made for a pc that continues the current run or with the run index
below the number of instructions: the call returns and the run index stays
below the number of instructions. -/
theorem select_step_index (c : Consts) (gDvm : DvmGlobals) (g : DvmJitGlobals) (pc : Nat)
    (self : Thread) {st : InterpState} (insn : InsnInfo) (mallocOk : Bool)
    (hsel : st.jitState = .kJitTSelect) (hcap : MAX_TRACE_LEN ≤ st.trace.length)
    (htot : st.totalTraceLen < MAX_TRACE_LEN)
    (hb : (pc = st.currRunHead + st.currRunLen ∧ st.currTraceRun ≤ st.totalTraceLen) ∨
      st.currTraceRun < st.totalTraceLen) :
    ∃ sw g1 st1, dvmCheckJit c gDvm g pc self st insn mallocOk = .ok (sw, g1, st1) ∧
      IndexInv st1 := by
  have hmax : MAX_TRACE_LEN = 100 := rfl
  by_cases hnj : insn.flags &&& c.kInstrNoJit = c.kInstrNoJit
  · refine ⟨false, g, { st with jitState := .kJitTSelectEnd }, ?_, hcap, Or.inr ⟨Or.inl rfl, ?_⟩⟩
    · unfold dvmCheckJit
      simp only [hsel, if_pos hnj]
    · show st.currTraceRun < MAX_TRACE_LEN
      rcases hb with ⟨_, h1⟩ | h1 <;> omega
  · have hsa : ∃ sa, startNewRun c pc st = .ok sa ∧ sa.currTraceRun ≤ st.totalTraceLen ∧
        sa.totalTraceLen = st.totalTraceLen ∧ sa.trace.length = st.trace.length ∧
        sa.jitState = st.jitState := by
      by_cases hpc : pc = st.currRunHead + st.currRunLen
      · refine ⟨st, ?_, ?_, rfl, rfl, rfl⟩
        · unfold startNewRun
          rw [if_neg (not_not.mpr hpc)]
        · rcases hb with ⟨_, h1⟩ | h1 <;> omega
      · have hlt : st.currTraceRun < st.totalTraceLen := by
          rcases hb with ⟨h0, _⟩ | h1
          · exact absurd h0 hpc
          · exact h1
        obtain ⟨sa, hsa0, _⟩ := startNewRun_ok c pc st (by omega)
        rcases startNewRun_cases hsa0 with ⟨heq, _⟩ | ⟨_, _, hsaeq⟩
        · exact absurd heq hpc
        · refine ⟨sa, hsa0, ?_, ?_, ?_, ?_⟩
          · rw [hsaeq]
            show st.currTraceRun + 1 ≤ st.totalTraceLen
            omega
          · rw [hsaeq]
          · rw [hsaeq]
            simp
          · rw [hsaeq]
    obtain ⟨sa, hsa1, hsactr, hsatot, hsalen, hsajs⟩ := hsa
    obtain ⟨sb, hsb⟩ := addInsn_ok c sa insn (by omega)
    obtain ⟨r, _, htr, htotb, hctrb, _, _, _, _, _, _, hjs, hend⟩ := addInsn_cases hsb
    have hlenb : sb.trace.length = st.trace.length := by rw [htr, List.length_set, hsalen]
    have hctr : sb.currTraceRun < sb.totalTraceLen := by rw [hctrb, htotb]; omega
    have htotle : sb.totalTraceLen ≤ MAX_TRACE_LEN := by rw [htotb, hsatot]; omega
    have hsbinv : IndexInv sb := by
      refine ⟨by rw [hlenb]; exact hcap, ?_⟩
      rcases hjs with hj | hj
      · left
        refine ⟨by rw [hj, hsajs, hsel], hctr, ?_⟩
        by_contra hge
        have := hend (by rw [← htotb]; omega)
        rw [hj, hsajs, hsel] at this
        exact absurd this (by simp)
      · right
        exact ⟨Or.inl hj, by omega⟩
    by_cases hdop : debugOrProfile gDvm self = true
    · refine ⟨false, g, { sb with jitState := .kJitTSelectAbort }, ?_,
        by rw [← hlenb] at hcap; exact hcap, Or.inr ⟨Or.inr (Or.inl rfl), ?_⟩⟩
      · unfold dvmCheckJit
        simp only [hsel, if_neg hnj, hsa1, hsb, hdop, if_true, Bool.not_true]
      · show sb.currTraceRun < MAX_TRACE_LEN
        omega
    · have hdopf : debugOrProfile gDvm self = false := by
        cases hd : debugOrProfile gDvm self with
        | true => exact absurd hd hdop
        | false => rfl
      by_cases hret : insn.flags &&& c.kInstrCanReturn = c.kInstrCanReturn
      · obtain ⟨sw, g1, st1, hte⟩ :=
          traceSelectEnd_total c g sb false mallocOk (by rw [hlenb]; omega)
        refine ⟨sw, g1, st1, ?_, ?_⟩
        · unfold dvmCheckJit
          simp only [hsel, if_neg hnj, hsa1, hsb, hdopf, Bool.false_eq_true, if_false]
          rw [if_neg (not_not.mpr hret)]
          exact hte
        · obtain ⟨_, hcase⟩ := traceSelectEnd_cases hte
          rcases hcase with ⟨_, _, hs⟩ | ⟨_, _, _, hs⟩ | ⟨_, _, r1, _, hs, _⟩
          · rw [hs]
            exact hsbinv
          · rw [hs]
            refine ⟨by rw [← hlenb] at hcap; exact hcap, Or.inr ⟨Or.inr (Or.inl rfl), ?_⟩⟩
            show sb.currTraceRun < MAX_TRACE_LEN
            omega
          · rw [hs]
            refine ⟨?_, Or.inr ⟨Or.inr (Or.inr rfl), ?_⟩⟩
            · show MAX_TRACE_LEN ≤ (sb.trace.set sb.currTraceRun _).length
              rw [List.length_set, hlenb]
              exact hcap
            · show sb.currTraceRun < MAX_TRACE_LEN
              omega
      · refine ⟨false, g, sb, ?_, hsbinv⟩
        unfold dvmCheckJit
        simp only [hsel, if_neg hnj, hsa1, hsb, hdopf, Bool.false_eq_true, if_false]
        rw [if_pos hret]

/-- Every `dvmCheckJit` call keeps the invariant of the run index, and
returns. -/
theorem dvmCheckJit_index (c : Consts) (gDvm : DvmGlobals) (g : DvmJitGlobals) (pc : Nat)
    (self : Thread) {st : InterpState} (insn : InsnInfo) (mallocOk : Bool)
    (hinv : IndexInv st) :
    ∃ sw g1 st1, dvmCheckJit c gDvm g pc self st insn mallocOk = .ok (sw, g1, st1) ∧
      IndexInv st1 := by
  obtain ⟨hcap, hcase⟩ := hinv
  rcases hcase with ⟨hsel, hctr, htot⟩ | ⟨hjs, hctr⟩
  · exact select_step_index c gDvm g pc self insn mallocOk hsel hcap htot (Or.inr hctr)
  · rcases hjs with hj | hj | hj
    · obtain ⟨sw, g1, st1, hte⟩ :=
        traceSelectEnd_total c g st (debugOrProfile gDvm self) mallocOk (by omega)
      refine ⟨sw, g1, st1, ?_, ?_⟩
      · unfold dvmCheckJit
        simp only [hj]
        exact hte
      · obtain ⟨_, hcs⟩ := traceSelectEnd_cases hte
        rcases hcs with ⟨_, _, hs⟩ | ⟨_, _, _, hs⟩ | ⟨_, _, r1, _, hs, _⟩
        · rw [hs]
          exact ⟨hcap, Or.inr ⟨Or.inl hj, hctr⟩⟩
        · rw [hs]
          exact ⟨hcap, Or.inr ⟨Or.inr (Or.inl rfl), hctr⟩⟩
        · rw [hs]
          refine ⟨?_, Or.inr ⟨Or.inr (Or.inr rfl), hctr⟩⟩
          show MAX_TRACE_LEN ≤ (st.trace.set st.currTraceRun _).length
          rw [List.length_set]
          exact hcap
    · refine ⟨!debugOrProfile gDvm self, g, { st with jitState := .kJitNormal }, ?_, hcap,
        Or.inr ⟨Or.inr (Or.inr rfl), hctr⟩⟩
      unfold dvmCheckJit
      simp only [hj]
    · refine ⟨false, g, st, ?_, hcap, Or.inr ⟨Or.inr (Or.inr hj), hctr⟩⟩
      unfold dvmCheckJit
      simp only [hj]

/-- Every sequence of `dvmCheckJit` calls keeps the invariant of the run index,
and returns. -/
theorem runCheckJit_index (c : Consts) :
    ∀ (ks : List CheckJitCall) (g : DvmJitGlobals) (st : InterpState), IndexInv st →
      ∃ g1 st1, runCheckJit c (g, st) ks = .ok (g1, st1) ∧ IndexInv st1 := by
  intro ks
  induction ks with
  | nil =>
    intro g st hinv
    exact ⟨g, st, rfl, hinv⟩
  | cons k ks ih =>
    intro g st hinv
    obtain ⟨sw, g1, st1, hcall, hinv1⟩ :=
      dvmCheckJit_index c k.gDvm g k.pc k.self k.insn k.mallocOk hinv
    obtain ⟨g2, st2, hrun, hinv2⟩ := ih g1 st1 hinv1
    refine ⟨g2, st2, ?_, hinv2⟩
    simp only [runCheckJit, hcall]
    exact hrun

/-- A selection promoted at the head and driven by calls of which the first is
at the head: all calls return and the run index stays below `MAX_TRACE_LEN`. -/
theorem promoted_index (c : Consts) (g0 : DvmJitGlobals) {st0 : InterpState} {h : Nat}
    (hsel : st0.jitState = .kJitTSelect) (hh : st0.currRunHead = h)
    (hl : st0.currRunLen = 0) (hc : st0.currTraceRun = 0) (ht : st0.totalTraceLen = 0)
    (hcap : MAX_TRACE_LEN ≤ st0.trace.length) (ks : List CheckJitCall)
    (hfirst : ∀ x ∈ ks.head?, x.pc = h) :
    ∃ g1 st1, runCheckJit c (g0, st0) ks = .ok (g1, st1) ∧
      st1.currTraceRun < MAX_TRACE_LEN ∧ MAX_TRACE_LEN ≤ st1.trace.length := by
  have hmax : 0 < MAX_TRACE_LEN := by decide
  cases ks with
  | nil => exact ⟨g0, st0, rfl, by rw [hc]; exact hmax, hcap⟩
  | cons k ks =>
    have hpc : k.pc = h := hfirst k (by simp)
    obtain ⟨sw, g1, st1, hcall, hinv1⟩ :=
      select_step_index c k.gDvm g0 k.pc k.self k.insn k.mallocOk hsel hcap
        (by rw [ht]; exact hmax) (Or.inl ⟨by rw [hh, hl, hpc]; rfl, by rw [hc, ht]⟩)
    obtain ⟨g2, st2, hrun, hinv2⟩ := runCheckJit_index c ks g1 st1 hinv1
    refine ⟨g2, st2, ?_, hinv2.lt, hinv2.1⟩
    simp only [runCheckJit, hcall]
    exact hrun

set_option maxRecDepth 100000 in
/-- C22 (counterexample): the selection at head 4 has a trace array of exactly
`MAX_TRACE_LEN` = 100 runs and is driven by a hundred instructions at the pcs
6, 8, 10, ...: the first one is not at the trace head, and none continues its
predecessor. Each call opens a new run: after 99 calls the thread is still in
`kJitTSelect` with `currTraceRun` = 99 = `totalTraceLen`, and the next call
stores into `trace[100]`, outside the array. With room for one run more, the
same calls end with `currTraceRun` = 100. -/
theorem C22_counterexample :
    dvmJitCheckTraceRequest exConsts exDvm exGlobals exThread exRequestFull 0 0 =
      .ok (false, exGlobals1, exPromotedFull) ∧
    exPromotedFull.trace.length = MAX_TRACE_LEN ∧ exPromotedFull.currTraceHead = 4 ∧
    exScattered.length = 100 ∧ (exScattered.map (fun k => k.pc)).head? = some 6 ∧
    (runCheckJit exConsts (exGlobals1, exPromotedFull) (exScattered.take 99)).map
        (fun p => (p.2.jitState, p.2.currTraceRun, p.2.totalTraceLen)) =
      .ok (JitState.kJitTSelect, 99, 99) ∧
    runCheckJit exConsts (exGlobals1, exPromotedFull) exScattered = .error .outOfBounds ∧
    (runCheckJit exConsts (exGlobals1, exPromotedWide) exScattered).map
        (fun p => (p.2.jitState, p.2.currTraceRun, p.2.totalTraceLen)) =
      .ok (JitState.kJitTSelectEnd, 100, 100) := by
  decide

/-- C22, amended (run-index bound): a selection is started by the promotion
step of `dvmJitCheckTraceRequest` with a trace array of at least
`MAX_TRACE_LEN` runs and driven by any sequence of `dvmCheckJit` calls whose
first pc is the trace head, with arbitrary later pcs, opcode flags, widths,
debugger and allocation outcomes. Then every call returns (no access to
`trace[]` is out of bounds), and after every call, hence at every index used to
read or write `trace[]`, `currTraceRun` is strictly less than `MAX_TRACE_LEN`
(100). -/
theorem C22_run_index_bound (c : Consts) (gDvm : DvmGlobals) (gR g0 : DvmJitGlobals)
    (self : Thread) (stR st0 : InterpState) (now resetNow : Nat) (res : Bool)
    (ks : List CheckJitCall)
    (hreq : stR.jitState = .kJitTSelectRequest)
    (hcall : dvmJitCheckTraceRequest c gDvm gR self stR now resetNow = .ok (res, g0, st0))
    (hsel : st0.jitState = .kJitTSelect)
    (hfirst : ∀ x ∈ ks.head?, x.pc = stR.pc)
    (hcap : MAX_TRACE_LEN ≤ stR.trace.length) :
    (∃ g1 st1, runCheckJit c (g0, st0) ks = .ok (g1, st1) ∧
      st1.currTraceRun < MAX_TRACE_LEN ∧ st1.currTraceRun < st1.trace.length) ∧
    (∀ j, ∃ gj stj, runCheckJit c (g0, st0) (ks.take j) = .ok (gj, stj) ∧
      stj.currTraceRun < MAX_TRACE_LEN ∧ stj.currTraceRun < stj.trace.length) ∧
    MAX_TRACE_LEN = 100 := by
  obtain ⟨old, rest, htr, hst0⟩ := checkTraceRequest_promoted hreq hcall hsel
  have hcap0 : MAX_TRACE_LEN ≤ st0.trace.length := by
    rw [hst0]
    rw [htr] at hcap
    exact hcap
  have key : ∀ ks1 : List CheckJitCall, (∀ x ∈ ks1.head?, x.pc = stR.pc) →
      ∃ g1 st1, runCheckJit c (g0, st0) ks1 = .ok (g1, st1) ∧
        st1.currTraceRun < MAX_TRACE_LEN ∧ st1.currTraceRun < st1.trace.length := by
    intro ks1 h1
    obtain ⟨g1, st1, hrun, hlt, hc1⟩ :=
      promoted_index c g0 hsel (by rw [hst0]) (by rw [hst0]) (by rw [hst0]) (by rw [hst0])
        hcap0 ks1 h1
    exact ⟨g1, st1, hrun, hlt, by omega⟩
  refine ⟨key ks hfirst, ?_, rfl⟩
  intro j
  apply key
  intro x hx
  apply hfirst x
  cases ks with
  | nil => simp at hx
  | cons k ks1 =>
    cases j with
    | zero => simp at hx
    | succ j =>
      simp only [List.take_succ_cons, List.head?_cons, Option.mem_def, Option.some.injEq] at hx
      simp [hx]

/-- Example for C22: the selection at pc 4 with a trace array of 100 runs, fed
the ten instructions at the pcs 4 to 13. -/
theorem C22_run_index_bound_witness :
    ∃ g1 st1, runCheckJit exConsts (exGlobals1, exPromotedFull) exContiguous = .ok (g1, st1) ∧
      st1.currTraceRun < MAX_TRACE_LEN ∧ st1.currTraceRun < st1.trace.length :=
  (C22_run_index_bound exConsts exDvm exGlobals exGlobals1 exThread exRequestFull
    exPromotedFull 0 0 false exContiguous (by decide) (by decide) (by decide)
    (by simp [exContiguous, exPlainCall, exRequestFull, exRequest]) (by decide)).1

end Jit
